import Mathlib

/-!
# Smart pointers of `sptr.h`

A shallow embedding of `RefCntBlock`, `SharedPtr<T>` and `WeakPtr<T>`, and of
`UniquePtr<T>` (which has a store of its own, `UState`).

* Objects live in a store: a `SharedPtr` or `WeakPtr` object is named by its
  index in `State.shared` / `State.weak`.  Member functions take the index of
  `this` (and of `other`), read and write the fields through the store, and so
  behave as the C++ does when `this` and `other` are the same object.
* Control blocks live in the cells of `State.blocks`; the address of a block
  is its index.  `new RefCntBlock()` appends a zero-initialised live cell,
  `delete block` marks the cell dead and records the address in
  `State.deletedBlocks`.  Reading a block that is not allocated, or has been
  deleted, is undefined behaviour: the operation returns `none`.
* `delete ptr` is recorded in `State.deletedValues` with the pointer it was
  applied to (`none` for `delete nullptr`).
* `size_t` is taken to be 64 bits wide; `++` and `--` wrap around.
-/

namespace Sptr

/-- A nullable raw pointer: `none` is `nullptr`, `some a` is the address `a`. -/
abbrev Ptr := Option Nat

/-- Number of values of `size_t`. -/
def SIZE_MOD : Nat := 2 ^ 64

/-- The effect of `++x` on a `size_t`. -/
def incr (x : Nat) : Nat := (x + 1) % SIZE_MOD

/-- The effect of `--x` on a `size_t`. -/
def decr (x : Nat) : Nat := (x + SIZE_MOD - 1) % SIZE_MOD

/-- The struct `RefCntBlock { size_t strong, weak; }`. -/
structure RefCntBlock where
  strong : Nat
  weak : Nat
deriving DecidableEq, Repr

/-- The fields of a `SharedPtr<T>` object. -/
structure SharedPtr where
  ptr : Ptr
  block : Ptr
deriving DecidableEq, Repr

/-- The fields of a `WeakPtr<T>` object. -/
structure WeakPtr where
  ptr : Ptr
  block : Ptr
deriving DecidableEq, Repr

/-- A heap cell that holds a control block: the block, and whether it is still
allocated.  A deleted block keeps the contents it had when it was deleted. -/
structure Cell where
  blk : RefCntBlock
  live : Bool
deriving DecidableEq, Repr

/-- Program state: the control blocks, the two deletion logs and the objects. -/
structure State where
  /-- every control block allocated so far, by address -/
  blocks : List Cell
  /-- addresses passed to `delete block`, latest first -/
  deletedBlocks : List Nat
  /-- pointers passed to `delete ptr`, latest first -/
  deletedValues : List Ptr
  /-- the `SharedPtr` objects; `none` once destroyed -/
  shared : List (Option SharedPtr)
  /-- the `WeakPtr` objects; `none` once destroyed -/
  weak : List (Option WeakPtr)
deriving DecidableEq, Repr

namespace State

/-- The state before anything has been constructed. -/
def init : State := ⟨[], [], [], [], []⟩

/-- Read `*block`: defined only for an allocated block that was not deleted. -/
def load (s : State) (b : Nat) : Option RefCntBlock :=
  s.blocks[b]?.bind (fun c => if c.live then some c.blk else none)

/-- The counters last written to the block at address `b`, deleted or not. -/
def contents (s : State) (b : Nat) : Option RefCntBlock :=
  s.blocks[b]?.map Cell.blk

/-- Write `*block`. -/
def store (s : State) (b : Nat) (c : RefCntBlock) : State :=
  { s with blocks := s.blocks.modify (fun cell => { cell with blk := c }) b }

/-- The expression `new RefCntBlock()`: a zeroed block at a fresh address. -/
def newBlock (s : State) : Nat × State :=
  (s.blocks.length, { s with blocks := s.blocks ++ [⟨⟨0, 0⟩, true⟩] })

/-- The statement `delete block`. -/
def deleteBlock (s : State) (b : Nat) : State :=
  { s with
    blocks := s.blocks.modify (fun cell => { cell with live := false }) b
    deletedBlocks := b :: s.deletedBlocks }

/-- The statement `delete ptr`. -/
def deletePtr (s : State) (p : Ptr) : State :=
  { s with deletedValues := p :: s.deletedValues }

/-- The live `SharedPtr` object at index `i`. -/
def getS (s : State) (i : Nat) : Option SharedPtr := s.shared[i]?.join

/-- The live `WeakPtr` object at index `i`. -/
def getW (s : State) (i : Nat) : Option WeakPtr := s.weak[i]?.join

/-- Overwrite the fields of the `SharedPtr` object at index `i`. -/
def setS (s : State) (i : Nat) (v : SharedPtr) : State :=
  { s with shared := s.shared.set i (some v) }

/-- Overwrite the fields of the `WeakPtr` object at index `i`. -/
def setW (s : State) (i : Nat) (v : WeakPtr) : State :=
  { s with weak := s.weak.set i (some v) }

/-- Storage for a `SharedPtr` under construction; its index is the old length. -/
def pushS (s : State) (v : SharedPtr) : State :=
  { s with shared := s.shared ++ [some v] }

/-- Storage for a `WeakPtr` under construction; its index is the old length. -/
def pushW (s : State) (v : WeakPtr) : State :=
  { s with weak := s.weak ++ [some v] }

/-- End of lifetime of the `SharedPtr` object at index `i`. -/
def dropS (s : State) (i : Nat) : State :=
  { s with shared := s.shared.set i none }

/-- End of lifetime of the `WeakPtr` object at index `i`. -/
def dropW (s : State) (i : Nat) : State :=
  { s with weak := s.weak.set i none }

/-- The statement `if (block) { ++block->strong; }`. -/
def bumpStrong (s : State) (block : Ptr) : Option State :=
  match block with
  | none => some s
  | some b => do
    let c ← s.load b
    pure (s.store b { c with strong := incr c.strong })

/-- The statement `if (block) { ++block->weak; }`. -/
def bumpWeak (s : State) (block : Ptr) : Option State :=
  match block with
  | none => some s
  | some b => do
    let c ← s.load b
    pure (s.store b { c with weak := incr c.weak })

end State

/-! ## `SharedPtr<T>` -/

namespace SharedPtr

/-- The constructor `SharedPtr()`: both fields null. -/
def ctorDefault (s : State) : Option State :=
  some (s.pushS ⟨none, none⟩)

/-- The constructor `SharedPtr(const SharedPtr& other)`. -/
def ctorCopy (s : State) (other : Nat) : Option State := do
  let o ← s.getS other
  let s := s.pushS ⟨o.ptr, o.block⟩
  s.bumpStrong o.block

/-- The member `void Clean()`. -/
def Clean (s : State) (this : Nat) : Option State := do
  let self ← s.getS this
  match self.block with
  | none => pure s
  | some b => do
    let c ← s.load b
    let s := s.store b { c with strong := decr c.strong }
    let c ← s.load b
    if c.strong = 0 then
      let s := s.deletePtr self.ptr
      let c ← s.load b
      if c.weak = 0 then
        pure (s.deleteBlock b)
      else
        pure s
    else
      pure s

/-- The member `void Reset()`. -/
def Reset (s : State) (this : Nat) : Option State := do
  let s ← Clean s this
  let self ← s.getS this
  let s := s.setS this { self with ptr := none }
  let self ← s.getS this
  pure (s.setS this { self with block := none })

/-- The guarded call `if (block != other.block) { Clean(); }`. -/
def cleanIfDiffers (s : State) (this : Nat) (otherBlock : Ptr) : Option State := do
  let self ← s.getS this
  if self.block ≠ otherBlock then Clean s this else pure s

/-- The statements `ptr = other.ptr; block = other.block;` between two `SharedPtr`s. -/
def adopt (s : State) (this other : Nat) : Option State := do
  let self ← s.getS this
  let o ← s.getS other
  let s := s.setS this { self with ptr := o.ptr }
  let self ← s.getS this
  let o ← s.getS other
  pure (s.setS this { self with block := o.block })

/-- The operator `operator=(const SharedPtr& other)`. -/
def assign (s : State) (this other : Nat) : Option State := do
  let o ← s.getS other
  let s ← cleanIfDiffers s this o.block
  let s ← adopt s this other
  let self ← s.getS this
  s.bumpStrong self.block

/-- The constructor `SharedPtr(SharedPtr&& other)`. -/
def ctorMove (s : State) (other : Nat) : Option State := do
  let o ← s.getS other
  let s := s.pushS ⟨o.ptr, o.block⟩
  let s ← s.bumpStrong o.block
  Reset s other

/-- The operator `operator=(SharedPtr&& other)`. -/
def moveAssign (s : State) (this other : Nat) : Option State := do
  let o ← s.getS other
  let s ← cleanIfDiffers s this o.block
  let s ← adopt s this other
  let self ← s.getS this
  let s ← s.bumpStrong self.block
  Reset s other

/-- The constructor `SharedPtr(T* p)`. -/
def ctorRaw (s : State) (p : Ptr) : Option State := do
  let (b, s) := s.newBlock
  let s := s.pushS ⟨p, some b⟩
  s.bumpStrong (some b)

/-- The constructor `SharedPtr(const WeakPtr<T>& other)`. -/
def ctorWeak (s : State) (other : Nat) : Option State := do
  let o ← s.getW other
  let s := s.pushS ⟨o.ptr, o.block⟩
  s.bumpStrong o.block

/-- The destructor `~SharedPtr()`, followed by the end of the object's lifetime. -/
def dtor (s : State) (this : Nat) : Option State := do
  let s ← Clean s this
  pure (s.dropS this)

end SharedPtr

/-! ## `WeakPtr<T>` -/

namespace WeakPtr

/-- The constructor `WeakPtr()`: `block` is null; `ptr` is left uninitialised
by the source and is taken to be null here. -/
def ctorDefault (s : State) : Option State :=
  some (s.pushW ⟨none, none⟩)

/-- The constructor `WeakPtr(const WeakPtr& other)`. -/
def ctorCopy (s : State) (other : Nat) : Option State := do
  let o ← s.getW other
  let s := s.pushW ⟨o.ptr, o.block⟩
  s.bumpWeak o.block

/-- The member `void Clean()`. -/
def Clean (s : State) (this : Nat) : Option State := do
  let self ← s.getW this
  match self.block with
  | none => pure s
  | some b => do
    let c ← s.load b
    let s := s.store b { c with weak := decr c.weak }
    let c ← s.load b
    if c.strong = 0 ∧ c.weak = 0 then
      pure (s.deleteBlock b)
    else
      pure s

/-- The member `void Reset()`. -/
def Reset (s : State) (this : Nat) : Option State := do
  let s ← Clean s this
  let self ← s.getW this
  let s := s.setW this { self with block := none }
  let self ← s.getW this
  pure (s.setW this { self with ptr := none })

/-- The guarded call `if (block != other.block) { Clean(); }`. -/
def cleanIfDiffers (s : State) (this : Nat) (otherBlock : Ptr) : Option State := do
  let self ← s.getW this
  if self.block ≠ otherBlock then Clean s this else pure s

/-- The statements `ptr = other.ptr; block = other.block;` between two `WeakPtr`s. -/
def adopt (s : State) (this other : Nat) : Option State := do
  let self ← s.getW this
  let o ← s.getW other
  let s := s.setW this { self with ptr := o.ptr }
  let self ← s.getW this
  let o ← s.getW other
  pure (s.setW this { self with block := o.block })

/-- The statements `block = other.block; ptr = other.ptr;` between two `WeakPtr`s. -/
def adoptBlockFirst (s : State) (this other : Nat) : Option State := do
  let self ← s.getW this
  let o ← s.getW other
  let s := s.setW this { self with block := o.block }
  let self ← s.getW this
  let o ← s.getW other
  pure (s.setW this { self with ptr := o.ptr })

/-- The operator `operator=(const WeakPtr& other)`. -/
def assign (s : State) (this other : Nat) : Option State := do
  let o ← s.getW other
  let s ← cleanIfDiffers s this o.block
  let s ← adopt s this other
  let self ← s.getW this
  s.bumpWeak self.block

/-- The constructor `WeakPtr(WeakPtr&& other)`. -/
def ctorMove (s : State) (other : Nat) : Option State := do
  let o ← s.getW other
  let s := s.pushW ⟨o.ptr, o.block⟩
  let s ← s.bumpWeak o.block
  Reset s other

/-- The operator `operator=(WeakPtr&& other)`. -/
def moveAssign (s : State) (this other : Nat) : Option State := do
  let o ← s.getW other
  let s ← cleanIfDiffers s this o.block
  let s ← adoptBlockFirst s this other
  let self ← s.getW this
  let s ← s.bumpWeak self.block
  Reset s other

/-- The constructor `WeakPtr(const SharedPtr<T>& other)`. -/
def ctorShared (s : State) (other : Nat) : Option State := do
  let o ← s.getS other
  let s := s.pushW ⟨o.ptr, o.block⟩
  s.bumpWeak o.block

/-- The operator `operator=(const SharedPtr<T>& other)`. -/
def assignShared (s : State) (this other : Nat) : Option State := do
  let o ← s.getS other
  let s ← cleanIfDiffers s this o.block
  let self ← s.getW this
  let o ← s.getS other
  let s := s.setW this { self with block := o.block }
  let self ← s.getW this
  let o ← s.getS other
  let s := s.setW this { self with ptr := o.ptr }
  let self ← s.getW this
  s.bumpWeak self.block

/-- The member `bool Expired() const`, with the state it leaves. -/
def Expired (s : State) (this : Nat) : Option (Bool × State) := do
  let self ← s.getW this
  match self.block with
  | none => pure (true, s)
  | some b => do
    let c ← s.load b
    pure (decide (c.strong = 0), s)

/-- The member `SharedPtr<T> Lock()`: the returned object is the `SharedPtr`
built by `SharedPtr(const WeakPtr<T>&)` from `*this`. -/
def Lock (s : State) (this : Nat) : Option State :=
  SharedPtr.ctorWeak s this

/-- The destructor `~WeakPtr()`, followed by the end of the object's lifetime. -/
def dtor (s : State) (this : Nat) : Option State := do
  let s ← Clean s this
  pure (s.dropW this)

end WeakPtr

/-! ## Sequences of operations -/

/-- One call of the public interface on the objects of the store.  A
constructor creates the next object of its class; the other operations name
the objects they act on by index. -/
inductive Op where
  | sharedDefault
  | sharedRaw (p : Ptr)
  | sharedCopy (other : Nat)
  | sharedAssign (this other : Nat)
  | sharedMove (other : Nat)
  | sharedMoveAssign (this other : Nat)
  | sharedFromWeak (other : Nat)
  | sharedReset (this : Nat)
  | sharedDtor (this : Nat)
  | weakDefault
  | weakCopy (other : Nat)
  | weakAssign (this other : Nat)
  | weakMove (other : Nat)
  | weakMoveAssign (this other : Nat)
  | weakFromShared (other : Nat)
  | weakAssignShared (this other : Nat)
  | weakReset (this : Nat)
  | weakExpired (this : Nat)
  | weakLock (this : Nat)
  | weakDtor (this : Nat)
deriving DecidableEq, Repr

/-- Run one operation. -/
def step (s : State) : Op → Option State
  | .sharedDefault => SharedPtr.ctorDefault s
  | .sharedRaw p => SharedPtr.ctorRaw s p
  | .sharedCopy other => SharedPtr.ctorCopy s other
  | .sharedAssign this other => SharedPtr.assign s this other
  | .sharedMove other => SharedPtr.ctorMove s other
  | .sharedMoveAssign this other => SharedPtr.moveAssign s this other
  | .sharedFromWeak other => SharedPtr.ctorWeak s other
  | .sharedReset this => SharedPtr.Reset s this
  | .sharedDtor this => SharedPtr.dtor s this
  | .weakDefault => WeakPtr.ctorDefault s
  | .weakCopy other => WeakPtr.ctorCopy s other
  | .weakAssign this other => WeakPtr.assign s this other
  | .weakMove other => WeakPtr.ctorMove s other
  | .weakMoveAssign this other => WeakPtr.moveAssign s this other
  | .weakFromShared other => WeakPtr.ctorShared s other
  | .weakAssignShared this other => WeakPtr.assignShared s this other
  | .weakReset this => WeakPtr.Reset s this
  | .weakExpired this => (WeakPtr.Expired s this).map Prod.snd
  | .weakLock this => WeakPtr.Lock s this
  | .weakDtor this => WeakPtr.dtor s this

/-- Run a sequence of operations, first to last. -/
def run (s : State) : List Op → Option State
  | [] => some s
  | op :: ops => (step s op).bind (fun s => run s ops)

/-- The states passed through by a run: after each operation, first to last. -/
def trace (s : State) : List Op → List (Option State)
  | [] => []
  | op :: ops =>
    match step s op with
    | none => [none]
    | some s1 => some s1 :: trace s1 ops

namespace State

/-- Number of live `SharedPtr` objects whose `block` field is the address `b`. -/
def sharedRefs (s : State) (b : Nat) : Nat :=
  s.shared.countP (fun o => decide (o.map SharedPtr.block = some (some b)))

/-- Number of live `WeakPtr` objects whose `block` field is the address `b`. -/
def weakRefs (s : State) (b : Nat) : Nat :=
  s.weak.countP (fun o => decide (o.map WeakPtr.block = some (some b)))

/-- Number of times `delete ptr` ran on the address `v`. -/
def valueDeletes (s : State) (v : Nat) : Nat :=
  s.deletedValues.count (some v)

/-- Number of times `delete block` ran on the address `b`. -/
def blockDeletes (s : State) (b : Nat) : Nat :=
  s.deletedBlocks.count b

end State

/-! ## Sample states -/

namespace State

/-- The state after `SharedPtr<T> a(v)`, for a value `v` at address 7: one
owner (object 0) of block 0, whose counters are `strong = 1`, `weak = 0`. -/
def oneOwner : State :=
  ⟨[⟨⟨1, 0⟩, true⟩], [], [], [some ⟨some 7, some 0⟩], []⟩

/-- The state after `SharedPtr<T> a(v); SharedPtr<T> b(a);`: two owners
(objects 0 and 1) of block 0, whose counters are `strong = 2`, `weak = 0`. -/
def twoOwners : State :=
  ⟨[⟨⟨2, 0⟩, true⟩], [], [], [some ⟨some 7, some 0⟩, some ⟨some 7, some 0⟩], []⟩

/-- The state after `SharedPtr<T> a(v); WeakPtr<T> w(a);` and the destruction
of `a`: the value was deleted, the observer (object 0) still holds block 0,
whose counters are `strong = 0`, `weak = 1`. -/
def expiredObserver : State :=
  ⟨[⟨⟨0, 1⟩, true⟩], [], [some 7], [none], [some ⟨some 7, some 0⟩]⟩

end State

/-! ## `UniquePtr<T>` -/

/-- The field of a `UniquePtr<T>` object. -/
structure UniquePtr where
  ptr_ : Ptr
deriving DecidableEq, Repr

/-- State of a program over `UniquePtr` objects: the objects (`none` once
destroyed) and the pointers passed to `delete ptr_`, latest first. -/
structure UState where
  objs : List (Option UniquePtr)
  deleted : List Ptr
deriving DecidableEq, Repr

namespace UState

/-- The live `UniquePtr` object at index `i`. -/
def get (s : UState) (i : Nat) : Option UniquePtr := s.objs[i]?.join

/-- Overwrite the field of the `UniquePtr` object at index `i`. -/
def set (s : UState) (i : Nat) (v : UniquePtr) : UState :=
  { s with objs := s.objs.set i (some v) }

/-- Storage for a `UniquePtr` under construction; its index is the old length. -/
def push (s : UState) (v : UniquePtr) : UState :=
  { s with objs := s.objs ++ [some v] }

/-- End of lifetime of the `UniquePtr` object at index `i`. -/
def drop (s : UState) (i : Nat) : UState :=
  { s with objs := s.objs.set i none }

/-- The statement `delete ptr_`. -/
def deletePtr (s : UState) (p : Ptr) : UState :=
  { s with deleted := p :: s.deleted }

end UState

namespace UniquePtr

/-- The constructor `UniquePtr()`. -/
def ctorDefault (s : UState) : Option UState :=
  some (s.push ⟨none⟩)

/-- The constructor `UniquePtr(T* p)`. -/
def ctorRaw (s : UState) (p : Ptr) : Option UState :=
  some (s.push ⟨p⟩)

/-- The constructor `UniquePtr(UniquePtr&& other)`. -/
def ctorMove (s : UState) (other : Nat) : Option UState := do
  let o ← s.get other
  let s := s.push ⟨o.ptr_⟩
  let o ← s.get other
  pure (s.set other { o with ptr_ := none })

/-- The operator `operator=(UniquePtr&& other)`. -/
def moveAssign (s : UState) (this other : Nat) : Option UState := do
  let _ ← s.get this
  let _ ← s.get other
  if this ≠ other then
    let self ← s.get this
    let s := s.deletePtr self.ptr_
    let self ← s.get this
    let o ← s.get other
    let s := s.set this { self with ptr_ := o.ptr_ }
    let o ← s.get other
    pure (s.set other { o with ptr_ := none })
  else
    pure s

/-- The destructor `~UniquePtr()`, followed by the end of the object's lifetime. -/
def dtor (s : UState) (this : Nat) : Option UState := do
  let self ← s.get this
  let s := s.deletePtr self.ptr_
  pure (s.drop this)

end UniquePtr

namespace State

/-- The state after `SharedPtr<T> a(v); SharedPtr<T> b(u);`, for values `v`
at address 7 and `u` at address 8: object 0 owns block 0, object 1 owns
block 1, both with counters `strong = 1`, `weak = 0`. -/
def twoBlocks : State :=
  ⟨[⟨⟨1, 0⟩, true⟩, ⟨⟨1, 0⟩, true⟩], [], [],
    [some ⟨some 7, some 0⟩, some ⟨some 8, some 1⟩], []⟩

end State

/-! ## Properties kept by every operation -/

/-- A property of states that each elementary step of the member functions
keeps: writing, adding or ending an object, the guarded increments, the two
`Clean` functions, and `SharedPtr(T*)`. -/
structure Stable (P : State → Prop) : Prop where
  pushS : ∀ s v, P s → P (s.pushS v)
  pushW : ∀ s v, P s → P (s.pushW v)
  setS : ∀ s i v, P s → P (s.setS i v)
  setW : ∀ s i v, P s → P (s.setW i v)
  dropS : ∀ s i, P s → P (s.dropS i)
  dropW : ∀ s i, P s → P (s.dropW i)
  bumpStrong : ∀ s blk s1, s.bumpStrong blk = some s1 → P s → P s1
  bumpWeak : ∀ s blk s1, s.bumpWeak blk = some s1 → P s → P s1
  cleanS : ∀ s i s1, SharedPtr.Clean s i = some s1 → P s → P s1
  cleanW : ∀ s i s1, WeakPtr.Clean s i = some s1 → P s → P s1
  raw : ∀ s p s1, SharedPtr.ctorRaw s p = some s1 → P s → P s1

namespace State

/-- Every address in the `delete block` log occurs there once, and its block
is dead and holds the counters (0, 0). -/
def deletedOk (s : State) : Prop :=
  s.deletedBlocks.Nodup ∧ ∀ b ∈ s.deletedBlocks, s.blocks[b]? = some ⟨⟨0, 0⟩, false⟩

end State

/-! ## Null and non-null fields -/

/-- The value reference and the block reference of an owner are both null or
both non-null. -/
def SharedPtr.paired (x : SharedPtr) : Prop := x.ptr = none ↔ x.block = none

/-- The value reference and the block reference of an observer are both null
or both non-null. -/
def WeakPtr.paired (x : WeakPtr) : Prop := x.ptr = none ↔ x.block = none

/-- Every live owner and every live observer has paired fields. -/
def State.fieldsPaired (s : State) : Prop :=
  (∀ x, some x ∈ s.shared → x.paired) ∧ (∀ x, some x ∈ s.weak → x.paired)

/-- The operations other than `SharedPtr(T* p)` with a null `p`, and other
than `WeakPtr()`, whose `ptr` the source leaves uninitialised. -/
def Op.pairedInput : Op → Bool
  | .sharedRaw none => false
  | .weakDefault => false
  | _ => true

/-! ## Counters against live objects -/

/-- 1 if the pointer `p` is the address `b`, else 0. -/
def ind (p : Ptr) (b : Nat) : Nat := if p = some b then 1 else 0

namespace State

/-- The `strong` counter of the block at address `b`; 0 when there is no block
to read at `b`. -/
def strongOf (s : State) (b : Nat) : Nat :=
  match s.load b with
  | some c => c.strong
  | none => 0

/-- The `weak` counter of the block at address `b`; 0 when there is no block
to read at `b`. -/
def weakOf (s : State) (b : Nat) : Nat :=
  match s.load b with
  | some c => c.weak
  | none => 0

/-- At every address the counters are the numbers of live owners and of live
observers that refer to it. -/
def countsExact (s : State) : Prop :=
  ∀ b, s.strongOf b = s.sharedRefs b ∧ s.weakOf b = s.weakRefs b

end State

/-- Two `block` fields that are equal and non-null. -/
def sameNonNull (x y : Ptr) : Bool := x.isSome && decide (x = y)

/-- The operation is neither an assignment between two objects that already
share a non-null block, nor a promotion (`Lock`, `SharedPtr(const WeakPtr&)`)
of an observer whose block has `strong = 0`. -/
def Op.allowed (s : State) : Op → Bool
  | .sharedAssign this other | .sharedMoveAssign this other =>
    match s.getS this, s.getS other with
    | some x, some y => !sameNonNull x.block y.block
    | _, _ => true
  | .weakAssign this other | .weakMoveAssign this other =>
    match s.getW this, s.getW other with
    | some x, some y => !sameNonNull x.block y.block
    | _, _ => true
  | .weakAssignShared this other =>
    match s.getW this, s.getS other with
    | some x, some y => !sameNonNull x.block y.block
    | _, _ => true
  | .sharedFromWeak other | .weakLock other =>
    match s.getW other with
    | some x =>
      match x.block with
      | some b => s.strongOf b != 0
      | none => true
    | none => true
  | _ => true

/-- Every operation of the run is allowed in the state it starts from. -/
def allowedRun : State → List Op → Bool
  | _, [] => true
  | s, op :: ops =>
    op.allowed s &&
      match step s op with
      | some s1 => allowedRun s1 ops
      | none => true

/-! ## Runs over live objects -/

namespace State

/-- At every address each counter is at least the number of live objects of
its kind that refer to the address (owners for `strong`, observers for
`weak`), and neither counter exceeds `n`. -/
def countsCover (n : Nat) (s : State) : Prop :=
  ∀ b, s.sharedRefs b ≤ s.strongOf b ∧ s.weakRefs b ≤ s.weakOf b ∧
    s.strongOf b ≤ n ∧ s.weakOf b ≤ n

end State

/-- Every object that the operation names is live in the state `s`: it was
constructed and its destructor has not run.  A moved-from object is live. -/
def Op.objectsLive (s : State) : Op → Bool
  | .sharedDefault | .sharedRaw _ | .weakDefault => true
  | .sharedCopy other | .sharedMove other | .weakFromShared other => (s.getS other).isSome
  | .sharedAssign this other | .sharedMoveAssign this other =>
    (s.getS this).isSome && (s.getS other).isSome
  | .sharedReset this | .sharedDtor this => (s.getS this).isSome
  | .sharedFromWeak other | .weakCopy other | .weakMove other => (s.getW other).isSome
  | .weakAssign this other | .weakMoveAssign this other =>
    (s.getW this).isSome && (s.getW other).isSome
  | .weakAssignShared this other => (s.getW this).isSome && (s.getS other).isSome
  | .weakReset this | .weakExpired this | .weakLock this | .weakDtor this =>
    (s.getW this).isSome

/-- Every operation of the run names live objects in the state it starts
from.  Nothing is asked of an operation that follows one without a result. -/
def liveRun : State → List Op → Bool
  | _, [] => true
  | s, op :: ops =>
    op.objectsLive s &&
      match step s op with
      | some s1 => liveRun s1 ops
      | none => true

/-! ## Basic facts about the model -/

theorem decr_of_pos {x : Nat} (h1 : 1 ≤ x) (h2 : x < SIZE_MOD) : decr x = x - 1 := by
  unfold decr
  have h : x + SIZE_MOD - 1 = (x - 1) + SIZE_MOD := by omega
  rw [h, Nat.add_mod_right, Nat.mod_eq_of_lt (by omega)]

theorem incr_of_lt {x : Nat} (h : x + 1 < SIZE_MOD) : incr x = x + 1 := by
  unfold incr
  exact Nat.mod_eq_of_lt h

namespace State

theorem load_eq_some_iff {s : State} {b : Nat} {c : RefCntBlock} :
    s.load b = some c ↔ s.blocks[b]? = some ⟨c, true⟩ := by
  unfold load
  cases h : s.blocks[b]? with
  | none => simp
  | some cell =>
    obtain ⟨v, l⟩ := cell
    cases l <;> simp

theorem load_lt {s : State} {b : Nat} {c : RefCntBlock} (h : s.load b = some c) :
    b < s.blocks.length := by
  have h2 := load_eq_some_iff.1 h
  exact (List.getElem?_eq_some.1 h2).1

theorem load_store_same {s : State} {b : Nat} {c : RefCntBlock} (d : RefCntBlock)
    (h : s.load b = some c) : (s.store b d).load b = some d := by
  have h2 := load_eq_some_iff.1 h
  rw [load_eq_some_iff]
  simp [store, h2]

theorem load_store_ne (s : State) {b b2 : Nat} (d : RefCntBlock) (h : b ≠ b2) :
    (s.store b d).load b2 = s.load b2 := by
  simp [load, store, h]

theorem contents_store_same {s : State} {b : Nat} {c : RefCntBlock} (d : RefCntBlock)
    (h : s.load b = some c) : (s.store b d).contents b = some d := by
  have h2 := load_eq_some_iff.1 h
  simp [contents, store, h2]

theorem contents_store_ne (s : State) {b b2 : Nat} (d : RefCntBlock) (h : b ≠ b2) :
    (s.store b d).contents b2 = s.contents b2 := by
  simp [contents, store, h]

theorem load_deletePtr (s : State) (p : Ptr) (b : Nat) :
    (s.deletePtr p).load b = s.load b := rfl

theorem contents_deletePtr (s : State) (p : Ptr) (b : Nat) :
    (s.deletePtr p).contents b = s.contents b := rfl

theorem load_deleteBlock_same (s : State) (b : Nat) : (s.deleteBlock b).load b = none := by
  unfold load deleteBlock
  cases h : s.blocks[b]? <;> simp [h]

theorem load_deleteBlock_ne (s : State) {b b2 : Nat} (h : b ≠ b2) :
    (s.deleteBlock b).load b2 = s.load b2 := by
  simp [load, deleteBlock, h]

theorem contents_deleteBlock (s : State) (b b2 : Nat) :
    (s.deleteBlock b).contents b2 = s.contents b2 := by
  unfold contents deleteBlock
  by_cases h : b = b2
  · subst h
    cases h2 : s.blocks[b]? <;> simp [h2]
  · simp [h]

end State

theorem modify_length_append {α : Type} (f : α → α) (l : List α) (a : α) :
    List.modify f l.length (l ++ [a]) = l ++ [f a] := by
  induction l with
  | nil => rfl
  | cons x xs ih => simpa using ih

theorem incr_zero : incr 0 = 1 := by
  unfold incr SIZE_MOD
  norm_num

theorem SharedPtr.ctorRaw_eq (st : State) (p : Ptr) :
    SharedPtr.ctorRaw st p = some
      { st with
        blocks := st.blocks ++ [⟨⟨1, 0⟩, true⟩]
        shared := st.shared ++ [some ⟨p, some st.blocks.length⟩] } := by
  unfold SharedPtr.ctorRaw State.newBlock State.pushS State.bumpStrong
  simp [State.load, State.store, incr_zero, modify_length_append]

theorem SharedPtr.Clean_null {st : State} {this : Nat} {p : Ptr}
    (hthis : st.getS this = some ⟨p, none⟩) : SharedPtr.Clean st this = some st := by
  unfold SharedPtr.Clean
  rw [hthis]
  rfl

theorem SharedPtr.Clean_eq {st : State} {this : Nat} {p : Ptr} {b s w : Nat}
    (hthis : st.getS this = some ⟨p, some b⟩) (hload : st.load b = some ⟨s, w⟩) :
    SharedPtr.Clean st this = some
      (if decr s = 0 then
        (if w = 0 then ((st.store b ⟨decr s, w⟩).deletePtr p).deleteBlock b
          else (st.store b ⟨decr s, w⟩).deletePtr p)
       else st.store b ⟨decr s, w⟩) := by
  have hst : (st.store b ⟨decr s, w⟩).load b = some ⟨decr s, w⟩ := State.load_store_same _ hload
  unfold SharedPtr.Clean
  rw [hthis]
  simp only [Option.bind_eq_bind, Option.some_bind]
  rw [hload]
  simp only [Option.some_bind]
  generalize decr s = d at *
  rw [hst, Option.some_bind, State.load_deletePtr, hst, Option.some_bind]
  show (if d = 0 then (if w = 0 then some _ else some _) else some _) = _
  by_cases hd : d = 0
  · by_cases hw : w = 0
    · rw [if_pos hd, if_pos hw, if_pos hd, if_pos hw]
    · rw [if_pos hd, if_neg hw, if_pos hd, if_neg hw]
  · rw [if_neg hd, if_neg hd]

theorem State.bumpStrong_eq {st : State} {b : Nat} {c : RefCntBlock} (h : st.load b = some c) :
    st.bumpStrong (some b) = some (st.store b ⟨incr c.strong, c.weak⟩) := by
  unfold State.bumpStrong
  simp only [Option.bind_eq_bind]
  rw [h]
  rfl

theorem State.bumpWeak_eq {st : State} {b : Nat} {c : RefCntBlock} (h : st.load b = some c) :
    st.bumpWeak (some b) = some (st.store b ⟨c.strong, incr c.weak⟩) := by
  unfold State.bumpWeak
  simp only [Option.bind_eq_bind]
  rw [h]
  rfl

theorem State.getS_pushS_of_some {st : State} {i : Nat} {x : SharedPtr} (v : SharedPtr)
    (h : st.getS i = some x) : (st.pushS v).getS i = some x := by
  unfold State.getS at h ⊢
  have hlt : i < st.shared.length := by
    by_contra hge
    rw [List.getElem?_eq_none (by omega)] at h
    simp at h
  simp only [State.pushS]
  rw [List.getElem?_append_left hlt]
  exact h

theorem State.getS_pushS_length (st : State) (v : SharedPtr) :
    (st.pushS v).getS st.shared.length = some v := by
  simp [State.getS, State.pushS]

theorem State.getW_pushW_length (st : State) (v : WeakPtr) :
    (st.pushW v).getW st.weak.length = some v := by
  simp [State.getW, State.pushW]

theorem WeakPtr.ctorShared_eq {st : State} {a : Nat} {p : Ptr} {b : Nat} {c : RefCntBlock}
    (ha : st.getS a = some ⟨p, some b⟩) (hb : st.load b = some c) :
    WeakPtr.ctorShared st a
      = some ((st.pushW ⟨p, some b⟩).store b ⟨c.strong, incr c.weak⟩) := by
  unfold WeakPtr.ctorShared
  rw [ha]
  simp only [Option.bind_eq_bind, Option.some_bind]
  exact State.bumpWeak_eq hb

theorem SharedPtr.ctorWeak_eq {st : State} {i : Nat} {p : Ptr} {b : Nat} {c : RefCntBlock}
    (hi : st.getW i = some ⟨p, some b⟩) (hb : st.load b = some c) :
    SharedPtr.ctorWeak st i
      = some ((st.pushS ⟨p, some b⟩).store b ⟨incr c.strong, c.weak⟩) := by
  unfold SharedPtr.ctorWeak
  rw [hi]
  simp only [Option.bind_eq_bind, Option.some_bind]
  exact State.bumpStrong_eq hb

/-! ## The claims -/

/-- C1 (`SharedPtr::operator=(const SharedPtr&)` on a shared block). Starting
from one owner of a block with counters (1, 0), the self-assignment `a = a`
skips `Clean` but still runs `++block->strong`: the counters become (2, 0).
With two owners of a block with counters (2, 0), `a = b` makes them (3, 0).
Neither the value nor the block is deleted, and the objects are unchanged. -/
theorem assign_same_block_bumps_strong :
    run State.init [.sharedRaw (some 7)] = some State.oneOwner ∧
    SharedPtr.assign State.oneOwner 0 0
      = some ⟨[⟨⟨2, 0⟩, true⟩], [], [], [some ⟨some 7, some 0⟩], []⟩ ∧
    run State.init [.sharedRaw (some 7), .sharedCopy 0] = some State.twoOwners ∧
    SharedPtr.assign State.twoOwners 0 1
      = some ⟨[⟨⟨3, 0⟩, true⟩], [], [], [some ⟨some 7, some 0⟩, some ⟨some 7, some 0⟩], []⟩ := by
  decide

/-- C2 (strong counter against live owners). After `SharedPtr<T> a(v); a = a;`
block 0 has `strong = 2` while exactly one live `SharedPtr` refers to it. -/
theorem strong_exceeds_live_owners :
    (run State.init [.sharedRaw (some 7), .sharedAssign 0 0]).map
      (fun s => (s.load 0, s.sharedRefs 0)) = some (some ⟨2, 0⟩, 1) := by
  decide

/-- C3 (weak counter against live observers). After
`SharedPtr<T> a(v); WeakPtr<T> w(a); w = w;` block 0 has `weak = 2` while
exactly one live `WeakPtr` refers to it. -/
theorem weak_exceeds_live_observers :
    (run State.init [.sharedRaw (some 7), .weakFromShared 0, .weakAssign 0 0]).map
      (fun s => (s.load 0, s.weakRefs 0)) = some (some ⟨1, 2⟩, 1) := by
  decide

/-- C4 (the value is deleted once). In the run
`SharedPtr<T> a(v); WeakPtr<T> w(a); ~a; auto l = w.Lock(); ~l;`
the counters of block 0 and the number of `delete ptr` on `v` are, step by
step: (1,0) and 0; (1,1) and 0; (0,1) and 1; (1,1) and 1; (0,1) and 2.  The
value is deleted a second time when the owner returned by `Lock` dies. -/
theorem value_deleted_twice_after_lock :
    (trace State.init [.sharedRaw (some 7), .weakFromShared 0, .sharedDtor 0,
        .weakLock 0, .sharedDtor 1]).map
      (Option.map (fun s => (s.load 0, s.valueDeletes 7)))
    = [some (some ⟨1, 0⟩, 0), some (some ⟨1, 1⟩, 0), some (some ⟨0, 1⟩, 1),
       some (some ⟨1, 1⟩, 1), some (some ⟨0, 1⟩, 2)] := by
  decide

/-- C5 (release rule of `SharedPtr::Clean`). On an object whose `block` is
null, `Clean` returns with the state unchanged.  On an object with pointer `p`
and a live block `b` whose counters are (s, w), 1 ≤ s, `Clean` returns and the
block's counters are then (s - 1, w); `delete ptr` runs (on `p`) exactly when
s = 1; `delete block` runs (on `b`) exactly when s = 1 and w = 0, after which
the block can no longer be read; no other block and no object is changed. -/
theorem shared_clean_release_rule (st : State) (this : Nat) (p blk : Ptr)
    (hthis : st.getS this = some ⟨p, blk⟩) :
    (blk = none → SharedPtr.Clean st this = some st) ∧
    (∀ b s w, blk = some b → st.load b = some ⟨s, w⟩ → 1 ≤ s → s < SIZE_MOD →
      ∃ st', SharedPtr.Clean st this = some st' ∧
        st'.contents b = some ⟨s - 1, w⟩ ∧
        st'.load b = (if s = 1 ∧ w = 0 then none else some ⟨s - 1, w⟩) ∧
        st'.deletedValues = (if s = 1 then p :: st.deletedValues else st.deletedValues) ∧
        st'.deletedBlocks = (if s = 1 ∧ w = 0 then b :: st.deletedBlocks else st.deletedBlocks) ∧
        (∀ b2, b2 ≠ b → st'.load b2 = st.load b2) ∧
        st'.shared = st.shared ∧ st'.weak = st.weak) := by
  constructor
  · intro h
    subst h
    exact SharedPtr.Clean_null hthis
  · intro b s w hblk hload hs hlt
    subst hblk
    have hd := decr_of_pos hs hlt
    have hget : (st.store b ⟨s - 1, w⟩).contents b = some ⟨s - 1, w⟩ :=
      State.contents_store_same _ hload
    have hld : (st.store b ⟨s - 1, w⟩).load b = some ⟨s - 1, w⟩ :=
      State.load_store_same _ hload
    have hne : ∀ b2, b2 ≠ b → (st.store b ⟨s - 1, w⟩).load b2 = st.load b2 :=
      fun b2 h => State.load_store_ne st _ (Ne.symm h)
    rw [SharedPtr.Clean_eq hthis hload, hd]
    by_cases hs1 : s = 1
    · have h0 : s - 1 = 0 := by omega
      by_cases hw : w = 0
      · refine ⟨_, rfl, ?_⟩
        rw [if_pos h0, if_pos hw, if_pos ⟨hs1, hw⟩, if_pos hs1, if_pos ⟨hs1, hw⟩]
        refine ⟨?_, State.load_deleteBlock_same _ _, rfl, rfl, ?_, rfl, rfl⟩
        · rw [State.contents_deleteBlock, State.contents_deletePtr]
          exact hget
        · intro b2 h
          rw [State.load_deleteBlock_ne _ (Ne.symm h), State.load_deletePtr]
          exact hne b2 h
      · refine ⟨_, rfl, ?_⟩
        rw [if_pos h0, if_neg hw, if_neg (fun h => hw h.2), if_pos hs1, if_neg (fun h => hw h.2)]
        exact ⟨hget, hld, rfl, rfl, hne, rfl, rfl⟩
    · have h0 : ¬ s - 1 = 0 := by omega
      refine ⟨_, rfl, ?_⟩
      rw [if_neg h0, if_neg (fun h => hs1 h.1), if_neg hs1, if_neg (fun h => hs1 h.1)]
      exact ⟨hget, hld, rfl, rfl, hne, rfl, rfl⟩

/-- C5 at concrete inputs: the last owner of block 0 with counters (1, 0)
releases both the value and the block; an empty owner releases nothing. -/
theorem shared_clean_release_rule_witness :
    (State.oneOwner.getS 0 = some ⟨some 7, some 0⟩ ∧
      State.oneOwner.load 0 = some ⟨1, 0⟩ ∧ 1 ≤ 1 ∧ 1 < SIZE_MOD ∧
      ∃ st', SharedPtr.Clean State.oneOwner 0 = some st' ∧
        st'.contents 0 = some ⟨0, 0⟩ ∧
        st'.load 0 = none ∧
        st'.deletedValues = [some 7] ∧
        st'.deletedBlocks = [0] ∧
        (∀ b2, b2 ≠ 0 → st'.load b2 = State.oneOwner.load b2) ∧
        st'.shared = State.oneOwner.shared ∧ st'.weak = State.oneOwner.weak) ∧
    ((⟨[], [], [], [some ⟨none, none⟩], []⟩ : State).getS 0 = some ⟨none, none⟩ ∧
      SharedPtr.Clean ⟨[], [], [], [some ⟨none, none⟩], []⟩ 0
        = some ⟨[], [], [], [some ⟨none, none⟩], []⟩) :=
  ⟨⟨rfl, rfl, by decide, by decide,
      (shared_clean_release_rule State.oneOwner 0 (some 7) (some 0) rfl).2 0 1 0 rfl rfl
        (by decide) (by decide)⟩,
    ⟨rfl, (shared_clean_release_rule ⟨[], [], [], [some ⟨none, none⟩], []⟩ 0 none none rfl).1 rfl⟩⟩

/-- C6 (`Lock` on an expired observer). In the state reached by
`SharedPtr<T> a(v); WeakPtr<T> w(a); ~a;` the observer holds block 0 with
counters (0, 1), the value has been deleted, and `w.Expired()` is true.
`w.Lock()` then returns an owner (object 1) whose fields are the deleted
value's address and block 0, and the block's counters become (1, 1). -/
theorem lock_on_expired_returns_owner :
    run State.init [.sharedRaw (some 7), .weakFromShared 0, .sharedDtor 0]
      = some State.expiredObserver ∧
    WeakPtr.Expired State.expiredObserver 0 = some (true, State.expiredObserver) ∧
    WeakPtr.Lock State.expiredObserver 0
      = some ⟨[⟨⟨1, 1⟩, true⟩], [], [some 7],
          [none, some ⟨some 7, some 0⟩], [some ⟨some 7, some 0⟩]⟩ := by
  decide

/-- C7 (round trip owner, observer, `Lock`). Let `a` be a live owner with
pointer `p` and live block `b` whose counters are (s, w), with s + 1 and w + 1
representable in `size_t`.  Then `WeakPtr<T> w(a)` returns, the new observer
holds `p` and `b`, and the counters are (s, w + 1); `w.Lock()` then returns a
new owner holding `p` and `b`, `a` is unchanged, the counters are
(s + 1, w + 1), and no `delete` has run. -/
theorem lock_round_trip (st : State) (a : Nat) (p : Ptr) (b s w : Nat)
    (ha : st.getS a = some ⟨p, some b⟩) (hb : st.load b = some ⟨s, w⟩)
    (hs : s + 1 < SIZE_MOD) (hw : w + 1 < SIZE_MOD) :
    ∃ st1 st2,
      WeakPtr.ctorShared st a = some st1 ∧
      st1.getW st.weak.length = some ⟨p, some b⟩ ∧
      st1.load b = some ⟨s, w + 1⟩ ∧
      WeakPtr.Lock st1 st.weak.length = some st2 ∧
      st2.getS st.shared.length = some ⟨p, some b⟩ ∧
      st2.getS a = some ⟨p, some b⟩ ∧
      st2.load b = some ⟨s + 1, w + 1⟩ ∧
      st2.deletedValues = st.deletedValues ∧
      st2.deletedBlocks = st.deletedBlocks := by
  have h1 : (st.pushW ⟨p, some b⟩).load b = some ⟨s, w⟩ := hb
  have e1 : WeakPtr.ctorShared st a = some ((st.pushW ⟨p, some b⟩).store b ⟨s, w + 1⟩) := by
    rw [WeakPtr.ctorShared_eq ha hb]
    show some (State.store _ b ⟨s, incr w⟩) = _
    rw [incr_of_lt hw]
  have hw1 : ((st.pushW ⟨p, some b⟩).store b ⟨s, w + 1⟩).getW st.weak.length
      = some ⟨p, some b⟩ := State.getW_pushW_length st _
  have hl1 : ((st.pushW ⟨p, some b⟩).store b ⟨s, w + 1⟩).load b = some ⟨s, w + 1⟩ :=
    State.load_store_same _ h1
  have e2 : WeakPtr.Lock ((st.pushW ⟨p, some b⟩).store b ⟨s, w + 1⟩) st.weak.length
      = some ((((st.pushW ⟨p, some b⟩).store b ⟨s, w + 1⟩).pushS ⟨p, some b⟩).store b
          ⟨s + 1, w + 1⟩) := by
    unfold WeakPtr.Lock
    rw [SharedPtr.ctorWeak_eq hw1 hl1]
    show some (State.store _ b ⟨incr s, w + 1⟩) = _
    rw [incr_of_lt hs]
  have hl2 : ((((st.pushW ⟨p, some b⟩).store b ⟨s, w + 1⟩).pushS ⟨p, some b⟩).store b
      ⟨s + 1, w + 1⟩).load b = some ⟨s + 1, w + 1⟩ :=
    @State.load_store_same _ b ⟨s, w + 1⟩ _ hl1
  refine ⟨_, _, e1, hw1, hl1, e2, ?_, ?_, hl2, rfl, rfl⟩
  · exact State.getS_pushS_length _ _
  · exact @State.getS_pushS_of_some ((st.pushW ⟨p, some b⟩).store b ⟨s, w + 1⟩) a _ _ ha

/-- C7 at a concrete input: one owner of block 0 with counters (1, 0); after
the round trip the counters are (2, 1) and object 1 is the new owner. -/
theorem lock_round_trip_witness :
    State.oneOwner.getS 0 = some ⟨some 7, some 0⟩ ∧
    State.oneOwner.load 0 = some ⟨1, 0⟩ ∧
    1 + 1 < SIZE_MOD ∧ 0 + 1 < SIZE_MOD ∧
    ∃ st1 st2,
      WeakPtr.ctorShared State.oneOwner 0 = some st1 ∧
      st1.getW 0 = some ⟨some 7, some 0⟩ ∧
      st1.load 0 = some ⟨1, 1⟩ ∧
      WeakPtr.Lock st1 0 = some st2 ∧
      st2.getS 1 = some ⟨some 7, some 0⟩ ∧
      st2.getS 0 = some ⟨some 7, some 0⟩ ∧
      st2.load 0 = some ⟨2, 1⟩ ∧
      st2.deletedValues = [] ∧
      st2.deletedBlocks = [] :=
  ⟨rfl, rfl, by decide, by decide,
    lock_round_trip State.oneOwner 0 (some 7) 0 1 0 rfl rfl (by decide) (by decide)⟩

/-- C8 (`WeakPtr::Expired`). For a live observer whose `block` is null or
points to a live block, `Expired()` returns, the state after the call is the
state before it, and the result is true exactly when `block` is null or the
block's `strong` is 0. -/
theorem expired_iff_null_or_strong_zero (st : State) (this : Nat) (w : WeakPtr)
    (hw : st.getW this = some w)
    (hlive : ∀ b, w.block = some b → (st.load b).isSome = true) :
    ∃ r, WeakPtr.Expired st this = some (r, st) ∧
      (r = true ↔
        (w.block = none ∨ ∃ b c, w.block = some b ∧ st.load b = some c ∧ c.strong = 0)) := by
  obtain ⟨p, blk⟩ := w
  cases blk with
  | none =>
    refine ⟨true, ?_, by simp⟩
    unfold WeakPtr.Expired
    rw [hw]
    rfl
  | some b =>
    have h := hlive b rfl
    obtain ⟨c, hc⟩ := Option.isSome_iff_exists.1 h
    refine ⟨decide (c.strong = 0), ?_, ?_⟩
    · unfold WeakPtr.Expired
      rw [hw]
      simp only [Option.bind_eq_bind, Option.some_bind]
      rw [hc]
      rfl
    · simp [hc]

/-- C8 at a concrete input: the observer of a block with counters (0, 1). -/
theorem expired_iff_null_or_strong_zero_witness :
    State.expiredObserver.getW 0 = some ⟨some 7, some 0⟩ ∧
    (State.expiredObserver.load 0).isSome = true ∧
    ∃ r, WeakPtr.Expired State.expiredObserver 0 = some (r, State.expiredObserver) ∧
      (r = true ↔
        ((some 0 : Ptr) = none ∨ ∃ b c, (some 0 : Ptr) = some b ∧
          State.expiredObserver.load b = some c ∧ c.strong = 0)) :=
  ⟨rfl, rfl,
    expired_iff_null_or_strong_zero State.expiredObserver 0 ⟨some 7, some 0⟩ rfl
      (fun b h => by cases h; rfl)⟩

/-- C9 (`Expired` against live owners). After
`SharedPtr<T> a(v); WeakPtr<T> w(a); a = a; ~a;` no live `SharedPtr` refers to
block 0, the block's counters are (1, 1), the value was never deleted, and
`w.Expired()` returns false. -/
theorem not_expired_without_live_owner :
    (run State.init [.sharedRaw (some 7), .weakFromShared 0, .sharedAssign 0 0,
        .sharedDtor 0]).bind
      (fun s => (WeakPtr.Expired s 0).map
        (fun r => (r.1, s.getW 0, s.sharedRefs 0, s.load 0, s.valueDeletes 7)))
    = some (false, some ⟨some 7, some 0⟩, 0, some ⟨1, 1⟩, 0) := by
  decide

/-- C10 (`SharedPtr(T* p)`). The constructor returns; the block it allocates
is at an address that held no block before, and no block that could be read
before has that address; the new block's counters are (1, 0); the new object
holds `p` and the new block; every other block reads as before, every other
object is unchanged, and no `delete` has run. -/
theorem ctorRaw_allocates_fresh_block (st : State) (p : Ptr) :
    ∃ st', SharedPtr.ctorRaw st p = some st' ∧
      st.load st.blocks.length = none ∧
      st'.load st.blocks.length = some ⟨1, 0⟩ ∧
      st'.getS st.shared.length = some ⟨p, some st.blocks.length⟩ ∧
      (∀ b c, st.load b = some c → b ≠ st.blocks.length ∧ st'.load b = some c) ∧
      (∀ b, b ≠ st.blocks.length → st'.load b = st.load b) ∧
      (∀ i, i ≠ st.shared.length → st'.getS i = st.getS i) ∧
      st'.weak = st.weak ∧
      st'.deletedValues = st.deletedValues ∧ st'.deletedBlocks = st.deletedBlocks := by
  refine ⟨_, SharedPtr.ctorRaw_eq st p, ?_, ?_, ?_, ?_, ?_, ?_, rfl, rfl, rfl⟩
  · simp [State.load]
  · simp [State.load]
  · simp [State.getS]
  · intro b c h
    have hlt := State.load_lt h
    refine ⟨by omega, ?_⟩
    rw [← h]
    simp [State.load, List.getElem?_append_left hlt]
  · intro b hb
    rcases Nat.lt_or_gt_of_ne hb with h | h
    · simp [State.load, List.getElem?_append_left h]
    · have h1 : st.blocks[b]? = none := List.getElem?_eq_none (by omega)
      have h2 : (st.blocks ++ [(⟨⟨1, 0⟩, true⟩ : Cell)])[b]? = none :=
        List.getElem?_eq_none (by simp; omega)
      simp [State.load, h1, h2]
  · intro i hi
    rcases Nat.lt_or_gt_of_ne hi with h | h
    · simp [State.getS, List.getElem?_append_left h]
    · have h1 : st.shared[i]? = none := List.getElem?_eq_none (by omega)
      have h2 : (st.shared ++ [some (⟨p, some st.blocks.length⟩ : SharedPtr)])[i]? = none :=
        List.getElem?_eq_none (by simp; omega)
      simp [State.getS, h1, h2]

/-! ## Facts about lists of objects -/

theorem getElem?_join_lt {α : Type} {l : List (Option α)} {i : Nat} {x : α}
    (h : l[i]?.join = some x) : i < l.length := by
  by_contra hge
  rw [List.getElem?_eq_none (by omega)] at h
  simp at h

theorem getElem?_join_set_same {α : Type} {l : List (Option α)} {i : Nat} (v : Option α)
    (h : i < l.length) : (l.set i v)[i]?.join = v := by
  simp [h]

theorem getElem?_join_set_ne {α : Type} (l : List (Option α)) {i j : Nat} (v : Option α)
    (h : i ≠ j) : (l.set i v)[j]?.join = l[j]?.join := by
  simp [h]

/-! ## `UniquePtr`: move assignment -/

/-- C17 (`UniquePtr::operator=(UniquePtr&&)`). For two distinct live objects
`t`, holding `v1`, and `s`, holding `v2` (either may be null), `t = move(s)`
returns; `delete ptr_` has run exactly once, on `v1`; `t` holds `v2`; `s`
holds null; the deletions of `v2`, when it is not `v1`, are as many as before;
no other object is changed. -/
theorem unique_move_assign (st : UState) (t s : Nat) (v1 v2 : Ptr)
    (ht : st.get t = some ⟨v1⟩) (hs : st.get s = some ⟨v2⟩) (hne : t ≠ s) :
    ∃ st', UniquePtr.moveAssign st t s = some st' ∧
      st'.get t = some ⟨v2⟩ ∧
      st'.get s = some ⟨none⟩ ∧
      st'.deleted = v1 :: st.deleted ∧
      (v2 ≠ v1 → st'.deleted.count v2 = st.deleted.count v2) ∧
      (∀ i, i ≠ t → i ≠ s → st'.get i = st.get i) := by
  have hlt : t < st.objs.length := getElem?_join_lt ht
  have hls : s < st.objs.length := getElem?_join_lt hs
  have h1 : ((st.deletePtr v1).set t ⟨v2⟩).get s = some ⟨v2⟩ := by
    unfold UState.get UState.set UState.deletePtr
    rw [getElem?_join_set_ne _ _ hne]
    exact hs
  have e : UniquePtr.moveAssign st t s
      = some (((st.deletePtr v1).set t ⟨v2⟩).set s ⟨none⟩) := by
    unfold UniquePtr.moveAssign
    rw [ht, hs]
    simp only [Option.bind_eq_bind, Option.some_bind, if_pos hne]
    have ht2 : (st.deletePtr v1).get t = some ⟨v1⟩ := ht
    have hs2 : (st.deletePtr v1).get s = some ⟨v2⟩ := hs
    rw [ht2, Option.some_bind, hs2, Option.some_bind, h1, Option.some_bind]
    rfl
  refine ⟨_, e, ?_, ?_, rfl, ?_, ?_⟩
  · unfold UState.get UState.set UState.deletePtr
    simp only
    rw [getElem?_join_set_ne _ _ (Ne.symm hne), getElem?_join_set_same _ hlt]
  · unfold UState.get UState.set UState.deletePtr
    simp only
    rw [getElem?_join_set_same _ (by simpa using hls)]
  · intro h
    show (v1 :: st.deleted).count v2 = _
    rw [List.count_cons_of_ne h]
  · intro i hit his
    unfold UState.get UState.set UState.deletePtr
    simp only
    rw [getElem?_join_set_ne _ _ (Ne.symm his), getElem?_join_set_ne _ _ (Ne.symm hit)]

/-- C17 at a concrete input: `t` (object 0) holds the value at address 1, `s`
(object 1) holds the value at address 2. -/
theorem unique_move_assign_witness :
    (⟨[some ⟨some 1⟩, some ⟨some 2⟩], []⟩ : UState).get 0 = some ⟨some 1⟩ ∧
    (⟨[some ⟨some 1⟩, some ⟨some 2⟩], []⟩ : UState).get 1 = some ⟨some 2⟩ ∧
    (0 : Nat) ≠ 1 ∧
    ∃ st', UniquePtr.moveAssign ⟨[some ⟨some 1⟩, some ⟨some 2⟩], []⟩ 0 1 = some st' ∧
      st'.get 0 = some ⟨some 2⟩ ∧
      st'.get 1 = some ⟨none⟩ ∧
      st'.deleted = [some 1] ∧
      ((some 2 : Ptr) ≠ some 1 → st'.deleted.count (some 2) = 0) ∧
      (∀ i, i ≠ 0 → i ≠ 1 →
        st'.get i = (⟨[some ⟨some 1⟩, some ⟨some 2⟩], []⟩ : UState).get i) :=
  ⟨rfl, rfl, by decide,
    unique_move_assign ⟨[some ⟨some 1⟩, some ⟨some 2⟩], []⟩ 0 1 (some 1) (some 2) rfl rfl
      (by decide)⟩

/-! ## Facts about the store primitives -/

namespace State

theorem getS_lt {s : State} {i : Nat} {x : SharedPtr} (h : s.getS i = some x) :
    i < s.shared.length := getElem?_join_lt h

theorem getW_lt {s : State} {i : Nat} {x : WeakPtr} (h : s.getW i = some x) :
    i < s.weak.length := getElem?_join_lt h

theorem getS_setS_same {s : State} {i : Nat} (v : SharedPtr) (h : i < s.shared.length) :
    (s.setS i v).getS i = some v := getElem?_join_set_same _ h

theorem getS_setS_ne (s : State) {i j : Nat} (v : SharedPtr) (h : i ≠ j) :
    (s.setS i v).getS j = s.getS j := getElem?_join_set_ne _ _ h

theorem getW_setW_same {s : State} {i : Nat} (v : WeakPtr) (h : i < s.weak.length) :
    (s.setW i v).getW i = some v := getElem?_join_set_same _ h

theorem getW_setW_ne (s : State) {i j : Nat} (v : WeakPtr) (h : i ≠ j) :
    (s.setW i v).getW j = s.getW j := getElem?_join_set_ne _ _ h

theorem setS_setS (s : State) (i : Nat) (v v2 : SharedPtr) :
    (s.setS i v).setS i v2 = s.setS i v2 := by
  simp [setS, List.set_set]

theorem setW_setW (s : State) (i : Nat) (v v2 : WeakPtr) :
    (s.setW i v).setW i v2 = s.setW i v2 := by
  simp [setW, List.set_set]

theorem setS_of_getS {s : State} {i : Nat} {x : SharedPtr} (h : s.getS i = some x) :
    s.setS i x = s := by
  have hlt := getS_lt h
  have hx : s.shared[i]? = some (some x) := by
    unfold getS at h
    rw [List.getElem?_eq_getElem hlt] at h ⊢
    simp only [Option.join, Option.some_bind, id] at h
    rw [h]
  have : s.shared.set i (some x) = s.shared := by
    apply List.ext_getElem? 
    intro j
    by_cases hj : i = j
    · subst hj
      simp [hlt, hx]
    · simp [hj]
  simp [setS, this]

theorem setW_of_getW {s : State} {i : Nat} {x : WeakPtr} (h : s.getW i = some x) :
    s.setW i x = s := by
  have hlt := getW_lt h
  have hx : s.weak[i]? = some (some x) := by
    unfold getW at h
    rw [List.getElem?_eq_getElem hlt] at h ⊢
    simp only [Option.join, Option.some_bind, id] at h
    rw [h]
  have : s.weak.set i (some x) = s.weak := by
    apply List.ext_getElem? 
    intro j
    by_cases hj : i = j
    · subst hj
      simp [hlt, hx]
    · simp [hj]
  simp [setW, this]

theorem getW_pushW_of_some {st : State} {i : Nat} {x : WeakPtr} (v : WeakPtr)
    (h : st.getW i = some x) : (st.pushW v).getW i = some x := by
  have hlt := getW_lt h
  unfold State.getW at h ⊢
  simp only [State.pushW]
  rw [List.getElem?_append_left hlt]
  exact h

end State

theorem decr_incr {x : Nat} (h : x < SIZE_MOD) : decr (incr x) = x := by
  unfold decr incr
  unfold SIZE_MOD at *
  omega

theorem incr_lt (x : Nat) : incr x < SIZE_MOD := by
  unfold incr
  exact Nat.mod_lt _ (by unfold SIZE_MOD; norm_num)

theorem decr_lt (x : Nat) : decr x < SIZE_MOD := by
  unfold decr
  exact Nat.mod_lt _ (by unfold SIZE_MOD; norm_num)

/-! ## Facts about the member functions -/

theorem SharedPtr.adopt_eq {st : State} {this other : Nat} {x o : SharedPtr}
    (hx : st.getS this = some x) (ho : st.getS other = some o) :
    SharedPtr.adopt st this other = some (st.setS this ⟨o.ptr, o.block⟩) := by
  have hlt := State.getS_lt hx
  unfold SharedPtr.adopt
  rw [hx, ho]
  simp only [Option.bind_eq_bind, Option.some_bind]
  rw [State.getS_setS_same _ hlt, Option.some_bind]
  by_cases h : this = other
  · subst h
    rw [State.getS_setS_same _ hlt, Option.some_bind]
    have : x = o := Option.some.inj (hx.symm.trans ho)
    subst this
    rw [State.setS_setS]
    rfl
  · rw [State.getS_setS_ne _ _ h, ho, Option.some_bind, State.setS_setS]
    rfl

theorem SharedPtr.Clean_shared {st st1 : State} {this : Nat}
    (h : SharedPtr.Clean st this = some st1) :
    st1.shared = st.shared ∧ st1.weak = st.weak := by
  cases hx : st.getS this with
  | none =>
    unfold SharedPtr.Clean at h
    rw [hx] at h
    cases h
  | some x =>
    obtain ⟨p, blk⟩ := x
    cases blk with
    | none =>
      rw [SharedPtr.Clean_null hx] at h
      cases h
      exact ⟨rfl, rfl⟩
    | some b =>
      cases hl : st.load b with
      | none =>
        unfold SharedPtr.Clean at h
        rw [hx] at h
        simp only [Option.bind_eq_bind, Option.some_bind] at h
        rw [hl] at h
        cases h
      | some c =>
        obtain ⟨s, w⟩ := c
        rw [SharedPtr.Clean_eq hx hl] at h
        have h2 := Option.some.inj h
        subst h2
        split_ifs <;> exact ⟨rfl, rfl⟩

theorem SharedPtr.Reset_eq {st st1 : State} {this : Nat} {x : SharedPtr}
    (hx : st.getS this = some x) (h : SharedPtr.Clean st this = some st1) :
    SharedPtr.Reset st this = some (st1.setS this ⟨none, none⟩) := by
  have hsh := (SharedPtr.Clean_shared h).1
  have hx1 : st1.getS this = some x := by
    unfold State.getS
    rw [hsh]
    exact hx
  have hlt := State.getS_lt hx1
  unfold SharedPtr.Reset
  rw [h]
  simp only [Option.bind_eq_bind, Option.some_bind]
  rw [hx1, Option.some_bind, State.getS_setS_same _ hlt, Option.some_bind, State.setS_setS]
  rfl

theorem SharedPtr.Clean_total {st : State} {this : Nat} {p blk : Ptr}
    (hthis : st.getS this = some ⟨p, blk⟩)
    (hlive : ∀ b, blk = some b → (st.load b).isSome = true) :
    ∃ st1, SharedPtr.Clean st this = some st1 := by
  cases blk with
  | none => exact ⟨st, SharedPtr.Clean_null hthis⟩
  | some b =>
    obtain ⟨c, hc⟩ := Option.isSome_iff_exists.1 (hlive b rfl)
    obtain ⟨s, w⟩ := c
    exact ⟨_, SharedPtr.Clean_eq hthis hc⟩

theorem SharedPtr.Clean_effects {st : State} {this : Nat} {p : Ptr} {b s w : Nat}
    (hthis : st.getS this = some ⟨p, some b⟩) (hload : st.load b = some ⟨s, w⟩)
    (hs : 1 ≤ s) (hlt : s < SIZE_MOD) :
    ∃ st1, SharedPtr.Clean st this = some st1 ∧
      st1.shared = st.shared ∧ st1.weak = st.weak ∧
      st1.contents b = some ⟨s - 1, w⟩ ∧
      st1.load b = (if s = 1 ∧ w = 0 then none else some ⟨s - 1, w⟩) ∧
      (∀ b2, b2 ≠ b → st1.load b2 = st.load b2) ∧
      st1.deletedValues = (if s = 1 then p :: st.deletedValues else st.deletedValues) ∧
      st1.deletedBlocks = (if s = 1 ∧ w = 0 then b :: st.deletedBlocks else st.deletedBlocks) := by
  have hd := decr_of_pos hs hlt
  have hget : (st.store b ⟨s - 1, w⟩).contents b = some ⟨s - 1, w⟩ :=
    State.contents_store_same _ hload
  have hld : (st.store b ⟨s - 1, w⟩).load b = some ⟨s - 1, w⟩ :=
    State.load_store_same _ hload
  have hne : ∀ b2, b2 ≠ b → (st.store b ⟨s - 1, w⟩).load b2 = st.load b2 :=
    fun b2 h => State.load_store_ne st _ (Ne.symm h)
  rw [SharedPtr.Clean_eq hthis hload, hd]
  by_cases hs1 : s = 1
  · have h0 : s - 1 = 0 := by omega
    by_cases hw : w = 0
    · refine ⟨_, rfl, ?_⟩
      rw [if_pos h0, if_pos hw, if_pos ⟨hs1, hw⟩, if_pos hs1, if_pos ⟨hs1, hw⟩]
      refine ⟨rfl, rfl, ?_, State.load_deleteBlock_same _ _, ?_, rfl, rfl⟩
      · rw [State.contents_deleteBlock, State.contents_deletePtr]
        exact hget
      · intro b2 h
        rw [State.load_deleteBlock_ne _ (Ne.symm h), State.load_deletePtr]
        exact hne b2 h
    · refine ⟨_, rfl, ?_⟩
      rw [if_pos h0, if_neg hw, if_neg (fun h => hw h.2), if_pos hs1, if_neg (fun h => hw h.2)]
      exact ⟨rfl, rfl, hget, hld, hne, rfl, rfl⟩
  · have h0 : ¬ s - 1 = 0 := by omega
    refine ⟨_, rfl, ?_⟩
    rw [if_neg h0, if_neg (fun h => hs1 h.1), if_neg hs1, if_neg (fun h => hs1 h.1)]
    exact ⟨rfl, rfl, hget, hld, hne, rfl, rfl⟩

/-- C12 (`SharedPtr::Reset`). For a live owner whose `block` is null or points
to a live block, `Reset()` returns and leaves both fields null; a second
`Reset()` then returns the very state it was given: no counter changes and no
`delete` runs. -/
theorem shared_reset_idempotent (st : State) (this : Nat) (p blk : Ptr)
    (hthis : st.getS this = some ⟨p, blk⟩)
    (hlive : ∀ b, blk = some b → (st.load b).isSome = true) :
    ∃ st1, SharedPtr.Reset st this = some st1 ∧
      st1.getS this = some ⟨none, none⟩ ∧
      SharedPtr.Reset st1 this = some st1 := by
  obtain ⟨st0, h0⟩ := SharedPtr.Clean_total hthis hlive
  have hlt : this < st0.shared.length := by
    rw [(SharedPtr.Clean_shared h0).1]
    exact State.getS_lt hthis
  have hg : (st0.setS this ⟨none, none⟩).getS this = some ⟨none, none⟩ :=
    State.getS_setS_same _ hlt
  refine ⟨_, SharedPtr.Reset_eq hthis h0, hg, ?_⟩
  rw [SharedPtr.Reset_eq hg (SharedPtr.Clean_null hg), State.setS_of_getS hg]

/-- C12 at a concrete input: the only owner of block 0. -/
theorem shared_reset_idempotent_witness :
    State.oneOwner.getS 0 = some ⟨some 7, some 0⟩ ∧
    (State.oneOwner.load 0).isSome = true ∧
    ∃ st1, SharedPtr.Reset State.oneOwner 0 = some st1 ∧
      st1.getS 0 = some ⟨none, none⟩ ∧
      SharedPtr.Reset st1 0 = some st1 :=
  ⟨rfl, rfl,
    shared_reset_idempotent State.oneOwner 0 (some 7) (some 0) rfl
      (fun b h => by cases h; rfl)⟩

/-! ## Counting the objects that refer to a block -/

theorem getElem?_of_join {α : Type} {l : List (Option α)} {i : Nat} {x : α}
    (h : l[i]?.join = some x) : l[i]? = some (some x) := by
  have hlt := getElem?_join_lt h
  rw [List.getElem?_eq_getElem hlt] at h ⊢
  simp only [Option.join, Option.some_bind, id] at h
  rw [h]

theorem countP_set_getElem? {α : Type} (q : α → Bool) {l : List α} {i : Nat} {x : α} (y : α)
    (h : l[i]? = some x) :
    (l.set i y).countP q + (if q x then 1 else 0) = l.countP q + (if q y then 1 else 0) := by
  induction l generalizing i with
  | nil => simp at h
  | cons a l ih =>
    cases i with
    | zero =>
      simp at h
      subst h
      simp [List.countP_cons]
      omega
    | succ i =>
      simp at h
      have := ih h
      simp [List.countP_cons]
      omega

namespace State

theorem sharedRefs_pushS (s : State) (v : SharedPtr) (b : Nat) :
    (s.pushS v).sharedRefs b = s.sharedRefs b + (if v.block = some b then 1 else 0) := by
  simp [sharedRefs, pushS, List.countP_cons]

theorem weakRefs_pushW (s : State) (v : WeakPtr) (b : Nat) :
    (s.pushW v).weakRefs b = s.weakRefs b + (if v.block = some b then 1 else 0) := by
  simp [weakRefs, pushW, List.countP_cons]

theorem sharedRefs_setS {s : State} {i : Nat} {x : SharedPtr} (v : SharedPtr)
    (h : s.getS i = some x) (b : Nat) :
    (s.setS i v).sharedRefs b + (if x.block = some b then 1 else 0)
      = s.sharedRefs b + (if v.block = some b then 1 else 0) := by
  have h2 := getElem?_of_join h
  have := countP_set_getElem? (fun o => decide (o.map SharedPtr.block = some (some b)))
    (some v) h2
  simpa [sharedRefs, setS] using this

theorem weakRefs_setW {s : State} {i : Nat} {x : WeakPtr} (v : WeakPtr)
    (h : s.getW i = some x) (b : Nat) :
    (s.setW i v).weakRefs b + (if x.block = some b then 1 else 0)
      = s.weakRefs b + (if v.block = some b then 1 else 0) := by
  have h2 := getElem?_of_join h
  have := countP_set_getElem? (fun o => decide (o.map WeakPtr.block = some (some b)))
    (some v) h2
  simpa [weakRefs, setW] using this

theorem sharedRefs_dropS {s : State} {i : Nat} {x : SharedPtr}
    (h : s.getS i = some x) (b : Nat) :
    (s.dropS i).sharedRefs b + (if x.block = some b then 1 else 0) = s.sharedRefs b := by
  have h2 := getElem?_of_join h
  have := countP_set_getElem? (fun o => decide (o.map SharedPtr.block = some (some b)))
    none h2
  simpa [sharedRefs, dropS] using this

theorem weakRefs_dropW {s : State} {i : Nat} {x : WeakPtr}
    (h : s.getW i = some x) (b : Nat) :
    (s.dropW i).weakRefs b + (if x.block = some b then 1 else 0) = s.weakRefs b := by
  have h2 := getElem?_of_join h
  have := countP_set_getElem? (fun o => decide (o.map WeakPtr.block = some (some b)))
    none h2
  simpa [weakRefs, dropW] using this

theorem getS_pushS_ne_length (s : State) (v : SharedPtr) {i : Nat} (h : i ≠ s.shared.length) :
    (s.pushS v).getS i = s.getS i := by
  unfold getS pushS
  rcases Nat.lt_or_gt_of_ne h with h1 | h1
  · simp only
    rw [List.getElem?_append_left h1]
  · have h2 : s.shared[i]? = none := List.getElem?_eq_none (by omega)
    have h3 : (s.shared ++ [some v])[i]? = none := List.getElem?_eq_none (by simp; omega)
    simp only
    rw [h2, h3]

theorem getW_pushW_ne_length (s : State) (v : WeakPtr) {i : Nat} (h : i ≠ s.weak.length) :
    (s.pushW v).getW i = s.getW i := by
  unfold getW pushW
  rcases Nat.lt_or_gt_of_ne h with h1 | h1
  · simp only
    rw [List.getElem?_append_left h1]
  · have h2 : s.weak[i]? = none := List.getElem?_eq_none (by omega)
    have h3 : (s.weak ++ [some v])[i]? = none := List.getElem?_eq_none (by simp; omega)
    simp only
    rw [h2, h3]

end State

/-- The effect of `++block->strong; ... --block->strong;` on a block with
`1 ≤ strong`: `Clean` on an owner of block `b`, run right after the counter of
`b` was incremented, restores the counter and deletes nothing. -/
theorem SharedPtr.Clean_after_bump {st : State} {this : Nat} {p : Ptr} {b s w : Nat}
    (hthis : st.getS this = some ⟨p, some b⟩) (hload : st.load b = some ⟨s, w⟩)
    (hs : 1 ≤ s) (hlt : s < SIZE_MOD) :
    SharedPtr.Clean (st.store b ⟨incr s, w⟩) this
      = some ((st.store b ⟨incr s, w⟩).store b ⟨s, w⟩) := by
  have hl : (st.store b ⟨incr s, w⟩).load b = some ⟨incr s, w⟩ :=
    State.load_store_same _ hload
  have hx : (st.store b ⟨incr s, w⟩).getS this = some ⟨p, some b⟩ := hthis
  rw [SharedPtr.Clean_eq hx hl, decr_incr hlt, if_neg (by omega)]

theorem State.load_store_store {st : State} {b : Nat} {c : RefCntBlock} (d : RefCntBlock)
    (h : st.load b = some c) (b2 : Nat) :
    ((st.store b d).store b c).load b2 = st.load b2 := by
  by_cases hb : b = b2
  · subst hb
    rw [State.load_store_same c (State.load_store_same d h), h]
  · rw [State.load_store_ne _ _ hb, State.load_store_ne _ _ hb]

/-- C13 (`SharedPtr(SharedPtr&& other)`). For a live owner `other` with
pointer `p` and block field `blk`, where `blk` is null or points to a live
block with 1 ≤ strong, the move constructor returns; the new object holds `p`
and `blk`; `other` holds two nulls; every block reads as before (same
counters, none deleted) and no `delete` has run; nothing else changes. -/
theorem shared_move_ctor_transfers (st : State) (other : Nat) (p blk : Ptr)
    (ho : st.getS other = some ⟨p, blk⟩)
    (hlive : ∀ b, blk = some b → ∃ s w, st.load b = some ⟨s, w⟩ ∧ 1 ≤ s ∧ s < SIZE_MOD) :
    ∃ st', SharedPtr.ctorMove st other = some st' ∧
      st'.getS st.shared.length = some ⟨p, blk⟩ ∧
      st'.getS other = some ⟨none, none⟩ ∧
      (∀ b, st'.load b = st.load b) ∧
      st'.deletedValues = st.deletedValues ∧
      st'.deletedBlocks = st.deletedBlocks ∧
      (∀ i, i ≠ other → i ≠ st.shared.length → st'.getS i = st.getS i) ∧
      st'.weak = st.weak := by
  have hlt := State.getS_lt ho
  have hne : other ≠ st.shared.length := by omega
  have ho1 : (st.pushS ⟨p, blk⟩).getS other = some ⟨p, blk⟩ :=
    State.getS_pushS_of_some _ ho
  have hlt1 : other < (st.pushS ⟨p, blk⟩).shared.length := State.getS_lt ho1
  cases blk with
  | none =>
    have e : SharedPtr.ctorMove st other
        = some ((st.pushS ⟨p, none⟩).setS other ⟨none, none⟩) := by
      unfold SharedPtr.ctorMove
      rw [ho]
      simp only [Option.bind_eq_bind, Option.some_bind]
      show (some (st.pushS ⟨p, none⟩)).bind _ = _
      rw [Option.some_bind]
      exact SharedPtr.Reset_eq ho1 (SharedPtr.Clean_null ho1)
    refine ⟨_, e, ?_, State.getS_setS_same _ hlt1, fun b => rfl, rfl, rfl, ?_, rfl⟩
    · rw [State.getS_setS_ne _ _ hne]
      exact State.getS_pushS_length _ _
    · intro i h1 h2
      rw [State.getS_setS_ne _ _ (Ne.symm h1)]
      exact State.getS_pushS_ne_length _ _ h2
  | some b =>
    obtain ⟨s, w, hl, hs, hsm⟩ := hlive b rfl
    have hl1 : (st.pushS ⟨p, some b⟩).load b = some ⟨s, w⟩ := hl
    have e : SharedPtr.ctorMove st other
        = some ((((st.pushS ⟨p, some b⟩).store b ⟨incr s, w⟩).store b ⟨s, w⟩).setS other
            ⟨none, none⟩) := by
      unfold SharedPtr.ctorMove
      rw [ho]
      simp only [Option.bind_eq_bind, Option.some_bind]
      rw [State.bumpStrong_eq hl1, Option.some_bind]
      exact @SharedPtr.Reset_eq _ _ other ⟨p, some b⟩ ho1
        (SharedPtr.Clean_after_bump ho1 hl1 hs hsm)
    refine ⟨_, e, ?_, State.getS_setS_same _ hlt1, ?_, rfl, rfl, ?_, rfl⟩
    · rw [State.getS_setS_ne _ _ hne]
      exact State.getS_pushS_length _ _
    · intro b2
      exact State.load_store_store _ hl1 b2
    · intro i h1 h2
      rw [State.getS_setS_ne _ _ (Ne.symm h1)]
      exact State.getS_pushS_ne_length _ _ h2

/-- C13 at a concrete input: moving from the only owner of block 0. -/
theorem shared_move_ctor_transfers_witness :
    State.oneOwner.getS 0 = some ⟨some 7, some 0⟩ ∧
    State.oneOwner.load 0 = some ⟨1, 0⟩ ∧ 1 ≤ 1 ∧ 1 < SIZE_MOD ∧
    ∃ st', SharedPtr.ctorMove State.oneOwner 0 = some st' ∧
      st'.getS 1 = some ⟨some 7, some 0⟩ ∧
      st'.getS 0 = some ⟨none, none⟩ ∧
      (∀ b, st'.load b = State.oneOwner.load b) ∧
      st'.deletedValues = [] ∧
      st'.deletedBlocks = [] ∧
      (∀ i, i ≠ 0 → i ≠ 1 → st'.getS i = State.oneOwner.getS i) ∧
      st'.weak = [] :=
  ⟨rfl, rfl, by decide, by decide,
    shared_move_ctor_transfers State.oneOwner 0 (some 7) (some 0) rfl
      (fun b h => by cases h; exact ⟨1, 0, rfl, by decide, by decide⟩)⟩

/-- C20 (`SharedPtr::operator=(SharedPtr&&)` on a shared block). Let `this`
and `other` be live owners (possibly the same object) of the same live block
`k` with counters (s, w), 1 ≤ s.  Then `this = move(other)` returns; every
block reads as before, so the counters of `k` are still (s, w), and no
`delete` has run; `other` holds two nulls; `this`, when it is another object,
holds the pointer of `other` and block `k`; the number of live owners that
refer to `k` is one less than before, while `strong` is unchanged.  When
`this` and `other` are the same object, that object is the one left empty. -/
theorem shared_move_assign_same_block (st : State) (this other : Nat) (pa pb : Ptr)
    (k s w : Nat)
    (hx : st.getS this = some ⟨pa, some k⟩) (ho : st.getS other = some ⟨pb, some k⟩)
    (hl : st.load k = some ⟨s, w⟩) (hs : 1 ≤ s) (hsm : s < SIZE_MOD) :
    ∃ st', SharedPtr.moveAssign st this other = some st' ∧
      (∀ b, st'.load b = st.load b) ∧
      st'.load k = some ⟨s, w⟩ ∧
      st'.deletedValues = st.deletedValues ∧
      st'.deletedBlocks = st.deletedBlocks ∧
      st'.getS other = some ⟨none, none⟩ ∧
      (this ≠ other → st'.getS this = some ⟨pb, some k⟩) ∧
      st'.sharedRefs k + 1 = st.sharedRefs k ∧
      (∀ i, i ≠ this → i ≠ other → st'.getS i = st.getS i) ∧
      st'.weak = st.weak := by
  have hlt := State.getS_lt hx
  have hlo := State.getS_lt ho
  have hx1 : (st.setS this ⟨pb, some k⟩).getS this = some ⟨pb, some k⟩ :=
    State.getS_setS_same _ hlt
  have ho1 : (st.setS this ⟨pb, some k⟩).getS other = some ⟨pb, some k⟩ := by
    by_cases h : this = other
    · subst h
      exact hx1
    · rw [State.getS_setS_ne _ _ h]
      exact ho
  have hl1 : (st.setS this ⟨pb, some k⟩).load k = some ⟨s, w⟩ := hl
  have hlo1 : other < (st.setS this ⟨pb, some k⟩).shared.length := State.getS_lt ho1
  have e : SharedPtr.moveAssign st this other
      = some ((((st.setS this ⟨pb, some k⟩).store k ⟨incr s, w⟩).store k ⟨s, w⟩).setS other
          ⟨none, none⟩) := by
    unfold SharedPtr.moveAssign SharedPtr.cleanIfDiffers
    rw [ho]
    simp only [Option.bind_eq_bind, Option.some_bind]
    rw [hx]
    simp only [Option.some_bind, ne_eq, not_true_eq_false, if_false]
    show (some st).bind _ = _
    rw [Option.some_bind, SharedPtr.adopt_eq hx ho, Option.some_bind, hx1, Option.some_bind,
      State.bumpStrong_eq hl1, Option.some_bind]
    exact @SharedPtr.Reset_eq _ _ other ⟨pb, some k⟩ ho1
      (SharedPtr.Clean_after_bump ho1 hl1 hs hsm)
  refine ⟨_, e, fun b => State.load_store_store _ hl1 b, ?_, rfl, rfl,
    State.getS_setS_same _ hlo1, ?_, ?_, ?_, rfl⟩
  · exact (State.load_store_store _ hl1 k).trans hl
  · intro h
    rw [State.getS_setS_ne _ _ (Ne.symm h)]
    exact hx1
  · have c1 := State.sharedRefs_setS ⟨pb, some k⟩ hx k
    have c2 := State.sharedRefs_setS ⟨none, none⟩ ho1 k
    simp only [if_true] at c1
    simp only [if_true] at c2
    have c3 : ((st.setS this ⟨pb, some k⟩).setS other ⟨none, none⟩).sharedRefs k + 1
        = (st.setS this ⟨pb, some k⟩).sharedRefs k := by
      simpa using c2
    show ((st.setS this ⟨pb, some k⟩).setS other ⟨none, none⟩).sharedRefs k + 1 = _
    omega
  · intro i h1 h2
    rw [State.getS_setS_ne _ _ (Ne.symm h2)]
    exact State.getS_setS_ne _ _ (Ne.symm h1)

/-- C20 at a concrete input: the self move assignment of the only owner of
block 0, whose counters are (1, 0). -/
theorem shared_move_assign_same_block_witness :
    State.oneOwner.getS 0 = some ⟨some 7, some 0⟩ ∧
    State.oneOwner.load 0 = some ⟨1, 0⟩ ∧ 1 ≤ 1 ∧ 1 < SIZE_MOD ∧
    ∃ st', SharedPtr.moveAssign State.oneOwner 0 0 = some st' ∧
      (∀ b, st'.load b = State.oneOwner.load b) ∧
      st'.load 0 = some ⟨1, 0⟩ ∧
      st'.deletedValues = [] ∧
      st'.deletedBlocks = [] ∧
      st'.getS 0 = some ⟨none, none⟩ ∧
      ((0 : Nat) ≠ 0 → st'.getS 0 = some ⟨some 7, some 0⟩) ∧
      st'.sharedRefs 0 + 1 = State.oneOwner.sharedRefs 0 ∧
      (∀ i, i ≠ 0 → i ≠ 0 → st'.getS i = State.oneOwner.getS i) ∧
      st'.weak = [] :=
  ⟨rfl, rfl, by decide, by decide,
    shared_move_assign_same_block State.oneOwner 0 0 (some 7) (some 7) 0 1 0 rfl rfl rfl
      (by decide) (by decide)⟩

/-! ## Facts about the member functions of `WeakPtr` -/

theorem WeakPtr.weakClean_null {st : State} {this : Nat} {p : Ptr}
    (hthis : st.getW this = some ⟨p, none⟩) : WeakPtr.Clean st this = some st := by
  unfold WeakPtr.Clean
  rw [hthis]
  rfl

theorem WeakPtr.weakClean_eq {st : State} {this : Nat} {p : Ptr} {b s w : Nat}
    (hthis : st.getW this = some ⟨p, some b⟩) (hload : st.load b = some ⟨s, w⟩) :
    WeakPtr.Clean st this = some
      (if s = 0 ∧ decr w = 0 then (st.store b ⟨s, decr w⟩).deleteBlock b
       else st.store b ⟨s, decr w⟩) := by
  have hst : (st.store b ⟨s, decr w⟩).load b = some ⟨s, decr w⟩ :=
    State.load_store_same _ hload
  unfold WeakPtr.Clean
  rw [hthis]
  simp only [Option.bind_eq_bind, Option.some_bind]
  rw [hload]
  simp only [Option.some_bind]
  generalize decr w = d at *
  rw [hst, Option.some_bind]
  show (if s = 0 ∧ d = 0 then some _ else some _) = _
  by_cases hd : s = 0 ∧ d = 0
  · rw [if_pos hd, if_pos hd]
  · rw [if_neg hd, if_neg hd]

theorem WeakPtr.weakClean_shared {st st1 : State} {this : Nat}
    (h : WeakPtr.Clean st this = some st1) :
    st1.shared = st.shared ∧ st1.weak = st.weak := by
  cases hx : st.getW this with
  | none =>
    unfold WeakPtr.Clean at h
    rw [hx] at h
    cases h
  | some x =>
    obtain ⟨p, blk⟩ := x
    cases blk with
    | none =>
      rw [WeakPtr.weakClean_null hx] at h
      cases h
      exact ⟨rfl, rfl⟩
    | some b =>
      cases hl : st.load b with
      | none =>
        unfold WeakPtr.Clean at h
        rw [hx] at h
        simp only [Option.bind_eq_bind, Option.some_bind] at h
        rw [hl] at h
        cases h
      | some c =>
        obtain ⟨s, w⟩ := c
        rw [WeakPtr.weakClean_eq hx hl] at h
        have h2 := Option.some.inj h
        subst h2
        split_ifs <;> exact ⟨rfl, rfl⟩

theorem WeakPtr.weakReset_eq {st st1 : State} {this : Nat} {x : WeakPtr}
    (hx : st.getW this = some x) (h : WeakPtr.Clean st this = some st1) :
    WeakPtr.Reset st this = some (st1.setW this ⟨none, none⟩) := by
  have hsh := (WeakPtr.weakClean_shared h).2
  have hx1 : st1.getW this = some x := by
    unfold State.getW
    rw [hsh]
    exact hx
  have hlt := State.getW_lt hx1
  unfold WeakPtr.Reset
  rw [h]
  simp only [Option.bind_eq_bind, Option.some_bind]
  rw [hx1, Option.some_bind, State.getW_setW_same _ hlt, Option.some_bind, State.setW_setW]
  rfl

theorem WeakPtr.weakClean_effects {st : State} {this : Nat} {p : Ptr} {b s w : Nat}
    (hthis : st.getW this = some ⟨p, some b⟩) (hload : st.load b = some ⟨s, w⟩)
    (hw : 1 ≤ w) (hlt : w < SIZE_MOD) :
    ∃ st1, WeakPtr.Clean st this = some st1 ∧
      st1.shared = st.shared ∧ st1.weak = st.weak ∧
      st1.contents b = some ⟨s, w - 1⟩ ∧
      st1.load b = (if s = 0 ∧ w = 1 then none else some ⟨s, w - 1⟩) ∧
      (∀ b2, b2 ≠ b → st1.load b2 = st.load b2) ∧
      st1.deletedValues = st.deletedValues ∧
      st1.deletedBlocks = (if s = 0 ∧ w = 1 then b :: st.deletedBlocks else st.deletedBlocks) := by
  have hd := decr_of_pos hw hlt
  have hget : (st.store b ⟨s, w - 1⟩).contents b = some ⟨s, w - 1⟩ :=
    State.contents_store_same _ hload
  have hld : (st.store b ⟨s, w - 1⟩).load b = some ⟨s, w - 1⟩ :=
    State.load_store_same _ hload
  have hne : ∀ b2, b2 ≠ b → (st.store b ⟨s, w - 1⟩).load b2 = st.load b2 :=
    fun b2 h => State.load_store_ne st _ (Ne.symm h)
  rw [WeakPtr.weakClean_eq hthis hload, hd]
  by_cases hc : s = 0 ∧ w = 1
  · have hc2 : s = 0 ∧ w - 1 = 0 := ⟨hc.1, by omega⟩
    refine ⟨_, rfl, ?_⟩
    rw [if_pos hc2, if_pos hc, if_pos hc]
    refine ⟨rfl, rfl, ?_, State.load_deleteBlock_same _ _, ?_, rfl, rfl⟩
    · rw [State.contents_deleteBlock]
      exact hget
    · intro b2 h
      rw [State.load_deleteBlock_ne _ (Ne.symm h)]
      exact hne b2 h
  · have hc2 : ¬ (s = 0 ∧ w - 1 = 0) := fun h => hc ⟨h.1, by omega⟩
    refine ⟨_, rfl, ?_⟩
    rw [if_neg hc2, if_neg hc, if_neg hc]
    exact ⟨rfl, rfl, hget, hld, hne, rfl, rfl⟩

/-- C15 (`WeakPtr::Reset`). On a live observer whose `block` is null,
`Reset()` returns, leaves the observer with two nulls, and changes no block,
no owner and neither deletion log.  On a live observer of a live block `b`
with counters (s, w), 1 ≤ w, `Reset()` returns, leaves the observer with two
nulls, and the counters of `b` are then (s, w - 1); `delete block` runs (on
`b`) exactly when s = 0 and w = 1; `delete ptr` does not run; no other block
and no owner is changed. -/
theorem weak_reset_release_rule (st : State) (this : Nat) (p blk : Ptr)
    (hthis : st.getW this = some ⟨p, blk⟩) :
    (blk = none →
      ∃ st', WeakPtr.Reset st this = some st' ∧
        st'.getW this = some ⟨none, none⟩ ∧
        st'.blocks = st.blocks ∧
        st'.deletedValues = st.deletedValues ∧
        st'.deletedBlocks = st.deletedBlocks ∧
        st'.shared = st.shared) ∧
    (∀ b s w, blk = some b → st.load b = some ⟨s, w⟩ → 1 ≤ w → w < SIZE_MOD →
      ∃ st', WeakPtr.Reset st this = some st' ∧
        st'.getW this = some ⟨none, none⟩ ∧
        st'.contents b = some ⟨s, w - 1⟩ ∧
        st'.load b = (if s = 0 ∧ w = 1 then none else some ⟨s, w - 1⟩) ∧
        st'.deletedBlocks = (if s = 0 ∧ w = 1 then b :: st.deletedBlocks else st.deletedBlocks) ∧
        st'.deletedValues = st.deletedValues ∧
        (∀ b2, b2 ≠ b → st'.load b2 = st.load b2) ∧
        st'.shared = st.shared) := by
  have hlt := State.getW_lt hthis
  constructor
  · intro h
    subst h
    exact ⟨_, WeakPtr.weakReset_eq hthis (WeakPtr.weakClean_null hthis),
      State.getW_setW_same _ hlt, rfl, rfl, rfl, rfl⟩
  · intro b s w hblk hload hw hwm
    subst hblk
    obtain ⟨st1, h1, hsh, hwk, hc, hl, hne, hdv, hdb⟩ :=
      WeakPtr.weakClean_effects hthis hload hw hwm
    have hlt1 : this < st1.weak.length := by
      rw [hwk]
      exact hlt
    exact ⟨_, WeakPtr.weakReset_eq hthis h1, State.getW_setW_same _ hlt1, hc, hl, hdb, hdv,
      hne, hsh⟩

/-- C15 at concrete inputs: the last observer of the expired block 0, whose
counters are (0, 1), and an observer that holds no block. -/
theorem weak_reset_release_rule_witness :
    (State.expiredObserver.getW 0 = some ⟨some 7, some 0⟩ ∧
      State.expiredObserver.load 0 = some ⟨0, 1⟩ ∧ 1 ≤ 1 ∧ 1 < SIZE_MOD ∧
      ∃ st', WeakPtr.Reset State.expiredObserver 0 = some st' ∧
        st'.getW 0 = some ⟨none, none⟩ ∧
        st'.contents 0 = some ⟨0, 0⟩ ∧
        st'.load 0 = none ∧
        st'.deletedBlocks = [0] ∧
        st'.deletedValues = [some 7] ∧
        (∀ b2, b2 ≠ 0 → st'.load b2 = State.expiredObserver.load b2) ∧
        st'.shared = [none]) ∧
    ((⟨[], [], [], [], [some ⟨none, none⟩]⟩ : State).getW 0 = some ⟨none, none⟩ ∧
      ∃ st', WeakPtr.Reset ⟨[], [], [], [], [some ⟨none, none⟩]⟩ 0 = some st' ∧
        st'.getW 0 = some ⟨none, none⟩ ∧
        st'.blocks = [] ∧
        st'.deletedValues = [] ∧
        st'.deletedBlocks = [] ∧
        st'.shared = []) :=
  ⟨⟨rfl, rfl, by decide, by decide,
      (weak_reset_release_rule State.expiredObserver 0 (some 7) (some 0) rfl).2 0 0 1 rfl rfl
        (by decide) (by decide)⟩,
    ⟨rfl, (weak_reset_release_rule ⟨[], [], [], [], [some ⟨none, none⟩]⟩ 0 none none rfl).1 rfl⟩⟩

theorem SharedPtr.dtor_eq {st st1 : State} {this : Nat}
    (h : SharedPtr.Clean st this = some st1) :
    SharedPtr.dtor st this = some (st1.dropS this) := by
  unfold SharedPtr.dtor
  rw [h]
  rfl

theorem WeakPtr.weakDtor_eq {st st1 : State} {this : Nat}
    (h : WeakPtr.Clean st this = some st1) :
    WeakPtr.dtor st this = some (st1.dropW this) := by
  unfold WeakPtr.dtor
  rw [h]
  rfl

theorem WeakPtr.Expired_eq {st : State} {this : Nat} {p : Ptr} {b : Nat} {c : RefCntBlock}
    (hthis : st.getW this = some ⟨p, some b⟩) (hload : st.load b = some c) :
    WeakPtr.Expired st this = some (decide (c.strong = 0), st) := by
  unfold WeakPtr.Expired
  rw [hthis]
  simp only [Option.bind_eq_bind, Option.some_bind]
  rw [hload]
  rfl

/-- C16 (the last owner dies while observers remain). Let `this` be a live
owner with pointer `p` of a live block `b` whose counters are (1, w), 1 ≤ w.
Then `~SharedPtr()` returns; `delete ptr` has run once, on `p`; `delete block`
has not run and the counters of `b` are (0, w); and `Expired()` returns true
on every live observer of `b`.  In the run
`SharedPtr a(v); SharedPtr b(a); ~a; WeakPtr w(b); ~b; w.Expired();`
the counters of block 0, the number of `delete ptr` on `v` and the number of
`delete block` on block 0 are, step by step, (1,0), 0, 0; (2,0), 0, 0;
(1,0), 0, 0; (1,1), 0, 0; (0,1), 1, 0; and `w.Expired()` returns true. -/
theorem last_owner_destroyed (st : State) (this : Nat) (p : Ptr) (b w : Nat)
    (hthis : st.getS this = some ⟨p, some b⟩) (hl : st.load b = some ⟨1, w⟩) (hw : 1 ≤ w) :
    (∃ st', SharedPtr.dtor st this = some st' ∧
      st'.getS this = none ∧
      st'.load b = some ⟨0, w⟩ ∧
      st'.deletedValues = p :: st.deletedValues ∧
      st'.deletedBlocks = st.deletedBlocks ∧
      (∀ i x, st'.getW i = some x → x.block = some b →
        WeakPtr.Expired st' i = some (true, st'))) ∧
    (trace State.init [.sharedRaw (some 7), .sharedCopy 0, .sharedDtor 0, .weakFromShared 1,
        .sharedDtor 1]).map
      (Option.map (fun s => (s.load 0, s.valueDeletes 7, s.blockDeletes 0)))
      = [some (some ⟨1, 0⟩, 0, 0), some (some ⟨2, 0⟩, 0, 0), some (some ⟨1, 0⟩, 0, 0),
         some (some ⟨1, 1⟩, 0, 0), some (some ⟨0, 1⟩, 1, 0)] ∧
    (run State.init [.sharedRaw (some 7), .sharedCopy 0, .sharedDtor 0, .weakFromShared 1,
        .sharedDtor 1]).bind (fun s => (WeakPtr.Expired s 0).map Prod.fst) = some true := by
  refine ⟨?_, by decide, by decide⟩
  obtain ⟨st1, h1, hsh, hwk, _, hld, _, hdv, hdb⟩ :=
    SharedPtr.Clean_effects hthis hl (Nat.le_refl 1) (by unfold SIZE_MOD; norm_num)
  have hw0 : ¬ ((1 : Nat) = 1 ∧ w = 0) := fun h => by omega
  rw [if_neg hw0] at hld hdb
  rw [if_pos rfl] at hdv
  have hlt : this < st1.shared.length := by
    rw [hsh]
    exact State.getS_lt hthis
  refine ⟨_, SharedPtr.dtor_eq h1, ?_, hld, hdv, hdb, ?_⟩
  · exact getElem?_join_set_same none hlt
  · intro i x hx hxb
    obtain ⟨px, bx⟩ := x
    simp only at hxb
    subst hxb
    have hld2 : (st1.dropS this).load b = some ⟨0, w⟩ := hld
    rw [WeakPtr.Expired_eq hx hld2]
    rfl

/-- C16 at a concrete input: the state of the scenario before its last step,
where object 1 is the last owner of block 0 and the counters are (1, 1). -/
theorem last_owner_destroyed_witness :
    (⟨[⟨⟨1, 1⟩, true⟩], [], [], [none, some ⟨some 7, some 0⟩],
        [some ⟨some 7, some 0⟩]⟩ : State).getS 1 = some ⟨some 7, some 0⟩ ∧
    (⟨[⟨⟨1, 1⟩, true⟩], [], [], [none, some ⟨some 7, some 0⟩],
        [some ⟨some 7, some 0⟩]⟩ : State).load 0 = some ⟨1, 1⟩ ∧
    1 ≤ 1 ∧
    ∃ st', SharedPtr.dtor ⟨[⟨⟨1, 1⟩, true⟩], [], [], [none, some ⟨some 7, some 0⟩],
        [some ⟨some 7, some 0⟩]⟩ 1 = some st' ∧
      st'.getS 1 = none ∧
      st'.load 0 = some ⟨0, 1⟩ ∧
      st'.deletedValues = [some 7] ∧
      st'.deletedBlocks = [] ∧
      (∀ i x, st'.getW i = some x → x.block = some 0 →
        WeakPtr.Expired st' i = some (true, st')) :=
  ⟨rfl, rfl, by decide,
    (last_owner_destroyed ⟨[⟨⟨1, 1⟩, true⟩], [], [], [none, some ⟨some 7, some 0⟩],
        [some ⟨some 7, some 0⟩]⟩ 1 (some 7) 0 1 rfl rfl (by decide)).1⟩

theorem SharedPtr.assign_eq_of_ne {st st1 : State} {this other : Nat} {x o : SharedPtr}
    (hx : st.getS this = some x) (ho : st.getS other = some o) (hne : x.block ≠ o.block)
    (h1 : SharedPtr.Clean st this = some st1) :
    SharedPtr.assign st this other
      = (st1.setS this ⟨o.ptr, o.block⟩).bumpStrong o.block := by
  have hsh := (SharedPtr.Clean_shared h1).1
  have hx1 : st1.getS this = some x := by
    unfold State.getS
    rw [hsh]
    exact hx
  have ho1 : st1.getS other = some o := by
    unfold State.getS
    rw [hsh]
    exact ho
  unfold SharedPtr.assign SharedPtr.cleanIfDiffers
  rw [ho]
  simp only [Option.bind_eq_bind, Option.some_bind]
  rw [hx]
  simp only [Option.some_bind]
  rw [if_pos hne, h1, Option.some_bind, SharedPtr.adopt_eq hx1 ho1, Option.some_bind,
    State.getS_setS_same _ (State.getS_lt hx1), Option.some_bind]

/-- C14 (`SharedPtr::operator=(const SharedPtr&)`, different blocks). Let `a`
and `b` be live owners whose `block` fields differ, `a` holding pointer `pa`
and either null or a live block with 1 ≤ strong, `b` holding pointer `pb` and
either null or a live block whose `strong + 1` is representable.  Then both
`a.Clean()` and `a = b` return, and the state after `a = b` is the state after
`a.Clean()` except that `a` holds the fields of `b` and the `strong` of the
block of `b` is one more.  `Clean` does nothing if `a` held no block; if it
held block `k` with counters (s, w) they become (s - 1, w), `delete ptr` runs
on `pa` exactly when s = 1 and `delete block` runs on `k` exactly when s = 1
and w = 0.  `b`, the weak counters and the other objects are unchanged. -/
theorem copy_assign_distinct_blocks (st : State) (a b : Nat) (pa pb blka blkb : Ptr)
    (ha : st.getS a = some ⟨pa, blka⟩) (hb : st.getS b = some ⟨pb, blkb⟩)
    (hne : blka ≠ blkb)
    (hla : ∀ k, blka = some k → ∃ s w, st.load k = some ⟨s, w⟩ ∧ 1 ≤ s ∧ s < SIZE_MOD)
    (hlb : ∀ k, blkb = some k → ∃ s w, st.load k = some ⟨s, w⟩ ∧ s + 1 < SIZE_MOD) :
    ∃ st1 st', SharedPtr.Clean st a = some st1 ∧ SharedPtr.assign st a b = some st' ∧
      (blka = none → st1 = st) ∧
      (∀ k s w, blka = some k → st.load k = some ⟨s, w⟩ →
        st1.contents k = some ⟨s - 1, w⟩ ∧
        st1.load k = (if s = 1 ∧ w = 0 then none else some ⟨s - 1, w⟩) ∧
        st1.deletedValues = (if s = 1 then pa :: st.deletedValues else st.deletedValues) ∧
        st1.deletedBlocks
          = (if s = 1 ∧ w = 0 then k :: st.deletedBlocks else st.deletedBlocks) ∧
        (∀ k2, k2 ≠ k → st1.load k2 = st.load k2)) ∧
      st'.getS a = some ⟨pb, blkb⟩ ∧
      st'.getS b = some ⟨pb, blkb⟩ ∧
      (blkb = none → ∀ k, st'.load k = st1.load k) ∧
      (∀ k s w, blkb = some k → st.load k = some ⟨s, w⟩ →
        st'.load k = some ⟨s + 1, w⟩ ∧ (∀ k2, k2 ≠ k → st'.load k2 = st1.load k2)) ∧
      st'.deletedValues = st1.deletedValues ∧
      st'.deletedBlocks = st1.deletedBlocks ∧
      st'.weak = st.weak ∧
      (∀ i, i ≠ a → st'.getS i = st.getS i) := by
  have hab : a ≠ b := by
    intro h
    subst h
    have := Option.some.inj (ha.symm.trans hb)
    exact hne (congrArg SharedPtr.block this)
  -- the release step
  have hrel : ∃ st1, SharedPtr.Clean st a = some st1 ∧
      st1.shared = st.shared ∧ st1.weak = st.weak ∧
      (blka = none → st1 = st) ∧
      (∀ k s w, blka = some k → st.load k = some ⟨s, w⟩ →
        st1.contents k = some ⟨s - 1, w⟩ ∧
        st1.load k = (if s = 1 ∧ w = 0 then none else some ⟨s - 1, w⟩) ∧
        st1.deletedValues = (if s = 1 then pa :: st.deletedValues else st.deletedValues) ∧
        st1.deletedBlocks
          = (if s = 1 ∧ w = 0 then k :: st.deletedBlocks else st.deletedBlocks) ∧
        (∀ k2, k2 ≠ k → st1.load k2 = st.load k2)) ∧
      (∀ k, blka ≠ some k → st1.load k = st.load k) := by
    cases blka with
    | none =>
      exact ⟨st, SharedPtr.Clean_null ha, rfl, rfl, fun _ => rfl,
        (fun k s w h => by cases h), fun k _ => rfl⟩
    | some ka =>
      obtain ⟨s, w, hl, hs, hsm⟩ := hla ka rfl
      obtain ⟨st1, h1, hsh, hwk, hc, hld, hne2, hdv, hdb⟩ :=
        SharedPtr.Clean_effects ha hl hs hsm
      refine ⟨st1, h1, hsh, hwk, (fun h => by cases h), ?_, ?_⟩
      · intro k s2 w2 hk hl2
        cases hk
        have := Option.some.inj (hl.symm.trans hl2)
        cases this
        exact ⟨hc, hld, hdv, hdb, hne2⟩
      · intro k hk
        exact hne2 k (fun h => hk (by rw [h]))
  obtain ⟨st1, h1, hsh, hwk, hnone, hsome, hother⟩ := hrel
  have ha1 : st1.getS a = some ⟨pa, blka⟩ := by
    unfold State.getS
    rw [hsh]
    exact ha
  have hlt1 := State.getS_lt ha1
  have e := SharedPtr.assign_eq_of_ne ha hb hne h1
  have hga : (st1.setS a ⟨pb, blkb⟩).getS a = some ⟨pb, blkb⟩ :=
    State.getS_setS_same _ hlt1
  have hgi : ∀ i, i ≠ a → (st1.setS a ⟨pb, blkb⟩).getS i = st.getS i := by
    intro i hi
    rw [State.getS_setS_ne _ _ (Ne.symm hi)]
    unfold State.getS
    rw [hsh]
  have hgb : (st1.setS a ⟨pb, blkb⟩).getS b = some ⟨pb, blkb⟩ := by
    rw [hgi b (Ne.symm hab)]
    exact hb
  cases blkb with
  | none =>
    refine ⟨st1, _, h1, e, hnone, hsome, hga, hgb, fun _ k => rfl, ?_, rfl, rfl, hwk, hgi⟩
    intro k s w h
    cases h
  | some kb =>
    obtain ⟨s, w, hl, hsm⟩ := hlb kb rfl
    have hl1 : (st1.setS a ⟨pb, some kb⟩).load kb = some ⟨s, w⟩ := by
      show st1.load kb = _
      rw [hother kb hne]
      exact hl
    have e2 : SharedPtr.assign st a b
        = some ((st1.setS a ⟨pb, some kb⟩).store kb ⟨s + 1, w⟩) := by
      rw [e, State.bumpStrong_eq hl1]
      show some (State.store _ kb ⟨incr s, w⟩) = _
      rw [incr_of_lt hsm]
    refine ⟨st1, _, h1, e2, hnone, hsome, hga, hgb, (fun h => by cases h), ?_, rfl, rfl,
      hwk, hgi⟩
    intro k s2 w2 hk hl2
    cases hk
    have := Option.some.inj (hl.symm.trans hl2)
    cases this
    refine ⟨State.load_store_same _ hl1, ?_⟩
    intro k2 hk2
    exact State.load_store_ne _ _ (Ne.symm hk2)

/-- C14 at a concrete input: `a` (object 0) is the only owner of block 0,
`b` (object 1) the only owner of block 1; `a = b` deletes the value and the
block of `a` and leaves block 1 with counters (2, 0). -/
theorem copy_assign_distinct_blocks_witness :
    State.twoBlocks.getS 0 = some ⟨some 7, some 0⟩ ∧
    State.twoBlocks.getS 1 = some ⟨some 8, some 1⟩ ∧
    (some 0 : Ptr) ≠ some 1 ∧
    (State.twoBlocks.load 0 = some ⟨1, 0⟩ ∧ 1 ≤ 1 ∧ 1 < SIZE_MOD) ∧
    (State.twoBlocks.load 1 = some ⟨1, 0⟩ ∧ 1 + 1 < SIZE_MOD) ∧
    ∃ st1 st', SharedPtr.Clean State.twoBlocks 0 = some st1 ∧
      SharedPtr.assign State.twoBlocks 0 1 = some st' ∧
      ((some 0 : Ptr) = none → st1 = State.twoBlocks) ∧
      (∀ k s w, (some 0 : Ptr) = some k → State.twoBlocks.load k = some ⟨s, w⟩ →
        st1.contents k = some ⟨s - 1, w⟩ ∧
        st1.load k = (if s = 1 ∧ w = 0 then none else some ⟨s - 1, w⟩) ∧
        st1.deletedValues = (if s = 1 then some 7 :: State.twoBlocks.deletedValues
          else State.twoBlocks.deletedValues) ∧
        st1.deletedBlocks = (if s = 1 ∧ w = 0 then k :: State.twoBlocks.deletedBlocks
          else State.twoBlocks.deletedBlocks) ∧
        (∀ k2, k2 ≠ k → st1.load k2 = State.twoBlocks.load k2)) ∧
      st'.getS 0 = some ⟨some 8, some 1⟩ ∧
      st'.getS 1 = some ⟨some 8, some 1⟩ ∧
      ((some 1 : Ptr) = none → ∀ k, st'.load k = st1.load k) ∧
      (∀ k s w, (some 1 : Ptr) = some k → State.twoBlocks.load k = some ⟨s, w⟩ →
        st'.load k = some ⟨s + 1, w⟩ ∧ (∀ k2, k2 ≠ k → st'.load k2 = st1.load k2)) ∧
      st'.deletedValues = st1.deletedValues ∧
      st'.deletedBlocks = st1.deletedBlocks ∧
      st'.weak = State.twoBlocks.weak ∧
      (∀ i, i ≠ 0 → st'.getS i = State.twoBlocks.getS i) :=
  ⟨rfl, rfl, by decide, ⟨rfl, by decide, by decide⟩, ⟨rfl, by decide⟩,
    copy_assign_distinct_blocks State.twoBlocks 0 1 (some 7) (some 8) (some 0) (some 1)
      rfl rfl (by decide)
      (fun k h => by cases h; exact ⟨1, 0, rfl, by decide, by decide⟩)
      (fun k h => by cases h; exact ⟨1, 0, rfl, by decide⟩)⟩

/-! ## What a successful call tells about its input -/

theorem State.bumpStrong_some {s s1 : State} {blk : Ptr} (h : s.bumpStrong blk = some s1) :
    (blk = none ∧ s1 = s) ∨
    ∃ k c, blk = some k ∧ s.load k = some c ∧ s1 = s.store k ⟨incr c.strong, c.weak⟩ := by
  cases blk with
  | none =>
    left
    exact ⟨rfl, (Option.some.inj h).symm⟩
  | some k =>
    right
    cases hl : s.load k with
    | none =>
      unfold State.bumpStrong at h
      simp only [Option.bind_eq_bind] at h
      rw [hl] at h
      cases h
    | some c =>
      rw [State.bumpStrong_eq hl] at h
      exact ⟨k, c, rfl, hl, (Option.some.inj h).symm⟩

theorem State.bumpWeak_some {s s1 : State} {blk : Ptr} (h : s.bumpWeak blk = some s1) :
    (blk = none ∧ s1 = s) ∨
    ∃ k c, blk = some k ∧ s.load k = some c ∧ s1 = s.store k ⟨c.strong, incr c.weak⟩ := by
  cases blk with
  | none =>
    left
    exact ⟨rfl, (Option.some.inj h).symm⟩
  | some k =>
    right
    cases hl : s.load k with
    | none =>
      unfold State.bumpWeak at h
      simp only [Option.bind_eq_bind] at h
      rw [hl] at h
      cases h
    | some c =>
      rw [State.bumpWeak_eq hl] at h
      exact ⟨k, c, rfl, hl, (Option.some.inj h).symm⟩

theorem SharedPtr.Clean_some {s s1 : State} {this : Nat} (h : SharedPtr.Clean s this = some s1) :
    ∃ p blk, s.getS this = some ⟨p, blk⟩ ∧
      ((blk = none ∧ s1 = s) ∨
       ∃ k sk wk, blk = some k ∧ s.load k = some ⟨sk, wk⟩ ∧
        s1 = (if decr sk = 0 then
                (if wk = 0 then ((s.store k ⟨decr sk, wk⟩).deletePtr p).deleteBlock k
                 else (s.store k ⟨decr sk, wk⟩).deletePtr p)
              else s.store k ⟨decr sk, wk⟩)) := by
  cases hx : s.getS this with
  | none =>
    unfold SharedPtr.Clean at h
    rw [hx] at h
    cases h
  | some x =>
    obtain ⟨p, blk⟩ := x
    refine ⟨p, blk, rfl, ?_⟩
    cases blk with
    | none =>
      rw [SharedPtr.Clean_null hx] at h
      exact Or.inl ⟨rfl, (Option.some.inj h).symm⟩
    | some k =>
      right
      cases hl : s.load k with
      | none =>
        unfold SharedPtr.Clean at h
        rw [hx] at h
        simp only [Option.bind_eq_bind, Option.some_bind] at h
        rw [hl] at h
        cases h
      | some c =>
        obtain ⟨sk, wk⟩ := c
        rw [SharedPtr.Clean_eq hx hl] at h
        exact ⟨k, sk, wk, rfl, hl, (Option.some.inj h).symm⟩

theorem WeakPtr.weakClean_some {s s1 : State} {this : Nat} (h : WeakPtr.Clean s this = some s1) :
    ∃ p blk, s.getW this = some ⟨p, blk⟩ ∧
      ((blk = none ∧ s1 = s) ∨
       ∃ k sk wk, blk = some k ∧ s.load k = some ⟨sk, wk⟩ ∧
        s1 = (if sk = 0 ∧ decr wk = 0 then (s.store k ⟨sk, decr wk⟩).deleteBlock k
              else s.store k ⟨sk, decr wk⟩)) := by
  cases hx : s.getW this with
  | none =>
    unfold WeakPtr.Clean at h
    rw [hx] at h
    cases h
  | some x =>
    obtain ⟨p, blk⟩ := x
    refine ⟨p, blk, rfl, ?_⟩
    cases blk with
    | none =>
      rw [WeakPtr.weakClean_null hx] at h
      exact Or.inl ⟨rfl, (Option.some.inj h).symm⟩
    | some k =>
      right
      cases hl : s.load k with
      | none =>
        unfold WeakPtr.Clean at h
        rw [hx] at h
        simp only [Option.bind_eq_bind, Option.some_bind] at h
        rw [hl] at h
        cases h
      | some c =>
        obtain ⟨sk, wk⟩ := c
        rw [WeakPtr.weakClean_eq hx hl] at h
        exact ⟨k, sk, wk, rfl, hl, (Option.some.inj h).symm⟩

theorem State.bumpStrong_objs {s s1 : State} {blk : Ptr} (h : s.bumpStrong blk = some s1) :
    s1.shared = s.shared ∧ s1.weak = s.weak := by
  rcases State.bumpStrong_some h with ⟨_, h1⟩ | ⟨k, c, _, _, h1⟩ <;> subst h1 <;> exact ⟨rfl, rfl⟩

theorem State.bumpWeak_objs {s s1 : State} {blk : Ptr} (h : s.bumpWeak blk = some s1) :
    s1.shared = s.shared ∧ s1.weak = s.weak := by
  rcases State.bumpWeak_some h with ⟨_, h1⟩ | ⟨k, c, _, _, h1⟩ <;> subst h1 <;> exact ⟨rfl, rfl⟩

theorem SharedPtr.cleanIfDiffers_some {s s1 : State} {this : Nat} {blk : Ptr}
    (h : SharedPtr.cleanIfDiffers s this blk = some s1) :
    ∃ x, s.getS this = some x ∧
      ((x.block = blk ∧ s1 = s) ∨ (x.block ≠ blk ∧ SharedPtr.Clean s this = some s1)) := by
  unfold SharedPtr.cleanIfDiffers at h
  simp only [Option.bind_eq_bind, Option.bind_eq_some] at h
  obtain ⟨x, hx, h1⟩ := h
  refine ⟨x, hx, ?_⟩
  by_cases hb : x.block = blk
  · left
    rw [if_neg (by simpa using hb)] at h1
    exact ⟨hb, (Option.some.inj h1).symm⟩
  · right
    rw [if_pos hb] at h1
    exact ⟨hb, h1⟩

theorem WeakPtr.weakCleanIfDiffers_some {s s1 : State} {this : Nat} {blk : Ptr}
    (h : WeakPtr.cleanIfDiffers s this blk = some s1) :
    ∃ x, s.getW this = some x ∧
      ((x.block = blk ∧ s1 = s) ∨ (x.block ≠ blk ∧ WeakPtr.Clean s this = some s1)) := by
  unfold WeakPtr.cleanIfDiffers at h
  simp only [Option.bind_eq_bind, Option.bind_eq_some] at h
  obtain ⟨x, hx, h1⟩ := h
  refine ⟨x, hx, ?_⟩
  by_cases hb : x.block = blk
  · left
    rw [if_neg (by simpa using hb)] at h1
    exact ⟨hb, (Option.some.inj h1).symm⟩
  · right
    rw [if_pos hb] at h1
    exact ⟨hb, h1⟩

theorem SharedPtr.adopt_some {s s1 : State} {this other : Nat}
    (h : SharedPtr.adopt s this other = some s1) :
    ∃ x o, s.getS this = some x ∧ s.getS other = some o ∧
      s1 = s.setS this ⟨o.ptr, o.block⟩ := by
  have h0 := h
  unfold SharedPtr.adopt at h
  simp only [Option.bind_eq_bind, Option.bind_eq_some] at h
  obtain ⟨x, hx, o, ho, _⟩ := h
  rw [SharedPtr.adopt_eq hx ho] at h0
  exact ⟨x, o, hx, ho, (Option.some.inj h0).symm⟩

theorem SharedPtr.Reset_some {s s2 : State} {this : Nat}
    (h : SharedPtr.Reset s this = some s2) :
    ∃ x s1, s.getS this = some x ∧ SharedPtr.Clean s this = some s1 ∧
      s2 = s1.setS this ⟨none, none⟩ := by
  have h0 := h
  unfold SharedPtr.Reset at h
  simp only [Option.bind_eq_bind, Option.bind_eq_some] at h
  obtain ⟨s1, h1, _⟩ := h
  obtain ⟨p, blk, hx, _⟩ := SharedPtr.Clean_some h1
  rw [SharedPtr.Reset_eq hx h1] at h0
  exact ⟨_, s1, hx, h1, (Option.some.inj h0).symm⟩

theorem WeakPtr.weakReset_some {s s2 : State} {this : Nat}
    (h : WeakPtr.Reset s this = some s2) :
    ∃ x s1, s.getW this = some x ∧ WeakPtr.Clean s this = some s1 ∧
      s2 = s1.setW this ⟨none, none⟩ := by
  have h0 := h
  unfold WeakPtr.Reset at h
  simp only [Option.bind_eq_bind, Option.bind_eq_some] at h
  obtain ⟨s1, h1, _⟩ := h
  obtain ⟨p, blk, hx, _⟩ := WeakPtr.weakClean_some h1
  rw [WeakPtr.weakReset_eq hx h1] at h0
  exact ⟨_, s1, hx, h1, (Option.some.inj h0).symm⟩

theorem WeakPtr.weakAdopt_eq {st : State} {this other : Nat} {x o : WeakPtr}
    (hx : st.getW this = some x) (ho : st.getW other = some o) :
    WeakPtr.adopt st this other = some (st.setW this ⟨o.ptr, o.block⟩) := by
  have hlt := State.getW_lt hx
  unfold WeakPtr.adopt
  rw [hx, ho]
  simp only [Option.bind_eq_bind, Option.some_bind]
  rw [State.getW_setW_same _ hlt, Option.some_bind]
  by_cases h : this = other
  · subst h
    rw [State.getW_setW_same _ hlt, Option.some_bind]
    have : x = o := Option.some.inj (hx.symm.trans ho)
    subst this
    rw [State.setW_setW]
    rfl
  · rw [State.getW_setW_ne _ _ h, ho, Option.some_bind, State.setW_setW]
    rfl

theorem WeakPtr.adoptBlockFirst_eq {st : State} {this other : Nat} {x o : WeakPtr}
    (hx : st.getW this = some x) (ho : st.getW other = some o) :
    WeakPtr.adoptBlockFirst st this other = some (st.setW this ⟨o.ptr, o.block⟩) := by
  have hlt := State.getW_lt hx
  unfold WeakPtr.adoptBlockFirst
  rw [hx, ho]
  simp only [Option.bind_eq_bind, Option.some_bind]
  rw [State.getW_setW_same _ hlt, Option.some_bind]
  by_cases h : this = other
  · subst h
    rw [State.getW_setW_same _ hlt, Option.some_bind]
    have : x = o := Option.some.inj (hx.symm.trans ho)
    subst this
    rw [State.setW_setW]
    rfl
  · rw [State.getW_setW_ne _ _ h, ho, Option.some_bind, State.setW_setW]
    rfl

theorem WeakPtr.weakAdopt_some {s s1 : State} {this other : Nat}
    (h : WeakPtr.adopt s this other = some s1) :
    ∃ x o, s.getW this = some x ∧ s.getW other = some o ∧
      s1 = s.setW this ⟨o.ptr, o.block⟩ := by
  have h0 := h
  unfold WeakPtr.adopt at h
  simp only [Option.bind_eq_bind, Option.bind_eq_some] at h
  obtain ⟨x, hx, o, ho, _⟩ := h
  rw [WeakPtr.weakAdopt_eq hx ho] at h0
  exact ⟨x, o, hx, ho, (Option.some.inj h0).symm⟩

theorem WeakPtr.adoptBlockFirst_some {s s1 : State} {this other : Nat}
    (h : WeakPtr.adoptBlockFirst s this other = some s1) :
    ∃ x o, s.getW this = some x ∧ s.getW other = some o ∧
      s1 = s.setW this ⟨o.ptr, o.block⟩ := by
  have h0 := h
  unfold WeakPtr.adoptBlockFirst at h
  simp only [Option.bind_eq_bind, Option.bind_eq_some] at h
  obtain ⟨x, hx, o, ho, _⟩ := h
  rw [WeakPtr.adoptBlockFirst_eq hx ho] at h0
  exact ⟨x, o, hx, ho, (Option.some.inj h0).symm⟩

/-! ## Every operation as a sequence of elementary steps -/

theorem SharedPtr.ctorCopy_some {s s1 : State} {other : Nat}
    (h : SharedPtr.ctorCopy s other = some s1) :
    ∃ x, s.getS other = some x ∧ (s.pushS ⟨x.ptr, x.block⟩).bumpStrong x.block = some s1 := by
  unfold SharedPtr.ctorCopy at h
  simp only [Option.bind_eq_bind, Option.bind_eq_some] at h
  exact h

theorem SharedPtr.ctorWeak_some {s s1 : State} {other : Nat}
    (h : SharedPtr.ctorWeak s other = some s1) :
    ∃ x, s.getW other = some x ∧ (s.pushS ⟨x.ptr, x.block⟩).bumpStrong x.block = some s1 := by
  unfold SharedPtr.ctorWeak at h
  simp only [Option.bind_eq_bind, Option.bind_eq_some] at h
  exact h

theorem SharedPtr.assign_some {s s3 : State} {this other : Nat}
    (h : SharedPtr.assign s this other = some s3) :
    ∃ x y s1, s.getS this = some x ∧ s.getS other = some y ∧
      ((x.block = y.block ∧ s1 = s) ∨ (x.block ≠ y.block ∧ SharedPtr.Clean s this = some s1)) ∧
      (s1.setS this ⟨y.ptr, y.block⟩).bumpStrong y.block = some s3 := by
  unfold SharedPtr.assign at h
  simp only [Option.bind_eq_bind, Option.bind_eq_some] at h
  obtain ⟨y, hy, s1, h1, s2, h2, z, hz, h3⟩ := h
  obtain ⟨x, hx, hc⟩ := SharedPtr.cleanIfDiffers_some h1
  have hobj : s1.shared = s.shared := by
    rcases hc with ⟨_, e⟩ | ⟨_, e⟩
    · rw [e]
    · exact (SharedPtr.Clean_shared e).1
  obtain ⟨x1, y1, hx1, hy1, e2⟩ := SharedPtr.adopt_some h2
  have hy1' : s1.getS other = some y := by
    unfold State.getS
    rw [hobj]
    exact hy
  have : y1 = y := Option.some.inj (hy1.symm.trans hy1')
  subst this
  subst e2
  rw [State.getS_setS_same _ (State.getS_lt hx1)] at hz
  have := Option.some.inj hz
  subst this
  exact ⟨x, y1, s1, hx, hy, hc, h3⟩

theorem SharedPtr.ctorMove_some {s s4 : State} {other : Nat}
    (h : SharedPtr.ctorMove s other = some s4) :
    ∃ x s2 s3, s.getS other = some x ∧
      (s.pushS ⟨x.ptr, x.block⟩).bumpStrong x.block = some s2 ∧
      SharedPtr.Clean s2 other = some s3 ∧ s4 = s3.setS other ⟨none, none⟩ := by
  unfold SharedPtr.ctorMove at h
  simp only [Option.bind_eq_bind, Option.bind_eq_some] at h
  obtain ⟨x, hx, s2, h2, h3⟩ := h
  obtain ⟨_, s3, _, h4, e⟩ := SharedPtr.Reset_some h3
  exact ⟨x, s2, s3, hx, h2, h4, e⟩

theorem SharedPtr.moveAssign_some {s s5 : State} {this other : Nat}
    (h : SharedPtr.moveAssign s this other = some s5) :
    ∃ x y s1 s3 s4, s.getS this = some x ∧ s.getS other = some y ∧
      ((x.block = y.block ∧ s1 = s) ∨ (x.block ≠ y.block ∧ SharedPtr.Clean s this = some s1)) ∧
      (s1.setS this ⟨y.ptr, y.block⟩).bumpStrong y.block = some s3 ∧
      SharedPtr.Clean s3 other = some s4 ∧ s5 = s4.setS other ⟨none, none⟩ := by
  unfold SharedPtr.moveAssign at h
  simp only [Option.bind_eq_bind, Option.bind_eq_some] at h
  obtain ⟨y, hy, s1, h1, s2, h2, z, hz, s3, h3, h4⟩ := h
  obtain ⟨x, hx, hc⟩ := SharedPtr.cleanIfDiffers_some h1
  have hobj : s1.shared = s.shared := by
    rcases hc with ⟨_, e⟩ | ⟨_, e⟩
    · rw [e]
    · exact (SharedPtr.Clean_shared e).1
  obtain ⟨x1, y1, hx1, hy1, e2⟩ := SharedPtr.adopt_some h2
  have hy1' : s1.getS other = some y := by
    unfold State.getS
    rw [hobj]
    exact hy
  have : y1 = y := Option.some.inj (hy1.symm.trans hy1')
  subst this
  subst e2
  rw [State.getS_setS_same _ (State.getS_lt hx1)] at hz
  have := Option.some.inj hz
  subst this
  obtain ⟨_, s4, _, h5, e⟩ := SharedPtr.Reset_some h4
  exact ⟨x, y1, s1, s3, s4, hx, hy, hc, h3, h5, e⟩

theorem SharedPtr.dtor_some {s s2 : State} {this : Nat}
    (h : SharedPtr.dtor s this = some s2) :
    ∃ s1, SharedPtr.Clean s this = some s1 ∧ s2 = s1.dropS this := by
  unfold SharedPtr.dtor at h
  simp only [Option.bind_eq_bind, Option.bind_eq_some] at h
  obtain ⟨s1, h1, e⟩ := h
  exact ⟨s1, h1, (Option.some.inj e).symm⟩

theorem WeakPtr.weakCtorCopy_some {s s1 : State} {other : Nat}
    (h : WeakPtr.ctorCopy s other = some s1) :
    ∃ x, s.getW other = some x ∧ (s.pushW ⟨x.ptr, x.block⟩).bumpWeak x.block = some s1 := by
  unfold WeakPtr.ctorCopy at h
  simp only [Option.bind_eq_bind, Option.bind_eq_some] at h
  exact h

theorem WeakPtr.ctorShared_some {s s1 : State} {other : Nat}
    (h : WeakPtr.ctorShared s other = some s1) :
    ∃ x, s.getS other = some x ∧ (s.pushW ⟨x.ptr, x.block⟩).bumpWeak x.block = some s1 := by
  unfold WeakPtr.ctorShared at h
  simp only [Option.bind_eq_bind, Option.bind_eq_some] at h
  exact h

theorem WeakPtr.weakAssign_some {s s3 : State} {this other : Nat}
    (h : WeakPtr.assign s this other = some s3) :
    ∃ x y s1, s.getW this = some x ∧ s.getW other = some y ∧
      ((x.block = y.block ∧ s1 = s) ∨ (x.block ≠ y.block ∧ WeakPtr.Clean s this = some s1)) ∧
      (s1.setW this ⟨y.ptr, y.block⟩).bumpWeak y.block = some s3 := by
  unfold WeakPtr.assign at h
  simp only [Option.bind_eq_bind, Option.bind_eq_some] at h
  obtain ⟨y, hy, s1, h1, s2, h2, z, hz, h3⟩ := h
  obtain ⟨x, hx, hc⟩ := WeakPtr.weakCleanIfDiffers_some h1
  have hobj : s1.weak = s.weak := by
    rcases hc with ⟨_, e⟩ | ⟨_, e⟩
    · rw [e]
    · exact (WeakPtr.weakClean_shared e).2
  obtain ⟨x1, y1, hx1, hy1, e2⟩ := WeakPtr.weakAdopt_some h2
  have hy1' : s1.getW other = some y := by
    unfold State.getW
    rw [hobj]
    exact hy
  have : y1 = y := Option.some.inj (hy1.symm.trans hy1')
  subst this
  subst e2
  rw [State.getW_setW_same _ (State.getW_lt hx1)] at hz
  have := Option.some.inj hz
  subst this
  exact ⟨x, y1, s1, hx, hy, hc, h3⟩

theorem WeakPtr.assignShared_some {s s3 : State} {this other : Nat}
    (h : WeakPtr.assignShared s this other = some s3) :
    ∃ x y s1, s.getW this = some x ∧ s.getS other = some y ∧
      ((x.block = y.block ∧ s1 = s) ∨ (x.block ≠ y.block ∧ WeakPtr.Clean s this = some s1)) ∧
      (s1.setW this ⟨y.ptr, y.block⟩).bumpWeak y.block = some s3 := by
  unfold WeakPtr.assignShared at h
  simp only [Option.bind_eq_bind, Option.bind_eq_some] at h
  obtain ⟨y, hy, s1, h1, x1, hx1, y1, hy1, x2, hx2, y2, hy2, z, hz, h3⟩ := h
  obtain ⟨x, hx, hc⟩ := WeakPtr.weakCleanIfDiffers_some h1
  have hobj : s1.shared = s.shared := by
    rcases hc with ⟨_, e⟩ | ⟨_, e⟩
    · rw [e]
    · exact (WeakPtr.weakClean_shared e).1
  have hy1' : s1.getS other = some y := by
    unfold State.getS
    rw [hobj]
    exact hy
  have e1 : y1 = y := Option.some.inj (hy1.symm.trans hy1')
  subst e1
  have hlt := State.getW_lt hx1
  rw [State.getW_setW_same _ hlt] at hx2
  have e2 := Option.some.inj hx2
  subst e2
  have e3 : y2 = y1 := Option.some.inj (hy2.symm.trans hy1')
  subst e3
  rw [State.setW_setW] at hz h3
  rw [State.getW_setW_same _ hlt] at hz
  have e4 := Option.some.inj hz
  subst e4
  exact ⟨x, y2, s1, hx, hy, hc, h3⟩

theorem WeakPtr.weakCtorMove_some {s s4 : State} {other : Nat}
    (h : WeakPtr.ctorMove s other = some s4) :
    ∃ x s2 s3, s.getW other = some x ∧
      (s.pushW ⟨x.ptr, x.block⟩).bumpWeak x.block = some s2 ∧
      WeakPtr.Clean s2 other = some s3 ∧ s4 = s3.setW other ⟨none, none⟩ := by
  unfold WeakPtr.ctorMove at h
  simp only [Option.bind_eq_bind, Option.bind_eq_some] at h
  obtain ⟨x, hx, s2, h2, h3⟩ := h
  obtain ⟨_, s3, _, h4, e⟩ := WeakPtr.weakReset_some h3
  exact ⟨x, s2, s3, hx, h2, h4, e⟩

theorem WeakPtr.weakMoveAssign_some {s s5 : State} {this other : Nat}
    (h : WeakPtr.moveAssign s this other = some s5) :
    ∃ x y s1 s3 s4, s.getW this = some x ∧ s.getW other = some y ∧
      ((x.block = y.block ∧ s1 = s) ∨ (x.block ≠ y.block ∧ WeakPtr.Clean s this = some s1)) ∧
      (s1.setW this ⟨y.ptr, y.block⟩).bumpWeak y.block = some s3 ∧
      WeakPtr.Clean s3 other = some s4 ∧ s5 = s4.setW other ⟨none, none⟩ := by
  unfold WeakPtr.moveAssign at h
  simp only [Option.bind_eq_bind, Option.bind_eq_some] at h
  obtain ⟨y, hy, s1, h1, s2, h2, z, hz, s3, h3, h4⟩ := h
  obtain ⟨x, hx, hc⟩ := WeakPtr.weakCleanIfDiffers_some h1
  have hobj : s1.weak = s.weak := by
    rcases hc with ⟨_, e⟩ | ⟨_, e⟩
    · rw [e]
    · exact (WeakPtr.weakClean_shared e).2
  obtain ⟨x1, y1, hx1, hy1, e2⟩ := WeakPtr.adoptBlockFirst_some h2
  have hy1' : s1.getW other = some y := by
    unfold State.getW
    rw [hobj]
    exact hy
  have : y1 = y := Option.some.inj (hy1.symm.trans hy1')
  subst this
  subst e2
  rw [State.getW_setW_same _ (State.getW_lt hx1)] at hz
  have := Option.some.inj hz
  subst this
  obtain ⟨_, s4, _, h5, e⟩ := WeakPtr.weakReset_some h4
  exact ⟨x, y1, s1, s3, s4, hx, hy, hc, h3, h5, e⟩

theorem WeakPtr.weakDtor_some {s s2 : State} {this : Nat}
    (h : WeakPtr.dtor s this = some s2) :
    ∃ s1, WeakPtr.Clean s this = some s1 ∧ s2 = s1.dropW this := by
  unfold WeakPtr.dtor at h
  simp only [Option.bind_eq_bind, Option.bind_eq_some] at h
  obtain ⟨s1, h1, e⟩ := h
  exact ⟨s1, h1, (Option.some.inj e).symm⟩

theorem WeakPtr.Expired_some {s s1 : State} {this : Nat} {r : Bool}
    (h : WeakPtr.Expired s this = some (r, s1)) : s1 = s := by
  unfold WeakPtr.Expired at h
  simp only [Option.bind_eq_bind, Option.bind_eq_some] at h
  obtain ⟨x, _, h1⟩ := h
  cases hb : x.block with
  | none =>
    rw [hb] at h1
    have := Option.some.inj h1
    exact (congrArg Prod.snd this).symm
  | some b =>
    rw [hb] at h1
    simp only [Option.bind_eq_bind, Option.bind_eq_some] at h1
    obtain ⟨c, _, h2⟩ := h1
    have := Option.some.inj h2
    exact (congrArg Prod.snd this).symm

/-! ## Stable properties along a run -/

theorem step_stable {P : State → Prop} (hP : Stable P) {s s1 : State} {op : Op}
    (h : step s op = some s1) (hs : P s) : P s1 := by
  cases op with
  | sharedDefault =>
    have := Option.some.inj h
    subst this
    exact hP.pushS _ _ hs
  | sharedRaw p => exact hP.raw _ _ _ h hs
  | sharedCopy other =>
    obtain ⟨x, _, h1⟩ := SharedPtr.ctorCopy_some h
    exact hP.bumpStrong _ _ _ h1 (hP.pushS _ _ hs)
  | sharedAssign this other =>
    obtain ⟨x, y, s0, _, _, hc, h1⟩ := SharedPtr.assign_some h
    have h0 : P s0 := by
      rcases hc with ⟨_, e⟩ | ⟨_, e⟩
      · rw [e]
        exact hs
      · exact hP.cleanS _ _ _ e hs
    exact hP.bumpStrong _ _ _ h1 (hP.setS _ _ _ h0)
  | sharedMove other =>
    obtain ⟨x, s2, s3, _, h1, h2, e⟩ := SharedPtr.ctorMove_some h
    subst e
    exact hP.setS _ _ _ (hP.cleanS _ _ _ h2 (hP.bumpStrong _ _ _ h1 (hP.pushS _ _ hs)))
  | sharedMoveAssign this other =>
    obtain ⟨x, y, s0, s3, s4, _, _, hc, h1, h2, e⟩ := SharedPtr.moveAssign_some h
    have h0 : P s0 := by
      rcases hc with ⟨_, e⟩ | ⟨_, e⟩
      · rw [e]
        exact hs
      · exact hP.cleanS _ _ _ e hs
    subst e
    exact hP.setS _ _ _ (hP.cleanS _ _ _ h2 (hP.bumpStrong _ _ _ h1 (hP.setS _ _ _ h0)))
  | sharedFromWeak other =>
    obtain ⟨x, _, h1⟩ := SharedPtr.ctorWeak_some h
    exact hP.bumpStrong _ _ _ h1 (hP.pushS _ _ hs)
  | sharedReset this =>
    obtain ⟨_, s0, _, h1, e⟩ := SharedPtr.Reset_some h
    subst e
    exact hP.setS _ _ _ (hP.cleanS _ _ _ h1 hs)
  | sharedDtor this =>
    obtain ⟨s0, h1, e⟩ := SharedPtr.dtor_some h
    subst e
    exact hP.dropS _ _ (hP.cleanS _ _ _ h1 hs)
  | weakDefault =>
    have := Option.some.inj h
    subst this
    exact hP.pushW _ _ hs
  | weakCopy other =>
    obtain ⟨x, _, h1⟩ := WeakPtr.weakCtorCopy_some h
    exact hP.bumpWeak _ _ _ h1 (hP.pushW _ _ hs)
  | weakAssign this other =>
    obtain ⟨x, y, s0, _, _, hc, h1⟩ := WeakPtr.weakAssign_some h
    have h0 : P s0 := by
      rcases hc with ⟨_, e⟩ | ⟨_, e⟩
      · rw [e]
        exact hs
      · exact hP.cleanW _ _ _ e hs
    exact hP.bumpWeak _ _ _ h1 (hP.setW _ _ _ h0)
  | weakMove other =>
    obtain ⟨x, s2, s3, _, h1, h2, e⟩ := WeakPtr.weakCtorMove_some h
    subst e
    exact hP.setW _ _ _ (hP.cleanW _ _ _ h2 (hP.bumpWeak _ _ _ h1 (hP.pushW _ _ hs)))
  | weakMoveAssign this other =>
    obtain ⟨x, y, s0, s3, s4, _, _, hc, h1, h2, e⟩ := WeakPtr.weakMoveAssign_some h
    have h0 : P s0 := by
      rcases hc with ⟨_, e⟩ | ⟨_, e⟩
      · rw [e]
        exact hs
      · exact hP.cleanW _ _ _ e hs
    subst e
    exact hP.setW _ _ _ (hP.cleanW _ _ _ h2 (hP.bumpWeak _ _ _ h1 (hP.setW _ _ _ h0)))
  | weakFromShared other =>
    obtain ⟨x, _, h1⟩ := WeakPtr.ctorShared_some h
    exact hP.bumpWeak _ _ _ h1 (hP.pushW _ _ hs)
  | weakAssignShared this other =>
    obtain ⟨x, y, s0, _, _, hc, h1⟩ := WeakPtr.assignShared_some h
    have h0 : P s0 := by
      rcases hc with ⟨_, e⟩ | ⟨_, e⟩
      · rw [e]
        exact hs
      · exact hP.cleanW _ _ _ e hs
    exact hP.bumpWeak _ _ _ h1 (hP.setW _ _ _ h0)
  | weakReset this =>
    obtain ⟨_, s0, _, h1, e⟩ := WeakPtr.weakReset_some h
    subst e
    exact hP.setW _ _ _ (hP.cleanW _ _ _ h1 hs)
  | weakExpired this =>
    have h' : (WeakPtr.Expired s this).map Prod.snd = some s1 := h
    cases hr : WeakPtr.Expired s this with
    | none =>
      rw [hr] at h'
      cases h'
    | some r =>
      obtain ⟨r1, r2⟩ := r
      rw [hr] at h'
      have e1 : r2 = s1 := Option.some.inj h'
      have e2 := WeakPtr.Expired_some hr
      rw [← e1, e2]
      exact hs
  | weakLock this =>
    obtain ⟨x, _, h1⟩ := SharedPtr.ctorWeak_some h
    exact hP.bumpStrong _ _ _ h1 (hP.pushS _ _ hs)
  | weakDtor this =>
    obtain ⟨s0, h1, e⟩ := WeakPtr.weakDtor_some h
    subst e
    exact hP.dropW _ _ (hP.cleanW _ _ _ h1 hs)

theorem run_stable {P : State → Prop} (hP : Stable P) (ops : List Op) {s s1 : State}
    (h : run s ops = some s1) (hs : P s) : P s1 := by
  induction ops generalizing s with
  | nil =>
    have := Option.some.inj h
    subst this
    exact hs
  | cons op ops ih =>
    unfold run at h
    obtain ⟨s0, h0, h1⟩ := Option.bind_eq_some.1 h
    exact ih h1 (step_stable hP h0 hs)

/-! ## The `delete block` log -/

namespace State

theorem blocks_store_same {s : State} {k : Nat} {c : RefCntBlock} (d : RefCntBlock)
    (h : s.load k = some c) : (s.store k d).blocks[k]? = some ⟨d, true⟩ := by
  have h2 := load_eq_some_iff.1 h
  simp [store, h2]

theorem deletedOk_heap_eq {s s1 : State} (hb : s1.blocks = s.blocks)
    (hd : s1.deletedBlocks = s.deletedBlocks) (h : s.deletedOk) : s1.deletedOk := by
  unfold deletedOk at h ⊢
  rw [hb, hd]
  exact h

theorem deletedOk_store {s : State} {k : Nat} {c : RefCntBlock} (d : RefCntBlock)
    (hl : s.load k = some c) (h : s.deletedOk) : (s.store k d).deletedOk := by
  have h2 := load_eq_some_iff.1 hl
  refine ⟨h.1, ?_⟩
  intro b hb
  have h3 := h.2 b hb
  have hne : k ≠ b := by
    intro e
    subst e
    rw [h2] at h3
    cases h3
  show (s.blocks.modify _ k)[b]? = _
  rw [List.getElem?_modify_ne _ _ hne]
  exact h3

theorem deletedOk_deleteBlock {s : State} {k : Nat}
    (hk : s.blocks[k]? = some ⟨⟨0, 0⟩, true⟩) (h : s.deletedOk) :
    (s.deleteBlock k).deletedOk := by
  have hnot : k ∉ s.deletedBlocks := by
    intro hm
    have h3 := h.2 k hm
    rw [hk] at h3
    cases h3
  refine ⟨List.nodup_cons.2 ⟨hnot, h.1⟩, ?_⟩
  intro b hb
  show (s.blocks.modify _ k)[b]? = _
  by_cases e : k = b
  · subst e
    rw [List.getElem?_modify_eq, hk]
    rfl
  · rw [List.getElem?_modify_ne _ _ e]
    rcases List.mem_cons.1 hb with hb1 | hb1
    · exact absurd hb1.symm e
    · exact h.2 b hb1

theorem deletedOk_init : State.init.deletedOk :=
  ⟨List.nodup_nil, fun b hb => by cases hb⟩

end State

theorem SharedPtr.Clean_deletedOk {s s1 : State} {i : Nat}
    (h : SharedPtr.Clean s i = some s1) (hs : s.deletedOk) : s1.deletedOk := by
  obtain ⟨p, blk, _, hc⟩ := SharedPtr.Clean_some h
  rcases hc with ⟨_, e⟩ | ⟨k, sk, wk, _, hl, e⟩
  · rw [e]
    exact hs
  · have h1 : (s.store k ⟨decr sk, wk⟩).deletedOk := State.deletedOk_store _ hl hs
    have h2 : ((s.store k ⟨decr sk, wk⟩).deletePtr p).deletedOk :=
      State.deletedOk_heap_eq rfl rfl h1
    by_cases hd : decr sk = 0
    · by_cases hw : wk = 0
      · rw [if_pos hd, if_pos hw] at e
        rw [e]
        apply State.deletedOk_deleteBlock _ h2
        show (s.store k ⟨decr sk, wk⟩).blocks[k]? = _
        rw [State.blocks_store_same _ hl, hd, hw]
      · rw [if_pos hd, if_neg hw] at e
        rw [e]
        exact h2
    · rw [if_neg hd] at e
      rw [e]
      exact h1

theorem WeakPtr.weakClean_deletedOk {s s1 : State} {i : Nat}
    (h : WeakPtr.Clean s i = some s1) (hs : s.deletedOk) : s1.deletedOk := by
  obtain ⟨p, blk, _, hc⟩ := WeakPtr.weakClean_some h
  rcases hc with ⟨_, e⟩ | ⟨k, sk, wk, _, hl, e⟩
  · rw [e]
    exact hs
  · have h1 : (s.store k ⟨sk, decr wk⟩).deletedOk := State.deletedOk_store _ hl hs
    by_cases hd : sk = 0 ∧ decr wk = 0
    · rw [if_pos hd] at e
      rw [e]
      apply State.deletedOk_deleteBlock _ h1
      rw [State.blocks_store_same _ hl, hd.1, hd.2]
    · rw [if_neg hd] at e
      rw [e]
      exact h1

theorem deletedOk_stable : Stable State.deletedOk where
  pushS := fun _ _ h => State.deletedOk_heap_eq rfl rfl h
  pushW := fun _ _ h => State.deletedOk_heap_eq rfl rfl h
  setS := fun _ _ _ h => State.deletedOk_heap_eq rfl rfl h
  setW := fun _ _ _ h => State.deletedOk_heap_eq rfl rfl h
  dropS := fun _ _ h => State.deletedOk_heap_eq rfl rfl h
  dropW := fun _ _ h => State.deletedOk_heap_eq rfl rfl h
  bumpStrong := by
    intro s blk s1 h hs
    rcases State.bumpStrong_some h with ⟨_, e⟩ | ⟨k, c, _, hl, e⟩
    · rw [e]
      exact hs
    · rw [e]
      exact State.deletedOk_store _ hl hs
  bumpWeak := by
    intro s blk s1 h hs
    rcases State.bumpWeak_some h with ⟨_, e⟩ | ⟨k, c, _, hl, e⟩
    · rw [e]
      exact hs
    · rw [e]
      exact State.deletedOk_store _ hl hs
  cleanS := fun _ _ _ h hs => SharedPtr.Clean_deletedOk h hs
  cleanW := fun _ _ _ h hs => WeakPtr.weakClean_deletedOk h hs
  raw := by
    intro s p s1 h hs
    rw [SharedPtr.ctorRaw_eq] at h
    have e := Option.some.inj h
    subst e
    refine ⟨hs.1, ?_⟩
    intro b hb
    have h3 := hs.2 b hb
    have hlt : b < s.blocks.length := (List.getElem?_eq_some.1 h3).1
    show (s.blocks ++ _)[b]? = _
    rw [List.getElem?_append_left hlt]
    exact h3

/-! ## Null and non-null fields along a run -/

namespace State

theorem mem_of_getS {s : State} {i : Nat} {x : SharedPtr} (h : s.getS i = some x) :
    some x ∈ s.shared := List.getElem?_mem (getElem?_of_join h)

theorem mem_of_getW {s : State} {i : Nat} {x : WeakPtr} (h : s.getW i = some x) :
    some x ∈ s.weak := List.getElem?_mem (getElem?_of_join h)

theorem fieldsPaired_objs {s s1 : State} (h : s1.shared = s.shared ∧ s1.weak = s.weak)
    (hs : s.fieldsPaired) : s1.fieldsPaired := by
  unfold fieldsPaired at hs ⊢
  rw [h.1, h.2]
  exact hs

theorem fieldsPaired_pushS {s : State} {v : SharedPtr} (hv : v.paired) (hs : s.fieldsPaired) :
    (s.pushS v).fieldsPaired := by
  refine ⟨?_, hs.2⟩
  intro x hx
  rcases List.mem_append.1 hx with h | h
  · exact hs.1 x h
  · have := List.mem_singleton.1 h
    cases this
    exact hv

theorem fieldsPaired_pushW {s : State} {v : WeakPtr} (hv : v.paired) (hs : s.fieldsPaired) :
    (s.pushW v).fieldsPaired := by
  refine ⟨hs.1, ?_⟩
  intro x hx
  rcases List.mem_append.1 hx with h | h
  · exact hs.2 x h
  · have := List.mem_singleton.1 h
    cases this
    exact hv

theorem fieldsPaired_setS {s : State} {v : SharedPtr} (i : Nat) (hv : v.paired)
    (hs : s.fieldsPaired) : (s.setS i v).fieldsPaired := by
  refine ⟨?_, hs.2⟩
  intro x hx
  rcases List.mem_or_eq_of_mem_set hx with h | h
  · exact hs.1 x h
  · cases h
    exact hv

theorem fieldsPaired_setW {s : State} {v : WeakPtr} (i : Nat) (hv : v.paired)
    (hs : s.fieldsPaired) : (s.setW i v).fieldsPaired := by
  refine ⟨hs.1, ?_⟩
  intro x hx
  rcases List.mem_or_eq_of_mem_set hx with h | h
  · exact hs.2 x h
  · cases h
    exact hv

theorem fieldsPaired_dropS {s : State} (i : Nat) (hs : s.fieldsPaired) :
    (s.dropS i).fieldsPaired := by
  refine ⟨?_, hs.2⟩
  intro x hx
  rcases List.mem_or_eq_of_mem_set hx with h | h
  · exact hs.1 x h
  · cases h

theorem fieldsPaired_dropW {s : State} (i : Nat) (hs : s.fieldsPaired) :
    (s.dropW i).fieldsPaired := by
  refine ⟨hs.1, ?_⟩
  intro x hx
  rcases List.mem_or_eq_of_mem_set hx with h | h
  · exact hs.2 x h
  · cases h

end State

theorem SharedPtr.paired_null : (⟨none, none⟩ : SharedPtr).paired := Iff.rfl

theorem WeakPtr.weakPaired_null : (⟨none, none⟩ : WeakPtr).paired := Iff.rfl

theorem cleanS_or_same_objs {s s0 : State} {this : Nat} {P : Prop}
    (hc : (P ∧ s0 = s) ∨ (¬ P ∧ SharedPtr.Clean s this = some s0)) :
    s0.shared = s.shared ∧ s0.weak = s.weak := by
  rcases hc with ⟨_, e⟩ | ⟨_, e⟩
  · rw [e]
    exact ⟨rfl, rfl⟩
  · exact SharedPtr.Clean_shared e

theorem cleanW_or_same_objs {s s0 : State} {this : Nat} {P : Prop}
    (hc : (P ∧ s0 = s) ∨ (¬ P ∧ WeakPtr.Clean s this = some s0)) :
    s0.shared = s.shared ∧ s0.weak = s.weak := by
  rcases hc with ⟨_, e⟩ | ⟨_, e⟩
  · rw [e]
    exact ⟨rfl, rfl⟩
  · exact WeakPtr.weakClean_shared e

theorem step_fieldsPaired {s s1 : State} {op : Op} (hop : op.pairedInput = true)
    (h : step s op = some s1) (hs : s.fieldsPaired) : s1.fieldsPaired := by
  cases op with
  | sharedDefault =>
    have := Option.some.inj h
    subst this
    exact State.fieldsPaired_pushS SharedPtr.paired_null hs
  | sharedRaw p =>
    cases p with
    | none => cases hop
    | some v =>
      have h' : SharedPtr.ctorRaw s (some v) = some s1 := h
      rw [SharedPtr.ctorRaw_eq] at h'
      have e := Option.some.inj h'
      subst e
      have hv : (⟨some v, some s.blocks.length⟩ : SharedPtr).paired :=
        ⟨(fun e => by cases e), (fun e => by cases e)⟩
      exact State.fieldsPaired_objs ⟨rfl, rfl⟩ (State.fieldsPaired_pushS hv hs)
  | sharedCopy other =>
    obtain ⟨x, hx, h1⟩ := SharedPtr.ctorCopy_some h
    have hv : (⟨x.ptr, x.block⟩ : SharedPtr).paired := hs.1 x (State.mem_of_getS hx)
    exact State.fieldsPaired_objs (State.bumpStrong_objs h1) (State.fieldsPaired_pushS hv hs)
  | sharedAssign this other =>
    obtain ⟨x, y, s0, _, hy, hc, h1⟩ := SharedPtr.assign_some h
    have hv : (⟨y.ptr, y.block⟩ : SharedPtr).paired := hs.1 y (State.mem_of_getS hy)
    have h0 := State.fieldsPaired_objs (cleanS_or_same_objs hc) hs
    exact State.fieldsPaired_objs (State.bumpStrong_objs h1) (State.fieldsPaired_setS _ hv h0)
  | sharedMove other =>
    obtain ⟨x, s2, s3, hx, h1, h2, e⟩ := SharedPtr.ctorMove_some h
    subst e
    have hv : (⟨x.ptr, x.block⟩ : SharedPtr).paired := hs.1 x (State.mem_of_getS hx)
    have h3 := State.fieldsPaired_objs (State.bumpStrong_objs h1)
      (State.fieldsPaired_pushS hv hs)
    exact State.fieldsPaired_setS _ SharedPtr.paired_null
      (State.fieldsPaired_objs (SharedPtr.Clean_shared h2) h3)
  | sharedMoveAssign this other =>
    obtain ⟨x, y, s0, s3, s4, _, hy, hc, h1, h2, e⟩ := SharedPtr.moveAssign_some h
    subst e
    have hv : (⟨y.ptr, y.block⟩ : SharedPtr).paired := hs.1 y (State.mem_of_getS hy)
    have h0 := State.fieldsPaired_objs (cleanS_or_same_objs hc) hs
    have h3 := State.fieldsPaired_objs (State.bumpStrong_objs h1)
      (State.fieldsPaired_setS _ hv h0)
    exact State.fieldsPaired_setS _ SharedPtr.paired_null
      (State.fieldsPaired_objs (SharedPtr.Clean_shared h2) h3)
  | sharedFromWeak other =>
    obtain ⟨x, hx, h1⟩ := SharedPtr.ctorWeak_some h
    have hv : (⟨x.ptr, x.block⟩ : SharedPtr).paired := hs.2 x (State.mem_of_getW hx)
    exact State.fieldsPaired_objs (State.bumpStrong_objs h1) (State.fieldsPaired_pushS hv hs)
  | sharedReset this =>
    obtain ⟨_, s0, _, h1, e⟩ := SharedPtr.Reset_some h
    subst e
    exact State.fieldsPaired_setS _ SharedPtr.paired_null
      (State.fieldsPaired_objs (SharedPtr.Clean_shared h1) hs)
  | sharedDtor this =>
    obtain ⟨s0, h1, e⟩ := SharedPtr.dtor_some h
    subst e
    exact State.fieldsPaired_dropS _ (State.fieldsPaired_objs (SharedPtr.Clean_shared h1) hs)
  | weakDefault => cases hop
  | weakCopy other =>
    obtain ⟨x, hx, h1⟩ := WeakPtr.weakCtorCopy_some h
    have hv : (⟨x.ptr, x.block⟩ : WeakPtr).paired := hs.2 x (State.mem_of_getW hx)
    exact State.fieldsPaired_objs (State.bumpWeak_objs h1) (State.fieldsPaired_pushW hv hs)
  | weakAssign this other =>
    obtain ⟨x, y, s0, _, hy, hc, h1⟩ := WeakPtr.weakAssign_some h
    have hv : (⟨y.ptr, y.block⟩ : WeakPtr).paired := hs.2 y (State.mem_of_getW hy)
    have h0 := State.fieldsPaired_objs (cleanW_or_same_objs hc) hs
    exact State.fieldsPaired_objs (State.bumpWeak_objs h1) (State.fieldsPaired_setW _ hv h0)
  | weakMove other =>
    obtain ⟨x, s2, s3, hx, h1, h2, e⟩ := WeakPtr.weakCtorMove_some h
    subst e
    have hv : (⟨x.ptr, x.block⟩ : WeakPtr).paired := hs.2 x (State.mem_of_getW hx)
    have h3 := State.fieldsPaired_objs (State.bumpWeak_objs h1)
      (State.fieldsPaired_pushW hv hs)
    exact State.fieldsPaired_setW _ WeakPtr.weakPaired_null
      (State.fieldsPaired_objs (WeakPtr.weakClean_shared h2) h3)
  | weakMoveAssign this other =>
    obtain ⟨x, y, s0, s3, s4, _, hy, hc, h1, h2, e⟩ := WeakPtr.weakMoveAssign_some h
    subst e
    have hv : (⟨y.ptr, y.block⟩ : WeakPtr).paired := hs.2 y (State.mem_of_getW hy)
    have h0 := State.fieldsPaired_objs (cleanW_or_same_objs hc) hs
    have h3 := State.fieldsPaired_objs (State.bumpWeak_objs h1)
      (State.fieldsPaired_setW _ hv h0)
    exact State.fieldsPaired_setW _ WeakPtr.weakPaired_null
      (State.fieldsPaired_objs (WeakPtr.weakClean_shared h2) h3)
  | weakFromShared other =>
    obtain ⟨x, hx, h1⟩ := WeakPtr.ctorShared_some h
    have hv : (⟨x.ptr, x.block⟩ : WeakPtr).paired := hs.1 x (State.mem_of_getS hx)
    exact State.fieldsPaired_objs (State.bumpWeak_objs h1) (State.fieldsPaired_pushW hv hs)
  | weakAssignShared this other =>
    obtain ⟨x, y, s0, _, hy, hc, h1⟩ := WeakPtr.assignShared_some h
    have hv : (⟨y.ptr, y.block⟩ : WeakPtr).paired := hs.1 y (State.mem_of_getS hy)
    have h0 := State.fieldsPaired_objs (cleanW_or_same_objs hc) hs
    exact State.fieldsPaired_objs (State.bumpWeak_objs h1) (State.fieldsPaired_setW _ hv h0)
  | weakReset this =>
    obtain ⟨_, s0, _, h1, e⟩ := WeakPtr.weakReset_some h
    subst e
    exact State.fieldsPaired_setW _ WeakPtr.weakPaired_null
      (State.fieldsPaired_objs (WeakPtr.weakClean_shared h1) hs)
  | weakExpired this =>
    have h' : (WeakPtr.Expired s this).map Prod.snd = some s1 := h
    cases hr : WeakPtr.Expired s this with
    | none =>
      rw [hr] at h'
      cases h'
    | some r =>
      obtain ⟨r1, r2⟩ := r
      rw [hr] at h'
      have e1 : r2 = s1 := Option.some.inj h'
      have e2 := WeakPtr.Expired_some hr
      rw [← e1, e2]
      exact hs
  | weakLock this =>
    obtain ⟨x, hx, h1⟩ := SharedPtr.ctorWeak_some h
    have hv : (⟨x.ptr, x.block⟩ : SharedPtr).paired := hs.2 x (State.mem_of_getW hx)
    exact State.fieldsPaired_objs (State.bumpStrong_objs h1) (State.fieldsPaired_pushS hv hs)
  | weakDtor this =>
    obtain ⟨s0, h1, e⟩ := WeakPtr.weakDtor_some h
    subst e
    exact State.fieldsPaired_dropW _ (State.fieldsPaired_objs (WeakPtr.weakClean_shared h1) hs)

theorem run_fieldsPaired (ops : List Op) {s s1 : State} (hops : ∀ op ∈ ops, op.pairedInput = true)
    (h : run s ops = some s1) (hs : s.fieldsPaired) : s1.fieldsPaired := by
  induction ops generalizing s with
  | nil =>
    have := Option.some.inj h
    subst this
    exact hs
  | cons op ops ih =>
    unfold run at h
    obtain ⟨s0, h0, h1⟩ := Option.bind_eq_some.1 h
    exact ih (fun o ho => hops o (List.mem_cons_of_mem _ ho)) h1
      (step_fieldsPaired (hops op (List.mem_cons_self _ _)) h0 hs)

/-- C11, as the code has it, for a null value reference: `SharedPtr(T* p)`
with `p` null allocates a control block all the same, so the new owner has a
null value reference and a non-null block reference. -/
theorem raw_null_pointer_gets_block :
    SharedPtr.ctorRaw State.init none
      = some ⟨[⟨⟨1, 0⟩, true⟩], [], [], [some ⟨none, some 0⟩], []⟩ ∧
    ¬ (⟨none, some 0⟩ : SharedPtr).paired := by
  refine ⟨by decide, ?_⟩
  intro h
  have := h.1 rfl
  cases this

/-- C11, amended. In the state after any run from the empty state in which
every `SharedPtr(T* p)` is given a non-null `p` and no observer is default
constructed, every live owner has its value reference and its block reference
both null or both non-null. -/
theorem owner_fields_paired (ops : List Op) (s : State)
    (hops : ∀ op ∈ ops, op.pairedInput = true) (h : run State.init ops = some s) :
    ∀ i x, s.getS i = some x → (x.ptr = none ↔ x.block = none) := by
  have hfp : s.fieldsPaired :=
    run_fieldsPaired ops hops h ⟨(fun x hx => by cases hx), (fun x hx => by cases hx)⟩
  intro i x hx
  exact hfp.1 x (State.mem_of_getS hx)

/-- C11, amended, at a concrete run: an owner of `v`, an observer of it, the
owner returned by `Lock`, a move and a `Reset`. -/
theorem owner_fields_paired_witness :
    (∀ op ∈ [Op.sharedRaw (some 7), .weakFromShared 0, .weakLock 0, .sharedMove 0,
        .sharedReset 1], op.pairedInput = true) ∧
    run State.init [.sharedRaw (some 7), .weakFromShared 0, .weakLock 0, .sharedMove 0,
        .sharedReset 1]
      = some ⟨[⟨⟨1, 1⟩, true⟩], [], [],
          [some ⟨none, none⟩, some ⟨none, none⟩, some ⟨some 7, some 0⟩],
          [some ⟨some 7, some 0⟩]⟩ ∧
    ∀ i x, (⟨[⟨⟨1, 1⟩, true⟩], [], [],
          [some ⟨none, none⟩, some ⟨none, none⟩, some ⟨some 7, some 0⟩],
          [some ⟨some 7, some 0⟩]⟩ : State).getS i = some x →
      (x.ptr = none ↔ x.block = none) :=
  ⟨by decide, by decide,
    owner_fields_paired [.sharedRaw (some 7), .weakFromShared 0, .weakLock 0, .sharedMove 0,
        .sharedReset 1] _ (by decide) (by decide)⟩

/-! ## Counters and elementary steps -/

theorem ind_self (k : Nat) : ind (some k) k = 1 := by
  simp [ind]

theorem ind_none (b : Nat) : ind none b = 0 := by
  simp [ind]

theorem ind_ne {k b : Nat} (h : k ≠ b) : ind (some k) b = 0 := by
  simp [ind, h]

theorem ind_le_one (p : Ptr) (b : Nat) : ind p b ≤ 1 := by
  unfold ind
  split_ifs <;> omega

namespace State

theorem strongOf_of_load {s : State} {b : Nat} {c : RefCntBlock} (h : s.load b = some c) :
    s.strongOf b = c.strong := by
  unfold strongOf
  rw [h]

theorem weakOf_of_load {s : State} {b : Nat} {c : RefCntBlock} (h : s.load b = some c) :
    s.weakOf b = c.weak := by
  unfold weakOf
  rw [h]

theorem strongOf_of_none {s : State} {b : Nat} (h : s.load b = none) : s.strongOf b = 0 := by
  unfold strongOf
  rw [h]

theorem weakOf_of_none {s : State} {b : Nat} (h : s.load b = none) : s.weakOf b = 0 := by
  unfold weakOf
  rw [h]

theorem counts_of_load_eq {s s1 : State} {b : Nat} (h : s1.load b = s.load b) :
    s1.strongOf b = s.strongOf b ∧ s1.weakOf b = s.weakOf b := by
  unfold strongOf weakOf
  rw [h]
  exact ⟨rfl, rfl⟩

theorem load_of_strongOf_pos {s : State} {b : Nat} (h : 1 ≤ s.strongOf b) :
    ∃ c, s.load b = some c := by
  cases hl : s.load b with
  | none =>
    rw [strongOf_of_none hl] at h
    omega
  | some c => exact ⟨c, rfl⟩

theorem load_of_weakOf_pos {s : State} {b : Nat} (h : 1 ≤ s.weakOf b) :
    ∃ c, s.load b = some c := by
  cases hl : s.load b with
  | none =>
    rw [weakOf_of_none hl] at h
    omega
  | some c => exact ⟨c, rfl⟩

theorem sharedRefs_le (s : State) (b : Nat) : s.sharedRefs b ≤ s.shared.length :=
  List.countP_le_length _

theorem weakRefs_le (s : State) (b : Nat) : s.weakRefs b ≤ s.weak.length :=
  List.countP_le_length _

theorem sharedRefs_pos {s : State} {i : Nat} {x : SharedPtr} {k : Nat}
    (h : s.getS i = some x) (hk : x.block = some k) : 1 ≤ s.sharedRefs k := by
  unfold sharedRefs
  apply List.countP_pos_iff.2
  exact ⟨some x, mem_of_getS h, by simp [hk]⟩

theorem weakRefs_pos {s : State} {i : Nat} {x : WeakPtr} {k : Nat}
    (h : s.getW i = some x) (hk : x.block = some k) : 1 ≤ s.weakRefs k := by
  unfold weakRefs
  apply List.countP_pos_iff.2
  exact ⟨some x, mem_of_getW h, by simp [hk]⟩

theorem sharedRefs_objs {s s1 : State} (h : s1.shared = s.shared) (b : Nat) :
    s1.sharedRefs b = s.sharedRefs b := by
  unfold sharedRefs
  rw [h]

theorem weakRefs_objs {s s1 : State} (h : s1.weak = s.weak) (b : Nat) :
    s1.weakRefs b = s.weakRefs b := by
  unfold weakRefs
  rw [h]

theorem getS_objs {s s1 : State} (h : s1.shared = s.shared) (i : Nat) :
    s1.getS i = s.getS i := by
  unfold getS
  rw [h]

theorem getW_objs {s s1 : State} (h : s1.weak = s.weak) (i : Nat) :
    s1.getW i = s.getW i := by
  unfold getW
  rw [h]

theorem counts_store_strong {s : State} {k : Nat} {c : RefCntBlock}
    (hl : s.load k = some c) (hlt : c.strong + 1 < SIZE_MOD) (b : Nat) :
    (s.store k ⟨incr c.strong, c.weak⟩).strongOf b = s.strongOf b + ind (some k) b ∧
    (s.store k ⟨incr c.strong, c.weak⟩).weakOf b = s.weakOf b := by
  by_cases hb : k = b
  · subst hb
    have h1 := load_store_same ⟨incr c.strong, c.weak⟩ hl
    rw [strongOf_of_load h1, weakOf_of_load h1, strongOf_of_load hl, weakOf_of_load hl,
      ind_self, incr_of_lt hlt]
    exact ⟨rfl, rfl⟩
  · have h1 := counts_of_load_eq (load_store_ne s ⟨incr c.strong, c.weak⟩ hb)
    rw [ind_ne hb]
    exact ⟨h1.1, h1.2⟩

theorem counts_store_weak {s : State} {k : Nat} {c : RefCntBlock}
    (hl : s.load k = some c) (hlt : c.weak + 1 < SIZE_MOD) (b : Nat) :
    (s.store k ⟨c.strong, incr c.weak⟩).strongOf b = s.strongOf b ∧
    (s.store k ⟨c.strong, incr c.weak⟩).weakOf b = s.weakOf b + ind (some k) b := by
  by_cases hb : k = b
  · subst hb
    have h1 := load_store_same ⟨c.strong, incr c.weak⟩ hl
    rw [strongOf_of_load h1, weakOf_of_load h1, strongOf_of_load hl, weakOf_of_load hl,
      ind_self, incr_of_lt hlt]
    exact ⟨rfl, rfl⟩
  · have h1 := counts_of_load_eq (load_store_ne s ⟨c.strong, incr c.weak⟩ hb)
    rw [ind_ne hb]
    exact ⟨h1.1, h1.2⟩

theorem bumpStrong_counts {s s1 : State} {blk : Ptr} (h : s.bumpStrong blk = some s1)
    (hpre : ∀ k, blk = some k → s.strongOf k + 1 < SIZE_MOD) (b : Nat) :
    s1.strongOf b = s.strongOf b + ind blk b ∧ s1.weakOf b = s.weakOf b := by
  rcases bumpStrong_some h with ⟨e1, e2⟩ | ⟨k, c, e1, hl, e2⟩
  · subst e1 e2
    rw [ind_none]
    exact ⟨rfl, rfl⟩
  · subst e1 e2
    have := hpre k rfl
    rw [strongOf_of_load hl] at this
    exact counts_store_strong hl this b

theorem bumpWeak_counts {s s1 : State} {blk : Ptr} (h : s.bumpWeak blk = some s1)
    (hpre : ∀ k, blk = some k → s.weakOf k + 1 < SIZE_MOD) (b : Nat) :
    s1.strongOf b = s.strongOf b ∧ s1.weakOf b = s.weakOf b + ind blk b := by
  rcases bumpWeak_some h with ⟨e1, e2⟩ | ⟨k, c, e1, hl, e2⟩
  · subst e1 e2
    rw [ind_none]
    exact ⟨rfl, rfl⟩
  · subst e1 e2
    have := hpre k rfl
    rw [weakOf_of_load hl] at this
    exact counts_store_weak hl this b

end State

theorem SharedPtr.Clean_counts {s s1 : State} {this : Nat} {x : SharedPtr}
    (h : SharedPtr.Clean s this = some s1) (hx : s.getS this = some x)
    (hpre : ∀ k, x.block = some k → 1 ≤ s.strongOf k ∧ s.strongOf k < SIZE_MOD) (b : Nat) :
    s1.strongOf b + ind x.block b = s.strongOf b ∧ s1.weakOf b = s.weakOf b := by
  obtain ⟨p, blk⟩ := x
  cases blk with
  | none =>
    rw [SharedPtr.Clean_null hx] at h
    have e := Option.some.inj h
    subst e
    rw [ind_none]
    exact ⟨rfl, rfl⟩
  | some k =>
    obtain ⟨h1, h2⟩ := hpre k rfl
    obtain ⟨c, hl⟩ := State.load_of_strongOf_pos h1
    obtain ⟨sk, wk⟩ := c
    rw [State.strongOf_of_load hl] at h1 h2
    obtain ⟨s2, h3, _, _, _, hld, hne, _, _⟩ := SharedPtr.Clean_effects hx hl h1 h2
    have e : s2 = s1 := Option.some.inj (h3.symm.trans h)
    subst e
    by_cases hb : k = b
    · subst hb
      simp only at h1 h2
      rw [ind_self, State.strongOf_of_load hl, State.weakOf_of_load hl]
      by_cases hd : sk = 1 ∧ wk = 0
      · rw [if_pos hd] at hld
        rw [State.strongOf_of_none hld, State.weakOf_of_none hld]
        constructor
        · show 0 + 1 = sk
          omega
        · show 0 = wk
          omega
      · rw [if_neg hd] at hld
        rw [State.strongOf_of_load hld, State.weakOf_of_load hld]
        constructor
        · show sk - 1 + 1 = sk
          omega
        · rfl
    · have := State.counts_of_load_eq (hne b (Ne.symm hb))
      rw [ind_ne hb]
      exact ⟨this.1, this.2⟩

theorem WeakPtr.weakClean_counts {s s1 : State} {this : Nat} {x : WeakPtr}
    (h : WeakPtr.Clean s this = some s1) (hx : s.getW this = some x)
    (hpre : ∀ k, x.block = some k → 1 ≤ s.weakOf k ∧ s.weakOf k < SIZE_MOD) (b : Nat) :
    s1.strongOf b = s.strongOf b ∧ s1.weakOf b + ind x.block b = s.weakOf b := by
  obtain ⟨p, blk⟩ := x
  cases blk with
  | none =>
    rw [WeakPtr.weakClean_null hx] at h
    have e := Option.some.inj h
    subst e
    rw [ind_none]
    exact ⟨rfl, rfl⟩
  | some k =>
    obtain ⟨h1, h2⟩ := hpre k rfl
    obtain ⟨c, hl⟩ := State.load_of_weakOf_pos h1
    obtain ⟨sk, wk⟩ := c
    rw [State.weakOf_of_load hl] at h1 h2
    obtain ⟨s2, h3, _, _, _, hld, hne, _, _⟩ := WeakPtr.weakClean_effects hx hl h1 h2
    have e : s2 = s1 := Option.some.inj (h3.symm.trans h)
    subst e
    by_cases hb : k = b
    · subst hb
      simp only at h1 h2
      rw [ind_self, State.strongOf_of_load hl, State.weakOf_of_load hl]
      by_cases hd : sk = 0 ∧ wk = 1
      · rw [if_pos hd] at hld
        rw [State.strongOf_of_none hld, State.weakOf_of_none hld]
        constructor
        · show 0 = sk
          omega
        · show 0 + 1 = wk
          omega
      · rw [if_neg hd] at hld
        rw [State.strongOf_of_load hld, State.weakOf_of_load hld]
        constructor
        · rfl
        · show wk - 1 + 1 = wk
          omega
    · have := State.counts_of_load_eq (hne b (Ne.symm hb))
      rw [ind_ne hb]
      exact ⟨this.1, this.2⟩

/-! ## The counting invariant, operation by operation -/

namespace State

theorem sharedRefs_pushS_ind (s : State) (v : SharedPtr) (b : Nat) :
    (s.pushS v).sharedRefs b = s.sharedRefs b + ind v.block b :=
  sharedRefs_pushS s v b

theorem weakRefs_pushW_ind (s : State) (v : WeakPtr) (b : Nat) :
    (s.pushW v).weakRefs b = s.weakRefs b + ind v.block b :=
  weakRefs_pushW s v b

theorem sharedRefs_setS_ind {s : State} {i : Nat} {x : SharedPtr} (v : SharedPtr)
    (h : s.getS i = some x) (b : Nat) :
    (s.setS i v).sharedRefs b + ind x.block b = s.sharedRefs b + ind v.block b :=
  sharedRefs_setS v h b

theorem weakRefs_setW_ind {s : State} {i : Nat} {x : WeakPtr} (v : WeakPtr)
    (h : s.getW i = some x) (b : Nat) :
    (s.setW i v).weakRefs b + ind x.block b = s.weakRefs b + ind v.block b :=
  weakRefs_setW v h b

theorem sharedRefs_dropS_ind {s : State} {i : Nat} {x : SharedPtr}
    (h : s.getS i = some x) (b : Nat) :
    (s.dropS i).sharedRefs b + ind x.block b = s.sharedRefs b :=
  sharedRefs_dropS h b

theorem weakRefs_dropW_ind {s : State} {i : Nat} {x : WeakPtr}
    (h : s.getW i = some x) (b : Nat) :
    (s.dropW i).weakRefs b + ind x.block b = s.weakRefs b :=
  weakRefs_dropW h b

end State

theorem pushS_bump_countsExact {s s1 : State} {v : SharedPtr} (hinv : s.countsExact)
    (h1 : (s.pushS v).bumpStrong v.block = some s1) (hS : s1.shared.length < SIZE_MOD) :
    s1.countsExact := by
  have hobj := State.bumpStrong_objs h1
  have hpre : ∀ k, v.block = some k → (s.pushS v).strongOf k + 1 < SIZE_MOD := by
    intro k hk
    have h2 := State.sharedRefs_pushS_ind s v k
    rw [hk, ind_self] at h2
    have h3 := State.sharedRefs_le (s.pushS v) k
    have h4 : (s.pushS v).shared.length = s1.shared.length := by rw [hobj.1]
    have h5 := (hinv k).1
    show s.strongOf k + 1 < SIZE_MOD
    omega
  intro b
  obtain ⟨c1, c2⟩ := State.bumpStrong_counts h1 hpre b
  have c3 : (s.pushS v).strongOf b = s.strongOf b := rfl
  have c4 : (s.pushS v).weakOf b = s.weakOf b := rfl
  have c5 := State.sharedRefs_pushS_ind s v b
  have c6 := State.sharedRefs_objs hobj.1 b
  have c7 : s1.weakRefs b = s.weakRefs b := State.weakRefs_objs hobj.2 b
  obtain ⟨i1, i2⟩ := hinv b
  constructor <;> omega

theorem pushW_bump_countsExact {s s1 : State} {v : WeakPtr} (hinv : s.countsExact)
    (h1 : (s.pushW v).bumpWeak v.block = some s1) (hW : s1.weak.length < SIZE_MOD) :
    s1.countsExact := by
  have hobj := State.bumpWeak_objs h1
  have hpre : ∀ k, v.block = some k → (s.pushW v).weakOf k + 1 < SIZE_MOD := by
    intro k hk
    have h2 := State.weakRefs_pushW_ind s v k
    rw [hk, ind_self] at h2
    have h3 := State.weakRefs_le (s.pushW v) k
    have h4 : (s.pushW v).weak.length = s1.weak.length := by rw [hobj.2]
    have h5 := (hinv k).2
    show s.weakOf k + 1 < SIZE_MOD
    omega
  intro b
  obtain ⟨c1, c2⟩ := State.bumpWeak_counts h1 hpre b
  have c3 : (s.pushW v).strongOf b = s.strongOf b := rfl
  have c4 : (s.pushW v).weakOf b = s.weakOf b := rfl
  have c5 := State.weakRefs_pushW_ind s v b
  have c6 := State.weakRefs_objs hobj.2 b
  have c7 : s1.sharedRefs b = s.sharedRefs b := State.sharedRefs_objs hobj.1 b
  obtain ⟨i1, i2⟩ := hinv b
  constructor <;> omega

theorem cleanS_pre {s : State} {this : Nat} {x : SharedPtr} (hinv : s.countsExact)
    (hx : s.getS this = some x) (hS : s.shared.length < SIZE_MOD) :
    ∀ k, x.block = some k → 1 ≤ s.strongOf k ∧ s.strongOf k < SIZE_MOD := by
  intro k hk
  have h1 := State.sharedRefs_pos hx hk
  have h2 := State.sharedRefs_le s k
  have h3 := (hinv k).1
  omega

theorem cleanW_pre {s : State} {this : Nat} {x : WeakPtr} (hinv : s.countsExact)
    (hx : s.getW this = some x) (hW : s.weak.length < SIZE_MOD) :
    ∀ k, x.block = some k → 1 ≤ s.weakOf k ∧ s.weakOf k < SIZE_MOD := by
  intro k hk
  have h1 := State.weakRefs_pos hx hk
  have h2 := State.weakRefs_le s k
  have h3 := (hinv k).2
  omega

theorem resetS_countsExact {s s0 : State} {this : Nat} {x : SharedPtr} (hinv : s.countsExact)
    (hx : s.getS this = some x) (h : SharedPtr.Clean s this = some s0)
    (hS : s.shared.length < SIZE_MOD) : (s0.setS this ⟨none, none⟩).countsExact := by
  have hobj := SharedPtr.Clean_shared h
  have hx0 : s0.getS this = some x := (State.getS_objs hobj.1 this).trans hx
  intro b
  obtain ⟨c1, c2⟩ := SharedPtr.Clean_counts h hx (cleanS_pre hinv hx hS) b
  have c3 := State.sharedRefs_setS_ind ⟨none, none⟩ hx0 b
  rw [ind_none] at c3
  have c4 := State.sharedRefs_objs hobj.1 b
  have c5 : (s0.setS this ⟨none, none⟩).weakRefs b = s.weakRefs b :=
    State.weakRefs_objs hobj.2 b
  have c6 : (s0.setS this ⟨none, none⟩).strongOf b = s0.strongOf b := rfl
  have c7 : (s0.setS this ⟨none, none⟩).weakOf b = s0.weakOf b := rfl
  obtain ⟨i1, i2⟩ := hinv b
  constructor <;> omega

theorem resetW_countsExact {s s0 : State} {this : Nat} {x : WeakPtr} (hinv : s.countsExact)
    (hx : s.getW this = some x) (h : WeakPtr.Clean s this = some s0)
    (hW : s.weak.length < SIZE_MOD) : (s0.setW this ⟨none, none⟩).countsExact := by
  have hobj := WeakPtr.weakClean_shared h
  have hx0 : s0.getW this = some x := (State.getW_objs hobj.2 this).trans hx
  intro b
  obtain ⟨c1, c2⟩ := WeakPtr.weakClean_counts h hx (cleanW_pre hinv hx hW) b
  have c3 := State.weakRefs_setW_ind ⟨none, none⟩ hx0 b
  rw [ind_none] at c3
  have c4 := State.weakRefs_objs hobj.2 b
  have c5 : (s0.setW this ⟨none, none⟩).sharedRefs b = s.sharedRefs b :=
    State.sharedRefs_objs hobj.1 b
  have c6 : (s0.setW this ⟨none, none⟩).strongOf b = s0.strongOf b := rfl
  have c7 : (s0.setW this ⟨none, none⟩).weakOf b = s0.weakOf b := rfl
  obtain ⟨i1, i2⟩ := hinv b
  constructor <;> omega

theorem dtorS_countsExact {s s0 : State} {this : Nat} {x : SharedPtr} (hinv : s.countsExact)
    (hx : s.getS this = some x) (h : SharedPtr.Clean s this = some s0)
    (hS : s.shared.length < SIZE_MOD) : (s0.dropS this).countsExact := by
  have hobj := SharedPtr.Clean_shared h
  have hx0 : s0.getS this = some x := (State.getS_objs hobj.1 this).trans hx
  intro b
  obtain ⟨c1, c2⟩ := SharedPtr.Clean_counts h hx (cleanS_pre hinv hx hS) b
  have c3 := State.sharedRefs_dropS_ind hx0 b
  have c4 := State.sharedRefs_objs hobj.1 b
  have c5 : (s0.dropS this).weakRefs b = s.weakRefs b := State.weakRefs_objs hobj.2 b
  have c6 : (s0.dropS this).strongOf b = s0.strongOf b := rfl
  have c7 : (s0.dropS this).weakOf b = s0.weakOf b := rfl
  obtain ⟨i1, i2⟩ := hinv b
  constructor <;> omega

theorem dtorW_countsExact {s s0 : State} {this : Nat} {x : WeakPtr} (hinv : s.countsExact)
    (hx : s.getW this = some x) (h : WeakPtr.Clean s this = some s0)
    (hW : s.weak.length < SIZE_MOD) : (s0.dropW this).countsExact := by
  have hobj := WeakPtr.weakClean_shared h
  have hx0 : s0.getW this = some x := (State.getW_objs hobj.2 this).trans hx
  intro b
  obtain ⟨c1, c2⟩ := WeakPtr.weakClean_counts h hx (cleanW_pre hinv hx hW) b
  have c3 := State.weakRefs_dropW_ind hx0 b
  have c4 := State.weakRefs_objs hobj.2 b
  have c5 : (s0.dropW this).sharedRefs b = s.sharedRefs b := State.sharedRefs_objs hobj.1 b
  have c6 : (s0.dropW this).strongOf b = s0.strongOf b := rfl
  have c7 : (s0.dropW this).weakOf b = s0.weakOf b := rfl
  obtain ⟨i1, i2⟩ := hinv b
  constructor <;> omega

theorem ind_of_ne {p : Ptr} {b : Nat} (h : p ≠ some b) : ind p b = 0 := by
  simp [ind, h]

theorem sameNonNull_self {x : Ptr} (h : sameNonNull x x = false) : x = none := by
  cases x with
  | none => rfl
  | some k => simp [sameNonNull] at h

theorem assignS_countsExact {s s0 s1 : State} {this : Nat} {x : SharedPtr} {yp yb : Ptr}
    (hinv : s.countsExact) (hx : s.getS this = some x)
    (hc : (x.block = yb ∧ s0 = s) ∨ (x.block ≠ yb ∧ SharedPtr.Clean s this = some s0))
    (hallow : sameNonNull x.block yb = false)
    (h1 : (s0.setS this ⟨yp, yb⟩).bumpStrong yb = some s1)
    (hS : s.shared.length < SIZE_MOD) : s1.countsExact := by
  have hobj1 := State.bumpStrong_objs h1
  rcases hc with ⟨e1, e2⟩ | ⟨hne, hcl⟩
  · subst e2
    rw [← e1] at hallow
    have hnone := sameNonNull_self hallow
    rw [hnone] at e1
    subst e1
    have e3 : s1 = s0.setS this ⟨yp, none⟩ := (Option.some.inj h1).symm
    subst e3
    intro b
    have c3 := State.sharedRefs_setS_ind ⟨yp, none⟩ hx b
    rw [hnone] at c3
    have c5 : (s0.setS this ⟨yp, none⟩).weakRefs b = s0.weakRefs b := rfl
    have c6 : (s0.setS this ⟨yp, none⟩).strongOf b = s0.strongOf b := rfl
    have c7 : (s0.setS this ⟨yp, none⟩).weakOf b = s0.weakOf b := rfl
    obtain ⟨i1, i2⟩ := hinv b
    simp only at c3
    constructor <;> omega
  · have hobj := SharedPtr.Clean_shared hcl
    have hx0 : s0.getS this = some x := (State.getS_objs hobj.1 this).trans hx
    have hcnt := SharedPtr.Clean_counts hcl hx (cleanS_pre hinv hx hS)
    have hlen : (s0.setS this ⟨yp, yb⟩).shared.length = s.shared.length := by
      show (s0.shared.set _ _).length = _
      rw [List.length_set, hobj.1]
    have hpre : ∀ k, yb = some k → (s0.setS this ⟨yp, yb⟩).strongOf k + 1 < SIZE_MOD := by
      intro k hk
      have a1 := (hcnt k).1
      have a2 : ind x.block k = 0 := ind_of_ne (by rw [← hk]; exact hne)
      have a3 := State.sharedRefs_setS_ind ⟨yp, yb⟩ hx0 k
      have a4 : ind yb k = 1 := by rw [hk]; exact ind_self k
      simp only at a3
      have a5 := State.sharedRefs_objs hobj.1 k
      have a6 := State.sharedRefs_le (s0.setS this ⟨yp, yb⟩) k
      have a7 := (hinv k).1
      show s0.strongOf k + 1 < SIZE_MOD
      omega
    intro b
    obtain ⟨c1, c2⟩ := hcnt b
    obtain ⟨d1, d2⟩ := State.bumpStrong_counts h1 hpre b
    have c3 := State.sharedRefs_setS_ind ⟨yp, yb⟩ hx0 b
    simp only at c3
    have c4 := State.sharedRefs_objs hobj.1 b
    have c5 := State.sharedRefs_objs hobj1.1 b
    have c6 : s1.weakRefs b = s.weakRefs b :=
      (State.weakRefs_objs hobj1.2 b).trans (State.weakRefs_objs hobj.2 b)
    have c7 : (s0.setS this ⟨yp, yb⟩).strongOf b = s0.strongOf b := rfl
    have c8 : (s0.setS this ⟨yp, yb⟩).weakOf b = s0.weakOf b := rfl
    obtain ⟨i1, i2⟩ := hinv b
    constructor <;> omega

theorem assignW_countsExact {s s0 s1 : State} {this : Nat} {x : WeakPtr} {yp yb : Ptr}
    (hinv : s.countsExact) (hx : s.getW this = some x)
    (hc : (x.block = yb ∧ s0 = s) ∨ (x.block ≠ yb ∧ WeakPtr.Clean s this = some s0))
    (hallow : sameNonNull x.block yb = false)
    (h1 : (s0.setW this ⟨yp, yb⟩).bumpWeak yb = some s1)
    (hW : s.weak.length < SIZE_MOD) : s1.countsExact := by
  have hobj1 := State.bumpWeak_objs h1
  rcases hc with ⟨e1, e2⟩ | ⟨hne, hcl⟩
  · subst e2
    rw [← e1] at hallow
    have hnone := sameNonNull_self hallow
    rw [hnone] at e1
    subst e1
    have e3 : s1 = s0.setW this ⟨yp, none⟩ := (Option.some.inj h1).symm
    subst e3
    intro b
    have c3 := State.weakRefs_setW_ind ⟨yp, none⟩ hx b
    rw [hnone] at c3
    have c5 : (s0.setW this ⟨yp, none⟩).sharedRefs b = s0.sharedRefs b := rfl
    have c6 : (s0.setW this ⟨yp, none⟩).strongOf b = s0.strongOf b := rfl
    have c7 : (s0.setW this ⟨yp, none⟩).weakOf b = s0.weakOf b := rfl
    obtain ⟨i1, i2⟩ := hinv b
    simp only at c3
    constructor <;> omega
  · have hobj := WeakPtr.weakClean_shared hcl
    have hx0 : s0.getW this = some x := (State.getW_objs hobj.2 this).trans hx
    have hcnt := WeakPtr.weakClean_counts hcl hx (cleanW_pre hinv hx hW)
    have hlen : (s0.setW this ⟨yp, yb⟩).weak.length = s.weak.length := by
      show (s0.weak.set _ _).length = _
      rw [List.length_set, hobj.2]
    have hpre : ∀ k, yb = some k → (s0.setW this ⟨yp, yb⟩).weakOf k + 1 < SIZE_MOD := by
      intro k hk
      have a1 := (hcnt k).2
      have a2 : ind x.block k = 0 := ind_of_ne (by rw [← hk]; exact hne)
      have a3 := State.weakRefs_setW_ind ⟨yp, yb⟩ hx0 k
      have a4 : ind yb k = 1 := by rw [hk]; exact ind_self k
      simp only at a3
      have a5 := State.weakRefs_objs hobj.2 k
      have a6 := State.weakRefs_le (s0.setW this ⟨yp, yb⟩) k
      have a7 := (hinv k).2
      show s0.weakOf k + 1 < SIZE_MOD
      omega
    intro b
    obtain ⟨c1, c2⟩ := hcnt b
    obtain ⟨d1, d2⟩ := State.bumpWeak_counts h1 hpre b
    have c3 := State.weakRefs_setW_ind ⟨yp, yb⟩ hx0 b
    simp only at c3
    have c4 := State.weakRefs_objs hobj.2 b
    have c5 := State.weakRefs_objs hobj1.2 b
    have c6 : s1.sharedRefs b = s.sharedRefs b :=
      (State.sharedRefs_objs hobj1.1 b).trans (State.sharedRefs_objs hobj.1 b)
    have c7 : (s0.setW this ⟨yp, yb⟩).strongOf b = s0.strongOf b := rfl
    have c8 : (s0.setW this ⟨yp, yb⟩).weakOf b = s0.weakOf b := rfl
    obtain ⟨i1, i2⟩ := hinv b
    constructor <;> omega

theorem SharedPtr.ctorRaw_facts {s s1 : State} {p : Ptr}
    (h : SharedPtr.ctorRaw s p = some s1) :
    s.load s.blocks.length = none ∧
    s1.load s.blocks.length = some ⟨1, 0⟩ ∧
    (∀ b, b ≠ s.blocks.length → s1.load b = s.load b) ∧
    s1.shared = (s.pushS ⟨p, some s.blocks.length⟩).shared ∧ s1.weak = s.weak := by
  rw [SharedPtr.ctorRaw_eq] at h
  have e := Option.some.inj h
  subst e
  refine ⟨?_, ?_, ?_, rfl, rfl⟩
  · simp [State.load]
  · simp [State.load]
  · intro b hb
    rcases Nat.lt_or_gt_of_ne hb with h1 | h1
    · simp [State.load, List.getElem?_append_left h1]
    · have h2 : s.blocks[b]? = none := List.getElem?_eq_none (by omega)
      have h3 : (s.blocks ++ [(⟨⟨1, 0⟩, true⟩ : Cell)])[b]? = none :=
        List.getElem?_eq_none (by simp; omega)
      simp [State.load, h2, h3]

theorem ctorRaw_countsExact {s s1 : State} {p : Ptr} (hinv : s.countsExact)
    (h : SharedPtr.ctorRaw s p = some s1) : s1.countsExact := by
  obtain ⟨hn, hl, hne, hsh, hwk⟩ := SharedPtr.ctorRaw_facts h
  intro b
  have c1 := State.sharedRefs_pushS_ind s ⟨p, some s.blocks.length⟩ b
  simp only at c1
  have c2 := State.sharedRefs_objs hsh b
  have c3 := State.weakRefs_objs hwk b
  obtain ⟨i1, i2⟩ := hinv b
  by_cases hb : s.blocks.length = b
  · subst hb
    rw [State.strongOf_of_none hn] at i1
    rw [State.weakOf_of_none hn] at i2
    rw [ind_self] at c1
    rw [State.strongOf_of_load hl, State.weakOf_of_load hl]
    constructor
    · show 1 = _
      omega
    · show 0 = _
      omega
  · rw [ind_ne hb] at c1
    obtain ⟨d1, d2⟩ := State.counts_of_load_eq (hne b (Ne.symm hb))
    constructor <;> omega

/-! ## The number of objects never decreases -/

theorem lengths_stable (n m : Nat) :
    Stable (fun st => n ≤ st.shared.length ∧ m ≤ st.weak.length) where
  pushS := by
    intro s v h
    refine ⟨?_, h.2⟩
    show n ≤ (s.shared ++ [some v]).length
    rw [List.length_append]
    exact Nat.le_trans h.1 (Nat.le_add_right _ _)
  pushW := by
    intro s v h
    refine ⟨h.1, ?_⟩
    show m ≤ (s.weak ++ [some v]).length
    rw [List.length_append]
    exact Nat.le_trans h.2 (Nat.le_add_right _ _)
  setS := by
    intro s i v h
    refine ⟨?_, h.2⟩
    show n ≤ (s.shared.set i (some v)).length
    rw [List.length_set]
    exact h.1
  setW := by
    intro s i v h
    refine ⟨h.1, ?_⟩
    show m ≤ (s.weak.set i (some v)).length
    rw [List.length_set]
    exact h.2
  dropS := by
    intro s i h
    refine ⟨?_, h.2⟩
    show n ≤ (s.shared.set i none).length
    rw [List.length_set]
    exact h.1
  dropW := by
    intro s i h
    refine ⟨h.1, ?_⟩
    show m ≤ (s.weak.set i none).length
    rw [List.length_set]
    exact h.2
  bumpStrong := by
    intro s blk s1 h hs
    obtain ⟨e1, e2⟩ := State.bumpStrong_objs h
    simp only [e1, e2]
    exact hs
  bumpWeak := by
    intro s blk s1 h hs
    obtain ⟨e1, e2⟩ := State.bumpWeak_objs h
    simp only [e1, e2]
    exact hs
  cleanS := by
    intro s i s1 h hs
    obtain ⟨e1, e2⟩ := SharedPtr.Clean_shared h
    simp only [e1, e2]
    exact hs
  cleanW := by
    intro s i s1 h hs
    obtain ⟨e1, e2⟩ := WeakPtr.weakClean_shared h
    simp only [e1, e2]
    exact hs
  raw := by
    intro s p s1 h hs
    obtain ⟨_, _, _, e1, e2⟩ := SharedPtr.ctorRaw_facts h
    simp only [e1, e2]
    refine ⟨?_, hs.2⟩
    show n ≤ (s.shared ++ [_]).length
    rw [List.length_append]
    exact Nat.le_trans hs.1 (Nat.le_add_right _ _)

theorem step_lengths {s s1 : State} {op : Op} (h : step s op = some s1) :
    s.shared.length ≤ s1.shared.length ∧ s.weak.length ≤ s1.weak.length :=
  step_stable (lengths_stable s.shared.length s.weak.length) h ⟨Nat.le_refl _, Nat.le_refl _⟩

theorem run_lengths (ops : List Op) {s s1 : State} (h : run s ops = some s1) :
    s.shared.length ≤ s1.shared.length ∧ s.weak.length ≤ s1.weak.length :=
  run_stable (lengths_stable s.shared.length s.weak.length) ops h
    ⟨Nat.le_refl _, Nat.le_refl _⟩

/-! ## The counting invariant along a run -/

theorem allowed_sameNonNull {b : Bool} (h : (!b) = true) : b = false := by
  cases b with
  | false => rfl
  | true => cases h

theorem step_countsExact {s s1 : State} {op : Op} (hinv : s.countsExact)
    (hop : op.allowed s = true) (h : step s op = some s1)
    (hS : s1.shared.length < SIZE_MOD) (hW : s1.weak.length < SIZE_MOD) :
    s1.countsExact := by
  obtain ⟨hl1, hl2⟩ := step_lengths h
  have hS0 : s.shared.length < SIZE_MOD := Nat.lt_of_le_of_lt hl1 hS
  have hW0 : s.weak.length < SIZE_MOD := Nat.lt_of_le_of_lt hl2 hW
  cases op with
  | sharedDefault =>
    have h1 : (s.pushS ⟨none, none⟩).bumpStrong none = some s1 := h
    exact pushS_bump_countsExact hinv h1 hS
  | sharedRaw p => exact ctorRaw_countsExact hinv h
  | sharedCopy other =>
    obtain ⟨x, _, h1⟩ := SharedPtr.ctorCopy_some h
    exact @pushS_bump_countsExact s s1 ⟨x.ptr, x.block⟩ hinv h1 hS
  | sharedAssign this other =>
    obtain ⟨x, y, s0, hx, hy, hc, h1⟩ := SharedPtr.assign_some h
    have hallow : sameNonNull x.block y.block = false := by
      unfold Op.allowed at hop
      simp only [hx, hy] at hop
      exact allowed_sameNonNull hop
    exact assignS_countsExact hinv hx hc hallow h1 hS0
  | sharedMove other =>
    obtain ⟨x, s2, s3, _, h1, h2, e⟩ := SharedPtr.ctorMove_some h
    subst e
    have hlen : s2.shared.length < SIZE_MOD := by
      have e1 := (SharedPtr.Clean_shared h2).1
      have e2 : (s3.setS other ⟨none, none⟩).shared.length = s3.shared.length :=
        List.length_set _ _ _
      rw [e2, e1] at hS
      exact hS
    have hinv2 : s2.countsExact :=
      @pushS_bump_countsExact s s2 ⟨x.ptr, x.block⟩ hinv h1 hlen
    obtain ⟨p2, b2, hx2, _⟩ := SharedPtr.Clean_some h2
    exact resetS_countsExact hinv2 hx2 h2 hlen
  | sharedMoveAssign this other =>
    obtain ⟨x, y, s0, s3, s4, hx, hy, hc, h1, h2, e⟩ := SharedPtr.moveAssign_some h
    subst e
    have hallow : sameNonNull x.block y.block = false := by
      unfold Op.allowed at hop
      simp only [hx, hy] at hop
      exact allowed_sameNonNull hop
    have hinv3 : s3.countsExact := assignS_countsExact hinv hx hc hallow h1 hS0
    have hlen : s3.shared.length < SIZE_MOD := by
      have e1 := (SharedPtr.Clean_shared h2).1
      have e2 : (s4.setS other ⟨none, none⟩).shared.length = s4.shared.length :=
        List.length_set _ _ _
      rw [e2, e1] at hS
      exact hS
    obtain ⟨p2, b2, hx2, _⟩ := SharedPtr.Clean_some h2
    exact resetS_countsExact hinv3 hx2 h2 hlen
  | sharedFromWeak other =>
    obtain ⟨x, _, h1⟩ := SharedPtr.ctorWeak_some h
    exact @pushS_bump_countsExact s s1 ⟨x.ptr, x.block⟩ hinv h1 hS
  | sharedReset this =>
    obtain ⟨x, s0, hx, h1, e⟩ := SharedPtr.Reset_some h
    subst e
    exact resetS_countsExact hinv hx h1 hS0
  | sharedDtor this =>
    obtain ⟨s0, h1, e⟩ := SharedPtr.dtor_some h
    subst e
    obtain ⟨p2, b2, hx2, _⟩ := SharedPtr.Clean_some h1
    exact dtorS_countsExact hinv hx2 h1 hS0
  | weakDefault =>
    have h1 : (s.pushW ⟨none, none⟩).bumpWeak none = some s1 := h
    exact pushW_bump_countsExact hinv h1 hW
  | weakCopy other =>
    obtain ⟨x, _, h1⟩ := WeakPtr.weakCtorCopy_some h
    exact @pushW_bump_countsExact s s1 ⟨x.ptr, x.block⟩ hinv h1 hW
  | weakAssign this other =>
    obtain ⟨x, y, s0, hx, hy, hc, h1⟩ := WeakPtr.weakAssign_some h
    have hallow : sameNonNull x.block y.block = false := by
      unfold Op.allowed at hop
      simp only [hx, hy] at hop
      exact allowed_sameNonNull hop
    exact assignW_countsExact hinv hx hc hallow h1 hW0
  | weakMove other =>
    obtain ⟨x, s2, s3, _, h1, h2, e⟩ := WeakPtr.weakCtorMove_some h
    subst e
    have hlen : s2.weak.length < SIZE_MOD := by
      have e1 := (WeakPtr.weakClean_shared h2).2
      have e2 : (s3.setW other ⟨none, none⟩).weak.length = s3.weak.length :=
        List.length_set _ _ _
      rw [e2, e1] at hW
      exact hW
    have hinv2 : s2.countsExact :=
      @pushW_bump_countsExact s s2 ⟨x.ptr, x.block⟩ hinv h1 hlen
    obtain ⟨p2, b2, hx2, _⟩ := WeakPtr.weakClean_some h2
    exact resetW_countsExact hinv2 hx2 h2 hlen
  | weakMoveAssign this other =>
    obtain ⟨x, y, s0, s3, s4, hx, hy, hc, h1, h2, e⟩ := WeakPtr.weakMoveAssign_some h
    subst e
    have hallow : sameNonNull x.block y.block = false := by
      unfold Op.allowed at hop
      simp only [hx, hy] at hop
      exact allowed_sameNonNull hop
    have hinv3 : s3.countsExact := assignW_countsExact hinv hx hc hallow h1 hW0
    have hlen : s3.weak.length < SIZE_MOD := by
      have e1 := (WeakPtr.weakClean_shared h2).2
      have e2 : (s4.setW other ⟨none, none⟩).weak.length = s4.weak.length :=
        List.length_set _ _ _
      rw [e2, e1] at hW
      exact hW
    obtain ⟨p2, b2, hx2, _⟩ := WeakPtr.weakClean_some h2
    exact resetW_countsExact hinv3 hx2 h2 hlen
  | weakFromShared other =>
    obtain ⟨x, _, h1⟩ := WeakPtr.ctorShared_some h
    exact @pushW_bump_countsExact s s1 ⟨x.ptr, x.block⟩ hinv h1 hW
  | weakAssignShared this other =>
    obtain ⟨x, y, s0, hx, hy, hc, h1⟩ := WeakPtr.assignShared_some h
    have hallow : sameNonNull x.block y.block = false := by
      unfold Op.allowed at hop
      simp only [hx, hy] at hop
      exact allowed_sameNonNull hop
    exact assignW_countsExact hinv hx hc hallow h1 hW0
  | weakReset this =>
    obtain ⟨x, s0, hx, h1, e⟩ := WeakPtr.weakReset_some h
    subst e
    exact resetW_countsExact hinv hx h1 hW0
  | weakExpired this =>
    have h' : (WeakPtr.Expired s this).map Prod.snd = some s1 := h
    cases hr : WeakPtr.Expired s this with
    | none =>
      rw [hr] at h'
      cases h'
    | some r =>
      obtain ⟨r1, r2⟩ := r
      rw [hr] at h'
      have e1 : r2 = s1 := Option.some.inj h'
      have e2 := WeakPtr.Expired_some hr
      rw [← e1, e2]
      exact hinv
  | weakLock this =>
    obtain ⟨x, _, h1⟩ := SharedPtr.ctorWeak_some h
    exact @pushS_bump_countsExact s s1 ⟨x.ptr, x.block⟩ hinv h1 hS
  | weakDtor this =>
    obtain ⟨s0, h1, e⟩ := WeakPtr.weakDtor_some h
    subst e
    obtain ⟨p2, b2, hx2, _⟩ := WeakPtr.weakClean_some h1
    exact dtorW_countsExact hinv hx2 h1 hW0

theorem run_cons (s : State) (op : Op) (ops : List Op) :
    run s (op :: ops) = (step s op).bind (fun s1 => run s1 ops) := rfl

theorem run_append (pre suf : List Op) (s : State) :
    run s (pre ++ suf) = (run s pre).bind (fun s1 => run s1 suf) := by
  induction pre generalizing s with
  | nil => rfl
  | cons op pre ih =>
    rw [List.cons_append, run_cons, run_cons]
    cases h : step s op with
    | none => rfl
    | some s0 =>
      rw [Option.some_bind, Option.some_bind]
      exact ih s0

theorem allowedRun_append (pre suf : List Op) {s : State}
    (h : allowedRun s (pre ++ suf) = true) : allowedRun s pre = true := by
  induction pre generalizing s with
  | nil => rfl
  | cons op pre ih =>
    have h' : (op.allowed s && match step s op with
        | some s1 => allowedRun s1 (pre ++ suf)
        | none => true) = true := h
    show (op.allowed s && match step s op with
        | some s1 => allowedRun s1 pre
        | none => true) = true
    rw [Bool.and_eq_true] at h' ⊢
    refine ⟨h'.1, ?_⟩
    cases hs : step s op with
    | none => rfl
    | some s0 =>
      have h2 := h'.2
      rw [hs] at h2
      exact ih h2

theorem run_countsExact (ops : List Op) {s s1 : State} (hinv : s.countsExact)
    (hall : allowedRun s ops = true) (h : run s ops = some s1)
    (hS : s1.shared.length < SIZE_MOD) (hW : s1.weak.length < SIZE_MOD) :
    s1.countsExact := by
  induction ops generalizing s with
  | nil =>
    have := Option.some.inj h
    subst this
    exact hinv
  | cons op ops ih =>
    unfold run at h
    obtain ⟨s0, h0, h1⟩ := Option.bind_eq_some.1 h
    have h' : (op.allowed s && match step s op with
        | some s1 => allowedRun s1 ops
        | none => true) = true := hall
    rw [Bool.and_eq_true, h0] at h'
    obtain ⟨hl1, hl2⟩ := run_lengths ops h1
    exact ih (step_countsExact hinv h'.1 h0 (Nat.lt_of_le_of_lt hl1 hS)
      (Nat.lt_of_le_of_lt hl2 hW)) h'.2 h1

theorem countsExact_init : State.init.countsExact := fun _ => ⟨rfl, rfl⟩

/-- C19 (counters equal live objects when no same-block assignment and no
promotion of an expired observer occurs). Take a run of the operations from
the empty state that returns, in which no assignment is between two objects
that already share a non-null block and no `Lock` or `SharedPtr(const
WeakPtr&)` is applied to an observer whose block has `strong = 0`, and which
constructs fewer than 2^64 owners and fewer than 2^64 observers.  Then after
every step of the run (after every initial part `pre` of it) every block that
can be read has `strong` equal to the number of live owners and `weak` equal
to the number of live observers that refer to it, and every block that a live
owner or observer refers to can still be read: it was not deleted. -/
theorem counts_exact_along_allowed_run (ops : List Op) (s : State)
    (hrun : run State.init ops = some s) (hall : allowedRun State.init ops = true)
    (hS : s.shared.length < SIZE_MOD) (hW : s.weak.length < SIZE_MOD) :
    ∀ pre suf, ops = pre ++ suf →
      ∃ s1, run State.init pre = some s1 ∧
        (∀ b c, s1.load b = some c →
          c.strong = s1.sharedRefs b ∧ c.weak = s1.weakRefs b) ∧
        (∀ i x b, s1.getS i = some x → x.block = some b → (s1.load b).isSome = true) ∧
        (∀ i x b, s1.getW i = some x → x.block = some b → (s1.load b).isSome = true) := by
  intro pre suf hops
  subst hops
  rw [run_append] at hrun
  obtain ⟨s1, h1, h2⟩ := Option.bind_eq_some.1 hrun
  obtain ⟨hl1, hl2⟩ := run_lengths suf h2
  have hinv : s1.countsExact :=
    run_countsExact pre countsExact_init (allowedRun_append pre suf hall) h1
      (Nat.lt_of_le_of_lt hl1 hS) (Nat.lt_of_le_of_lt hl2 hW)
  refine ⟨s1, h1, ?_, ?_, ?_⟩
  · intro b c hl
    obtain ⟨i1, i2⟩ := hinv b
    rw [State.strongOf_of_load hl] at i1
    rw [State.weakOf_of_load hl] at i2
    exact ⟨i1, i2⟩
  · intro i x b hx hb
    have h3 := State.sharedRefs_pos hx hb
    rw [← (hinv b).1] at h3
    obtain ⟨c, hc⟩ := State.load_of_strongOf_pos h3
    rw [hc]
    rfl
  · intro i x b hx hb
    have h3 := State.weakRefs_pos hx hb
    rw [← (hinv b).2] at h3
    obtain ⟨c, hc⟩ := State.load_of_weakOf_pos h3
    rw [hc]
    rfl

/-- C19 at a concrete run: two owners of two values, a copy assignment between
them, an observer, a move, a `Lock`, a destructor and a `Reset`. -/
theorem counts_exact_along_allowed_run_witness :
    run State.init [.sharedRaw (some 7), .sharedRaw (some 8), .sharedAssign 0 1,
        .weakFromShared 0, .sharedMove 1, .weakLock 0, .sharedDtor 0, .weakReset 0]
      = some ⟨[⟨⟨0, 0⟩, false⟩, ⟨⟨2, 0⟩, true⟩], [0], [some 7],
          [none, some ⟨none, none⟩, some ⟨some 8, some 1⟩, some ⟨some 8, some 1⟩],
          [some ⟨none, none⟩]⟩ ∧
    allowedRun State.init [.sharedRaw (some 7), .sharedRaw (some 8), .sharedAssign 0 1,
        .weakFromShared 0, .sharedMove 1, .weakLock 0, .sharedDtor 0, .weakReset 0] = true ∧
    4 < SIZE_MOD ∧ 1 < SIZE_MOD ∧
    ∀ pre suf, [Op.sharedRaw (some 7), .sharedRaw (some 8), .sharedAssign 0 1,
        .weakFromShared 0, .sharedMove 1, .weakLock 0, .sharedDtor 0, .weakReset 0]
        = pre ++ suf →
      ∃ s1, run State.init pre = some s1 ∧
        (∀ b c, s1.load b = some c →
          c.strong = s1.sharedRefs b ∧ c.weak = s1.weakRefs b) ∧
        (∀ i x b, s1.getS i = some x → x.block = some b → (s1.load b).isSome = true) ∧
        (∀ i x b, s1.getW i = some x → x.block = some b → (s1.load b).isSome = true) :=
  ⟨by decide, by decide, by decide, by decide,
    counts_exact_along_allowed_run [.sharedRaw (some 7), .sharedRaw (some 8),
        .sharedAssign 0 1, .weakFromShared 0, .sharedMove 1, .weakLock 0, .sharedDtor 0,
        .weakReset 0]
      ⟨[⟨⟨0, 0⟩, false⟩, ⟨⟨2, 0⟩, true⟩], [0], [some 7],
        [none, some ⟨none, none⟩, some ⟨some 8, some 1⟩, some ⟨some 8, some 1⟩],
        [some ⟨none, none⟩]⟩
      (by decide) (by decide) (by decide) (by decide)⟩

/-! ## Calls that return -/

theorem State.bumpStrong_total {s : State} {blk : Ptr}
    (hlive : ∀ k, blk = some k → ∃ c, s.load k = some c) :
    ∃ s1, s.bumpStrong blk = some s1 := by
  cases blk with
  | none => exact ⟨s, rfl⟩
  | some k =>
    obtain ⟨c, hc⟩ := hlive k rfl
    exact ⟨_, State.bumpStrong_eq hc⟩

theorem State.bumpWeak_total {s : State} {blk : Ptr}
    (hlive : ∀ k, blk = some k → ∃ c, s.load k = some c) :
    ∃ s1, s.bumpWeak blk = some s1 := by
  cases blk with
  | none => exact ⟨s, rfl⟩
  | some k =>
    obtain ⟨c, hc⟩ := hlive k rfl
    exact ⟨_, State.bumpWeak_eq hc⟩

theorem WeakPtr.weakClean_total {st : State} {this : Nat} {x : WeakPtr}
    (hthis : st.getW this = some x)
    (hlive : ∀ b, x.block = some b → ∃ c, st.load b = some c) :
    ∃ st1, WeakPtr.Clean st this = some st1 := by
  obtain ⟨p, blk⟩ := x
  cases blk with
  | none => exact ⟨st, WeakPtr.weakClean_null hthis⟩
  | some b =>
    obtain ⟨c, hc⟩ := hlive b rfl
    obtain ⟨s, w⟩ := c
    exact ⟨_, WeakPtr.weakClean_eq hthis hc⟩

theorem SharedPtr.Clean_returns {st : State} {this : Nat} {x : SharedPtr}
    (hthis : st.getS this = some x)
    (hlive : ∀ b, x.block = some b → ∃ c, st.load b = some c) :
    ∃ st1, SharedPtr.Clean st this = some st1 := by
  obtain ⟨p, blk⟩ := x
  cases blk with
  | none => exact ⟨st, SharedPtr.Clean_null hthis⟩
  | some b =>
    obtain ⟨c, hc⟩ := hlive b rfl
    obtain ⟨s, w⟩ := c
    exact ⟨_, SharedPtr.Clean_eq hthis hc⟩

theorem SharedPtr.ctorCopy_intro {s s1 : State} {other : Nat} {x : SharedPtr}
    (hx : s.getS other = some x)
    (h1 : (s.pushS ⟨x.ptr, x.block⟩).bumpStrong x.block = some s1) :
    SharedPtr.ctorCopy s other = some s1 := by
  unfold SharedPtr.ctorCopy
  rw [hx]
  exact h1

theorem SharedPtr.ctorWeak_intro {s s1 : State} {other : Nat} {x : WeakPtr}
    (hx : s.getW other = some x)
    (h1 : (s.pushS ⟨x.ptr, x.block⟩).bumpStrong x.block = some s1) :
    SharedPtr.ctorWeak s other = some s1 := by
  unfold SharedPtr.ctorWeak
  rw [hx]
  exact h1

theorem WeakPtr.weakCtorCopy_intro {s s1 : State} {other : Nat} {x : WeakPtr}
    (hx : s.getW other = some x)
    (h1 : (s.pushW ⟨x.ptr, x.block⟩).bumpWeak x.block = some s1) :
    WeakPtr.ctorCopy s other = some s1 := by
  unfold WeakPtr.ctorCopy
  rw [hx]
  exact h1

theorem WeakPtr.ctorShared_intro {s s1 : State} {other : Nat} {x : SharedPtr}
    (hx : s.getS other = some x)
    (h1 : (s.pushW ⟨x.ptr, x.block⟩).bumpWeak x.block = some s1) :
    WeakPtr.ctorShared s other = some s1 := by
  unfold WeakPtr.ctorShared
  rw [hx]
  exact h1

theorem SharedPtr.cleanIfDiffers_intro {s s1 : State} {this : Nat} {x : SharedPtr} {blk : Ptr}
    (hx : s.getS this = some x)
    (hc : (x.block = blk ∧ s1 = s) ∨ (x.block ≠ blk ∧ SharedPtr.Clean s this = some s1)) :
    SharedPtr.cleanIfDiffers s this blk = some s1 := by
  unfold SharedPtr.cleanIfDiffers
  rw [hx]
  show (if x.block ≠ blk then SharedPtr.Clean s this else some s) = some s1
  rcases hc with ⟨e1, e2⟩ | ⟨hne, hcl⟩
  · rw [if_neg (not_not.2 e1), e2]
  · rw [if_pos hne, hcl]

theorem WeakPtr.weakCleanIfDiffers_intro {s s1 : State} {this : Nat} {x : WeakPtr} {blk : Ptr}
    (hx : s.getW this = some x)
    (hc : (x.block = blk ∧ s1 = s) ∨ (x.block ≠ blk ∧ WeakPtr.Clean s this = some s1)) :
    WeakPtr.cleanIfDiffers s this blk = some s1 := by
  unfold WeakPtr.cleanIfDiffers
  rw [hx]
  show (if x.block ≠ blk then WeakPtr.Clean s this else some s) = some s1
  rcases hc with ⟨e1, e2⟩ | ⟨hne, hcl⟩
  · rw [if_neg (not_not.2 e1), e2]
  · rw [if_pos hne, hcl]

theorem caseS_objs {s s1 : State} {this : Nat} {a b : Ptr}
    (hc : (a = b ∧ s1 = s) ∨ (a ≠ b ∧ SharedPtr.Clean s this = some s1)) :
    s1.shared = s.shared ∧ s1.weak = s.weak := by
  rcases hc with ⟨_, e⟩ | ⟨_, e⟩
  · rw [e]
    exact ⟨rfl, rfl⟩
  · exact SharedPtr.Clean_shared e

theorem caseW_objs {s s1 : State} {this : Nat} {a b : Ptr}
    (hc : (a = b ∧ s1 = s) ∨ (a ≠ b ∧ WeakPtr.Clean s this = some s1)) :
    s1.shared = s.shared ∧ s1.weak = s.weak := by
  rcases hc with ⟨_, e⟩ | ⟨_, e⟩
  · rw [e]
    exact ⟨rfl, rfl⟩
  · exact WeakPtr.weakClean_shared e

theorem SharedPtr.assign_intro {s s1 s3 : State} {this other : Nat} {x y : SharedPtr}
    (hx : s.getS this = some x) (hy : s.getS other = some y)
    (hc : (x.block = y.block ∧ s1 = s) ∨ (x.block ≠ y.block ∧ SharedPtr.Clean s this = some s1))
    (h1 : (s1.setS this ⟨y.ptr, y.block⟩).bumpStrong y.block = some s3) :
    SharedPtr.assign s this other = some s3 := by
  have hobj := caseS_objs hc
  have hx1 : s1.getS this = some x := (State.getS_objs hobj.1 this).trans hx
  have hy1 : s1.getS other = some y := (State.getS_objs hobj.1 other).trans hy
  unfold SharedPtr.assign
  simp only [Option.bind_eq_bind, Option.bind_eq_some]
  exact ⟨y, hy, s1, SharedPtr.cleanIfDiffers_intro hx hc, _, SharedPtr.adopt_eq hx1 hy1, _,
    State.getS_setS_same _ (State.getS_lt hx1), h1⟩

theorem SharedPtr.moveAssign_intro {s s1 s3 s4 : State} {this other : Nat} {x y : SharedPtr}
    (hx : s.getS this = some x) (hy : s.getS other = some y)
    (hc : (x.block = y.block ∧ s1 = s) ∨ (x.block ≠ y.block ∧ SharedPtr.Clean s this = some s1))
    (h1 : (s1.setS this ⟨y.ptr, y.block⟩).bumpStrong y.block = some s3)
    (h2 : SharedPtr.Clean s3 other = some s4) :
    SharedPtr.moveAssign s this other = some (s4.setS other ⟨none, none⟩) := by
  have hobj := caseS_objs hc
  have hx1 : s1.getS this = some x := (State.getS_objs hobj.1 this).trans hx
  have hy1 : s1.getS other = some y := (State.getS_objs hobj.1 other).trans hy
  obtain ⟨p, blk, hz, _⟩ := SharedPtr.Clean_some h2
  unfold SharedPtr.moveAssign
  simp only [Option.bind_eq_bind, Option.bind_eq_some]
  exact ⟨y, hy, s1, SharedPtr.cleanIfDiffers_intro hx hc, _, SharedPtr.adopt_eq hx1 hy1, _,
    State.getS_setS_same _ (State.getS_lt hx1), s3, h1, SharedPtr.Reset_eq hz h2⟩

theorem SharedPtr.ctorMove_intro {s s2 s3 : State} {other : Nat} {x : SharedPtr}
    (hx : s.getS other = some x)
    (h1 : (s.pushS ⟨x.ptr, x.block⟩).bumpStrong x.block = some s2)
    (h2 : SharedPtr.Clean s2 other = some s3) :
    SharedPtr.ctorMove s other = some (s3.setS other ⟨none, none⟩) := by
  obtain ⟨p, blk, hz, _⟩ := SharedPtr.Clean_some h2
  unfold SharedPtr.ctorMove
  simp only [Option.bind_eq_bind, Option.bind_eq_some]
  exact ⟨x, hx, s2, h1, SharedPtr.Reset_eq hz h2⟩

theorem WeakPtr.weakAssign_intro {s s1 s3 : State} {this other : Nat} {x y : WeakPtr}
    (hx : s.getW this = some x) (hy : s.getW other = some y)
    (hc : (x.block = y.block ∧ s1 = s) ∨ (x.block ≠ y.block ∧ WeakPtr.Clean s this = some s1))
    (h1 : (s1.setW this ⟨y.ptr, y.block⟩).bumpWeak y.block = some s3) :
    WeakPtr.assign s this other = some s3 := by
  have hobj := caseW_objs hc
  have hx1 : s1.getW this = some x := (State.getW_objs hobj.2 this).trans hx
  have hy1 : s1.getW other = some y := (State.getW_objs hobj.2 other).trans hy
  unfold WeakPtr.assign
  simp only [Option.bind_eq_bind, Option.bind_eq_some]
  exact ⟨y, hy, s1, WeakPtr.weakCleanIfDiffers_intro hx hc, _, WeakPtr.weakAdopt_eq hx1 hy1, _,
    State.getW_setW_same _ (State.getW_lt hx1), h1⟩

theorem WeakPtr.weakMoveAssign_intro {s s1 s3 s4 : State} {this other : Nat} {x y : WeakPtr}
    (hx : s.getW this = some x) (hy : s.getW other = some y)
    (hc : (x.block = y.block ∧ s1 = s) ∨ (x.block ≠ y.block ∧ WeakPtr.Clean s this = some s1))
    (h1 : (s1.setW this ⟨y.ptr, y.block⟩).bumpWeak y.block = some s3)
    (h2 : WeakPtr.Clean s3 other = some s4) :
    WeakPtr.moveAssign s this other = some (s4.setW other ⟨none, none⟩) := by
  have hobj := caseW_objs hc
  have hx1 : s1.getW this = some x := (State.getW_objs hobj.2 this).trans hx
  have hy1 : s1.getW other = some y := (State.getW_objs hobj.2 other).trans hy
  obtain ⟨p, blk, hz, _⟩ := WeakPtr.weakClean_some h2
  unfold WeakPtr.moveAssign
  simp only [Option.bind_eq_bind, Option.bind_eq_some]
  exact ⟨y, hy, s1, WeakPtr.weakCleanIfDiffers_intro hx hc, _,
    WeakPtr.adoptBlockFirst_eq hx1 hy1, _,
    State.getW_setW_same _ (State.getW_lt hx1), s3, h1, WeakPtr.weakReset_eq hz h2⟩

theorem WeakPtr.weakCtorMove_intro {s s2 s3 : State} {other : Nat} {x : WeakPtr}
    (hx : s.getW other = some x)
    (h1 : (s.pushW ⟨x.ptr, x.block⟩).bumpWeak x.block = some s2)
    (h2 : WeakPtr.Clean s2 other = some s3) :
    WeakPtr.ctorMove s other = some (s3.setW other ⟨none, none⟩) := by
  obtain ⟨p, blk, hz, _⟩ := WeakPtr.weakClean_some h2
  unfold WeakPtr.ctorMove
  simp only [Option.bind_eq_bind, Option.bind_eq_some]
  exact ⟨x, hx, s2, h1, WeakPtr.weakReset_eq hz h2⟩

theorem WeakPtr.assignShared_intro {s s1 s3 : State} {this other : Nat} {x : WeakPtr}
    {y : SharedPtr} (hx : s.getW this = some x) (hy : s.getS other = some y)
    (hc : (x.block = y.block ∧ s1 = s) ∨ (x.block ≠ y.block ∧ WeakPtr.Clean s this = some s1))
    (h1 : (s1.setW this ⟨y.ptr, y.block⟩).bumpWeak y.block = some s3) :
    WeakPtr.assignShared s this other = some s3 := by
  have hobj := caseW_objs hc
  have hx1 : s1.getW this = some x := (State.getW_objs hobj.2 this).trans hx
  have hy1 : s1.getS other = some y := (State.getS_objs hobj.1 other).trans hy
  have hlt := State.getW_lt hx1
  have hlt2 : this < (s1.setW this ⟨x.ptr, y.block⟩).weak.length := by
    show this < (s1.weak.set _ _).length
    rw [List.length_set]
    exact hlt
  unfold WeakPtr.assignShared
  simp only [Option.bind_eq_bind, Option.bind_eq_some]
  refine ⟨y, hy, s1, WeakPtr.weakCleanIfDiffers_intro hx hc, x, hx1, y, hy1, _,
    State.getW_setW_same _ hlt, y, hy1, _, State.getW_setW_same _ hlt2, ?_⟩
  have e : ((s1.setW this ⟨x.ptr, y.block⟩).setW this ⟨y.ptr, y.block⟩)
      = s1.setW this ⟨y.ptr, y.block⟩ := State.setW_setW _ _ _ _
  show State.bumpWeak ((s1.setW this ⟨x.ptr, y.block⟩).setW this ⟨y.ptr, y.block⟩) y.block = _
  rw [e]
  exact h1

/-! ## The covering invariant, operation by operation -/

theorem State.countsCover_mono {s : State} {n m : Nat} (h : s.countsCover n) (hnm : n ≤ m) :
    s.countsCover m := by
  intro b
  obtain ⟨h1, h2, h3, h4⟩ := h b
  exact ⟨h1, h2, Nat.le_trans h3 hnm, Nat.le_trans h4 hnm⟩

theorem countsCover_init : State.init.countsCover 0 := fun _ =>
  ⟨Nat.le_refl _, Nat.le_refl _, Nat.le_refl _, Nat.le_refl _⟩

theorem cover_liveS {s : State} {n i k : Nat} {x : SharedPtr} (hJ : s.countsCover n)
    (hx : s.getS i = some x) (hk : x.block = some k) : 1 ≤ s.strongOf k :=
  Nat.le_trans (State.sharedRefs_pos hx hk) (hJ k).1

theorem cover_liveW {s : State} {n i k : Nat} {x : WeakPtr} (hJ : s.countsCover n)
    (hx : s.getW i = some x) (hk : x.block = some k) : 1 ≤ s.weakOf k :=
  Nat.le_trans (State.weakRefs_pos hx hk) (hJ k).2.1

theorem load_of_counter_pos {s : State} {k : Nat} (h : 1 ≤ s.strongOf k ∨ 1 ≤ s.weakOf k) :
    ∃ c, s.load k = some c := by
  rcases h with h | h
  · exact State.load_of_strongOf_pos h
  · exact State.load_of_weakOf_pos h

theorem pushS_bump_cover {s : State} {n : Nat} (v : SharedPtr) (hJ : s.countsCover n)
    (hn : n + 1 < SIZE_MOD)
    (hlive : ∀ k, v.block = some k → 1 ≤ s.strongOf k ∨ 1 ≤ s.weakOf k) :
    ∃ s1, (s.pushS v).bumpStrong v.block = some s1 ∧ s1.countsCover (n + 1) := by
  have hl : ∀ k, v.block = some k → ∃ c, (s.pushS v).load k = some c :=
    fun k hk => load_of_counter_pos (hlive k hk)
  obtain ⟨s1, h1⟩ := State.bumpStrong_total hl
  refine ⟨s1, h1, ?_⟩
  have hobj := State.bumpStrong_objs h1
  have hpre : ∀ k, v.block = some k → (s.pushS v).strongOf k + 1 < SIZE_MOD := by
    intro k _
    have h5 := (hJ k).2.2.1
    show s.strongOf k + 1 < SIZE_MOD
    omega
  intro b
  obtain ⟨c1, c2⟩ := State.bumpStrong_counts h1 hpre b
  have c3 : (s.pushS v).strongOf b = s.strongOf b := rfl
  have c4 : (s.pushS v).weakOf b = s.weakOf b := rfl
  have c5 := State.sharedRefs_pushS_ind s v b
  have c6 := State.sharedRefs_objs hobj.1 b
  have c7 : s1.weakRefs b = s.weakRefs b := State.weakRefs_objs hobj.2 b
  have c8 := ind_le_one v.block b
  obtain ⟨i1, i2, i3, i4⟩ := hJ b
  refine ⟨?_, ?_, ?_, ?_⟩ <;> omega

theorem pushW_bump_cover {s : State} {n : Nat} (v : WeakPtr) (hJ : s.countsCover n)
    (hn : n + 1 < SIZE_MOD)
    (hlive : ∀ k, v.block = some k → 1 ≤ s.strongOf k ∨ 1 ≤ s.weakOf k) :
    ∃ s1, (s.pushW v).bumpWeak v.block = some s1 ∧ s1.countsCover (n + 1) := by
  have hl : ∀ k, v.block = some k → ∃ c, (s.pushW v).load k = some c :=
    fun k hk => load_of_counter_pos (hlive k hk)
  obtain ⟨s1, h1⟩ := State.bumpWeak_total hl
  refine ⟨s1, h1, ?_⟩
  have hobj := State.bumpWeak_objs h1
  have hpre : ∀ k, v.block = some k → (s.pushW v).weakOf k + 1 < SIZE_MOD := by
    intro k _
    have h5 := (hJ k).2.2.2
    show s.weakOf k + 1 < SIZE_MOD
    omega
  intro b
  obtain ⟨c1, c2⟩ := State.bumpWeak_counts h1 hpre b
  have c3 : (s.pushW v).strongOf b = s.strongOf b := rfl
  have c4 : (s.pushW v).weakOf b = s.weakOf b := rfl
  have c5 := State.weakRefs_pushW_ind s v b
  have c6 := State.weakRefs_objs hobj.2 b
  have c7 : s1.sharedRefs b = s.sharedRefs b := State.sharedRefs_objs hobj.1 b
  have c8 := ind_le_one v.block b
  obtain ⟨i1, i2, i3, i4⟩ := hJ b
  refine ⟨?_, ?_, ?_, ?_⟩ <;> omega

theorem cleanS_cover_pre {s : State} {n this : Nat} {x : SharedPtr} (hJ : s.countsCover n)
    (hn : n < SIZE_MOD) (hx : s.getS this = some x) :
    ∀ k, x.block = some k → 1 ≤ s.strongOf k ∧ s.strongOf k < SIZE_MOD := by
  intro k hk
  have h1 := cover_liveS hJ hx hk
  have h2 := (hJ k).2.2.1
  omega

theorem cleanW_cover_pre {s : State} {n this : Nat} {x : WeakPtr} (hJ : s.countsCover n)
    (hn : n < SIZE_MOD) (hx : s.getW this = some x) :
    ∀ k, x.block = some k → 1 ≤ s.weakOf k ∧ s.weakOf k < SIZE_MOD := by
  intro k hk
  have h1 := cover_liveW hJ hx hk
  have h2 := (hJ k).2.2.2
  omega

theorem cleanS_returns_cover {s : State} {n this : Nat} {x : SharedPtr} (hJ : s.countsCover n)
    (hx : s.getS this = some x) : ∃ s0, SharedPtr.Clean s this = some s0 :=
  SharedPtr.Clean_returns hx
    (fun _ hk => State.load_of_strongOf_pos (cover_liveS hJ hx hk))

theorem cleanW_returns_cover {s : State} {n this : Nat} {x : WeakPtr} (hJ : s.countsCover n)
    (hx : s.getW this = some x) : ∃ s0, WeakPtr.Clean s this = some s0 :=
  WeakPtr.weakClean_total hx
    (fun _ hk => State.load_of_weakOf_pos (cover_liveW hJ hx hk))

theorem resetS_cover {s : State} {n this : Nat} {x : SharedPtr} (hJ : s.countsCover n)
    (hn : n < SIZE_MOD) (hx : s.getS this = some x) :
    ∃ s0, SharedPtr.Clean s this = some s0 ∧ (s0.setS this ⟨none, none⟩).countsCover n := by
  obtain ⟨s0, h⟩ := cleanS_returns_cover hJ hx
  refine ⟨s0, h, ?_⟩
  have hobj := SharedPtr.Clean_shared h
  have hx0 : s0.getS this = some x := (State.getS_objs hobj.1 this).trans hx
  intro b
  obtain ⟨c1, c2⟩ := SharedPtr.Clean_counts h hx (cleanS_cover_pre hJ hn hx) b
  have c3 := State.sharedRefs_setS_ind ⟨none, none⟩ hx0 b
  rw [ind_none] at c3
  have c4 := State.sharedRefs_objs hobj.1 b
  have c5 : (s0.setS this ⟨none, none⟩).weakRefs b = s.weakRefs b :=
    State.weakRefs_objs hobj.2 b
  have c6 : (s0.setS this ⟨none, none⟩).strongOf b = s0.strongOf b := rfl
  have c7 : (s0.setS this ⟨none, none⟩).weakOf b = s0.weakOf b := rfl
  obtain ⟨i1, i2, i3, i4⟩ := hJ b
  refine ⟨?_, ?_, ?_, ?_⟩ <;> omega

theorem resetW_cover {s : State} {n this : Nat} {x : WeakPtr} (hJ : s.countsCover n)
    (hn : n < SIZE_MOD) (hx : s.getW this = some x) :
    ∃ s0, WeakPtr.Clean s this = some s0 ∧ (s0.setW this ⟨none, none⟩).countsCover n := by
  obtain ⟨s0, h⟩ := cleanW_returns_cover hJ hx
  refine ⟨s0, h, ?_⟩
  have hobj := WeakPtr.weakClean_shared h
  have hx0 : s0.getW this = some x := (State.getW_objs hobj.2 this).trans hx
  intro b
  obtain ⟨c1, c2⟩ := WeakPtr.weakClean_counts h hx (cleanW_cover_pre hJ hn hx) b
  have c3 := State.weakRefs_setW_ind ⟨none, none⟩ hx0 b
  rw [ind_none] at c3
  have c4 := State.weakRefs_objs hobj.2 b
  have c5 : (s0.setW this ⟨none, none⟩).sharedRefs b = s.sharedRefs b :=
    State.sharedRefs_objs hobj.1 b
  have c6 : (s0.setW this ⟨none, none⟩).strongOf b = s0.strongOf b := rfl
  have c7 : (s0.setW this ⟨none, none⟩).weakOf b = s0.weakOf b := rfl
  obtain ⟨i1, i2, i3, i4⟩ := hJ b
  refine ⟨?_, ?_, ?_, ?_⟩ <;> omega

theorem dtorS_cover {s : State} {n this : Nat} {x : SharedPtr} (hJ : s.countsCover n)
    (hn : n < SIZE_MOD) (hx : s.getS this = some x) :
    ∃ s0, SharedPtr.Clean s this = some s0 ∧ (s0.dropS this).countsCover n := by
  obtain ⟨s0, h⟩ := cleanS_returns_cover hJ hx
  refine ⟨s0, h, ?_⟩
  have hobj := SharedPtr.Clean_shared h
  have hx0 : s0.getS this = some x := (State.getS_objs hobj.1 this).trans hx
  intro b
  obtain ⟨c1, c2⟩ := SharedPtr.Clean_counts h hx (cleanS_cover_pre hJ hn hx) b
  have c3 := State.sharedRefs_dropS_ind hx0 b
  have c4 := State.sharedRefs_objs hobj.1 b
  have c5 : (s0.dropS this).weakRefs b = s.weakRefs b := State.weakRefs_objs hobj.2 b
  have c6 : (s0.dropS this).strongOf b = s0.strongOf b := rfl
  have c7 : (s0.dropS this).weakOf b = s0.weakOf b := rfl
  obtain ⟨i1, i2, i3, i4⟩ := hJ b
  refine ⟨?_, ?_, ?_, ?_⟩ <;> omega

theorem dtorW_cover {s : State} {n this : Nat} {x : WeakPtr} (hJ : s.countsCover n)
    (hn : n < SIZE_MOD) (hx : s.getW this = some x) :
    ∃ s0, WeakPtr.Clean s this = some s0 ∧ (s0.dropW this).countsCover n := by
  obtain ⟨s0, h⟩ := cleanW_returns_cover hJ hx
  refine ⟨s0, h, ?_⟩
  have hobj := WeakPtr.weakClean_shared h
  have hx0 : s0.getW this = some x := (State.getW_objs hobj.2 this).trans hx
  intro b
  obtain ⟨c1, c2⟩ := WeakPtr.weakClean_counts h hx (cleanW_cover_pre hJ hn hx) b
  have c3 := State.weakRefs_dropW_ind hx0 b
  have c4 := State.weakRefs_objs hobj.2 b
  have c5 : (s0.dropW this).sharedRefs b = s.sharedRefs b := State.sharedRefs_objs hobj.1 b
  have c6 : (s0.dropW this).strongOf b = s0.strongOf b := rfl
  have c7 : (s0.dropW this).weakOf b = s0.weakOf b := rfl
  obtain ⟨i1, i2, i3, i4⟩ := hJ b
  refine ⟨?_, ?_, ?_, ?_⟩ <;> omega

theorem ctorRaw_cover {s : State} {n : Nat} (p : Ptr) (hJ : s.countsCover n) :
    ∃ s1, SharedPtr.ctorRaw s p = some s1 ∧ s1.countsCover (n + 1) := by
  refine ⟨_, SharedPtr.ctorRaw_eq s p, ?_⟩
  obtain ⟨hn, hl, hne, hsh, hwk⟩ := SharedPtr.ctorRaw_facts (SharedPtr.ctorRaw_eq s p)
  intro b
  have c1 := State.sharedRefs_pushS_ind s ⟨p, some s.blocks.length⟩ b
  simp only at c1
  have c2 := State.sharedRefs_objs hsh b
  have c3 := State.weakRefs_objs hwk b
  obtain ⟨i1, i2, i3, i4⟩ := hJ b
  by_cases hb : s.blocks.length = b
  · subst hb
    rw [State.strongOf_of_none hn] at i1
    rw [State.weakOf_of_none hn] at i2
    rw [ind_self] at c1
    rw [State.strongOf_of_load hl, State.weakOf_of_load hl]
    refine ⟨?_, ?_, ?_, ?_⟩
    · show _ ≤ 1
      omega
    · show _ ≤ 0
      omega
    · show 1 ≤ _
      omega
    · show 0 ≤ _
      omega
  · rw [ind_ne hb] at c1
    obtain ⟨d1, d2⟩ := State.counts_of_load_eq (hne b (Ne.symm hb))
    refine ⟨?_, ?_, ?_, ?_⟩ <;> omega

theorem assignS_cover {s : State} {n this : Nat} {x : SharedPtr} (yp yb : Ptr)
    (hJ : s.countsCover n) (hn : n + 1 < SIZE_MOD) (hx : s.getS this = some x)
    (hlive : ∀ k, yb = some k → 1 ≤ s.strongOf k ∨ 1 ≤ s.weakOf k) :
    ∃ s0 s1,
      ((x.block = yb ∧ s0 = s) ∨ (x.block ≠ yb ∧ SharedPtr.Clean s this = some s0)) ∧
      (s0.setS this ⟨yp, yb⟩).bumpStrong yb = some s1 ∧ s1.countsCover (n + 1) := by
  by_cases e : x.block = yb
  · have hl : ∀ k, yb = some k → ∃ c, (s.setS this ⟨yp, yb⟩).load k = some c :=
      fun k hk => load_of_counter_pos (hlive k hk)
    obtain ⟨s1, h1⟩ := State.bumpStrong_total hl
    refine ⟨s, s1, Or.inl ⟨e, rfl⟩, h1, ?_⟩
    have hobj1 := State.bumpStrong_objs h1
    have hpre : ∀ k, yb = some k → (s.setS this ⟨yp, yb⟩).strongOf k + 1 < SIZE_MOD := by
      intro k _
      have h5 := (hJ k).2.2.1
      show s.strongOf k + 1 < SIZE_MOD
      omega
    intro b
    obtain ⟨d1, d2⟩ := State.bumpStrong_counts h1 hpre b
    have c3 := State.sharedRefs_setS_ind ⟨yp, yb⟩ hx b
    simp only at c3
    rw [e] at c3
    have c5 := State.sharedRefs_objs hobj1.1 b
    have c6 : s1.weakRefs b = s.weakRefs b := State.weakRefs_objs hobj1.2 b
    have c7 : (s.setS this ⟨yp, yb⟩).strongOf b = s.strongOf b := rfl
    have c8 : (s.setS this ⟨yp, yb⟩).weakOf b = s.weakOf b := rfl
    have c9 := ind_le_one yb b
    obtain ⟨i1, i2, i3, i4⟩ := hJ b
    refine ⟨?_, ?_, ?_, ?_⟩ <;> omega
  · obtain ⟨s0, hcl⟩ := cleanS_returns_cover hJ hx
    have hobj := SharedPtr.Clean_shared hcl
    have hx0 : s0.getS this = some x := (State.getS_objs hobj.1 this).trans hx
    have hcnt := SharedPtr.Clean_counts hcl hx (cleanS_cover_pre hJ (by omega) hx)
    have hl : ∀ k, yb = some k → ∃ c, (s0.setS this ⟨yp, yb⟩).load k = some c := by
      intro k hk
      have a1 := hcnt k
      have a2 : ind x.block k = 0 := ind_of_ne (by rw [← hk]; exact e)
      have a3 := hlive k hk
      have a4 : 1 ≤ s0.strongOf k ∨ 1 ≤ s0.weakOf k := by omega
      exact load_of_counter_pos a4
    obtain ⟨s1, h1⟩ := State.bumpStrong_total hl
    refine ⟨s0, s1, Or.inr ⟨e, hcl⟩, h1, ?_⟩
    have hobj1 := State.bumpStrong_objs h1
    have hpre : ∀ k, yb = some k → (s0.setS this ⟨yp, yb⟩).strongOf k + 1 < SIZE_MOD := by
      intro k _
      have a1 := (hcnt k).1
      have h5 := (hJ k).2.2.1
      show s0.strongOf k + 1 < SIZE_MOD
      omega
    intro b
    obtain ⟨c1, c2⟩ := hcnt b
    obtain ⟨d1, d2⟩ := State.bumpStrong_counts h1 hpre b
    have c3 := State.sharedRefs_setS_ind ⟨yp, yb⟩ hx0 b
    simp only at c3
    have c4 := State.sharedRefs_objs hobj.1 b
    have c5 := State.sharedRefs_objs hobj1.1 b
    have c6 : s1.weakRefs b = s.weakRefs b :=
      (State.weakRefs_objs hobj1.2 b).trans (State.weakRefs_objs hobj.2 b)
    have c7 : (s0.setS this ⟨yp, yb⟩).strongOf b = s0.strongOf b := rfl
    have c8 : (s0.setS this ⟨yp, yb⟩).weakOf b = s0.weakOf b := rfl
    have c9 := ind_le_one yb b
    obtain ⟨i1, i2, i3, i4⟩ := hJ b
    refine ⟨?_, ?_, ?_, ?_⟩ <;> omega

theorem assignW_cover {s : State} {n this : Nat} {x : WeakPtr} (yp yb : Ptr)
    (hJ : s.countsCover n) (hn : n + 1 < SIZE_MOD) (hx : s.getW this = some x)
    (hlive : ∀ k, yb = some k → 1 ≤ s.strongOf k ∨ 1 ≤ s.weakOf k) :
    ∃ s0 s1,
      ((x.block = yb ∧ s0 = s) ∨ (x.block ≠ yb ∧ WeakPtr.Clean s this = some s0)) ∧
      (s0.setW this ⟨yp, yb⟩).bumpWeak yb = some s1 ∧ s1.countsCover (n + 1) := by
  by_cases e : x.block = yb
  · have hl : ∀ k, yb = some k → ∃ c, (s.setW this ⟨yp, yb⟩).load k = some c :=
      fun k hk => load_of_counter_pos (hlive k hk)
    obtain ⟨s1, h1⟩ := State.bumpWeak_total hl
    refine ⟨s, s1, Or.inl ⟨e, rfl⟩, h1, ?_⟩
    have hobj1 := State.bumpWeak_objs h1
    have hpre : ∀ k, yb = some k → (s.setW this ⟨yp, yb⟩).weakOf k + 1 < SIZE_MOD := by
      intro k _
      have h5 := (hJ k).2.2.2
      show s.weakOf k + 1 < SIZE_MOD
      omega
    intro b
    obtain ⟨d1, d2⟩ := State.bumpWeak_counts h1 hpre b
    have c3 := State.weakRefs_setW_ind ⟨yp, yb⟩ hx b
    simp only at c3
    rw [e] at c3
    have c5 := State.weakRefs_objs hobj1.2 b
    have c6 : s1.sharedRefs b = s.sharedRefs b := State.sharedRefs_objs hobj1.1 b
    have c7 : (s.setW this ⟨yp, yb⟩).strongOf b = s.strongOf b := rfl
    have c8 : (s.setW this ⟨yp, yb⟩).weakOf b = s.weakOf b := rfl
    have c9 := ind_le_one yb b
    obtain ⟨i1, i2, i3, i4⟩ := hJ b
    refine ⟨?_, ?_, ?_, ?_⟩ <;> omega
  · obtain ⟨s0, hcl⟩ := cleanW_returns_cover hJ hx
    have hobj := WeakPtr.weakClean_shared hcl
    have hx0 : s0.getW this = some x := (State.getW_objs hobj.2 this).trans hx
    have hcnt := WeakPtr.weakClean_counts hcl hx (cleanW_cover_pre hJ (by omega) hx)
    have hl : ∀ k, yb = some k → ∃ c, (s0.setW this ⟨yp, yb⟩).load k = some c := by
      intro k hk
      have a1 := hcnt k
      have a2 : ind x.block k = 0 := ind_of_ne (by rw [← hk]; exact e)
      have a3 := hlive k hk
      have a4 : 1 ≤ s0.strongOf k ∨ 1 ≤ s0.weakOf k := by omega
      exact load_of_counter_pos a4
    obtain ⟨s1, h1⟩ := State.bumpWeak_total hl
    refine ⟨s0, s1, Or.inr ⟨e, hcl⟩, h1, ?_⟩
    have hobj1 := State.bumpWeak_objs h1
    have hpre : ∀ k, yb = some k → (s0.setW this ⟨yp, yb⟩).weakOf k + 1 < SIZE_MOD := by
      intro k _
      have a1 := (hcnt k).2
      have h5 := (hJ k).2.2.2
      show s0.weakOf k + 1 < SIZE_MOD
      omega
    intro b
    obtain ⟨c1, c2⟩ := hcnt b
    obtain ⟨d1, d2⟩ := State.bumpWeak_counts h1 hpre b
    have c3 := State.weakRefs_setW_ind ⟨yp, yb⟩ hx0 b
    simp only at c3
    have c4 := State.weakRefs_objs hobj.2 b
    have c5 := State.weakRefs_objs hobj1.2 b
    have c6 : s1.sharedRefs b = s.sharedRefs b :=
      (State.sharedRefs_objs hobj1.1 b).trans (State.sharedRefs_objs hobj.1 b)
    have c7 : (s0.setW this ⟨yp, yb⟩).strongOf b = s0.strongOf b := rfl
    have c8 : (s0.setW this ⟨yp, yb⟩).weakOf b = s0.weakOf b := rfl
    have c9 := ind_le_one yb b
    obtain ⟨i1, i2, i3, i4⟩ := hJ b
    refine ⟨?_, ?_, ?_, ?_⟩ <;> omega

/-! ## Every operation on live objects returns -/

theorem getS_after_setS {s : State} {this other : Nat} {x y : SharedPtr} (v : SharedPtr)
    (hx : s.getS this = some x) (hy : s.getS other = some y) :
    ∃ z, (s.setS this v).getS other = some z := by
  by_cases e : this = other
  · subst e
    exact ⟨v, State.getS_setS_same v (State.getS_lt hx)⟩
  · exact ⟨y, (State.getS_setS_ne s v e).trans hy⟩

theorem getW_after_setW {s : State} {this other : Nat} {x y : WeakPtr} (v : WeakPtr)
    (hx : s.getW this = some x) (hy : s.getW other = some y) :
    ∃ z, (s.setW this v).getW other = some z := by
  by_cases e : this = other
  · subst e
    exact ⟨v, State.getW_setW_same v (State.getW_lt hx)⟩
  · exact ⟨y, (State.getW_setW_ne s v e).trans hy⟩

theorem step_cover {s : State} {n : Nat} {op : Op} (hJ : s.countsCover n)
    (hn : n + 1 < SIZE_MOD) (hlive : op.objectsLive s = true) :
    ∃ s1, step s op = some s1 ∧ s1.countsCover (n + 1) := by
  cases op with
  | sharedDefault =>
    exact pushS_bump_cover ⟨none, none⟩ hJ hn (fun _ hk => by cases hk)
  | sharedRaw p => exact ctorRaw_cover p hJ
  | sharedCopy other =>
    have hl : (s.getS other).isSome = true := hlive
    obtain ⟨x, hx⟩ := Option.isSome_iff_exists.1 hl
    obtain ⟨s1, h1, hc⟩ := pushS_bump_cover ⟨x.ptr, x.block⟩ hJ hn
      (fun _ hk => Or.inl (cover_liveS hJ hx hk))
    exact ⟨s1, SharedPtr.ctorCopy_intro hx h1, hc⟩
  | sharedAssign this other =>
    have hl : ((s.getS this).isSome && (s.getS other).isSome) = true := hlive
    rw [Bool.and_eq_true] at hl
    obtain ⟨x, hx⟩ := Option.isSome_iff_exists.1 hl.1
    obtain ⟨y, hy⟩ := Option.isSome_iff_exists.1 hl.2
    obtain ⟨s0, s1, hc, h1, hcov⟩ := assignS_cover y.ptr y.block hJ hn hx
      (fun _ hk => Or.inl (cover_liveS hJ hy hk))
    exact ⟨s1, SharedPtr.assign_intro hx hy hc h1, hcov⟩
  | sharedMove other =>
    have hl : (s.getS other).isSome = true := hlive
    obtain ⟨x, hx⟩ := Option.isSome_iff_exists.1 hl
    obtain ⟨s2, h1, hc2⟩ := pushS_bump_cover ⟨x.ptr, x.block⟩ hJ hn
      (fun _ hk => Or.inl (cover_liveS hJ hx hk))
    have hx2 : s2.getS other = some x :=
      (State.getS_objs (State.bumpStrong_objs h1).1 other).trans
        (State.getS_pushS_of_some _ hx)
    obtain ⟨s3, h2, hc3⟩ := resetS_cover hc2 hn hx2
    exact ⟨_, SharedPtr.ctorMove_intro hx h1 h2, hc3⟩
  | sharedMoveAssign this other =>
    have hl : ((s.getS this).isSome && (s.getS other).isSome) = true := hlive
    rw [Bool.and_eq_true] at hl
    obtain ⟨x, hx⟩ := Option.isSome_iff_exists.1 hl.1
    obtain ⟨y, hy⟩ := Option.isSome_iff_exists.1 hl.2
    obtain ⟨s0, s3, hc, h1, hc3⟩ := assignS_cover y.ptr y.block hJ hn hx
      (fun _ hk => Or.inl (cover_liveS hJ hy hk))
    have hobj := caseS_objs hc
    obtain ⟨z, hz⟩ := getS_after_setS ⟨y.ptr, y.block⟩
      ((State.getS_objs hobj.1 this).trans hx) ((State.getS_objs hobj.1 other).trans hy)
    have hz3 : s3.getS other = some z :=
      (State.getS_objs (State.bumpStrong_objs h1).1 other).trans hz
    obtain ⟨s4, h2, hc4⟩ := resetS_cover hc3 hn hz3
    exact ⟨_, SharedPtr.moveAssign_intro hx hy hc h1 h2, hc4⟩
  | sharedFromWeak other =>
    have hl : (s.getW other).isSome = true := hlive
    obtain ⟨x, hx⟩ := Option.isSome_iff_exists.1 hl
    obtain ⟨s1, h1, hc⟩ := pushS_bump_cover ⟨x.ptr, x.block⟩ hJ hn
      (fun _ hk => Or.inr (cover_liveW hJ hx hk))
    exact ⟨s1, SharedPtr.ctorWeak_intro hx h1, hc⟩
  | sharedReset this =>
    have hl : (s.getS this).isSome = true := hlive
    obtain ⟨x, hx⟩ := Option.isSome_iff_exists.1 hl
    obtain ⟨s0, h1, hc⟩ := resetS_cover hJ (Nat.lt_of_succ_lt hn) hx
    exact ⟨_, SharedPtr.Reset_eq hx h1, State.countsCover_mono hc (Nat.le_succ n)⟩
  | sharedDtor this =>
    have hl : (s.getS this).isSome = true := hlive
    obtain ⟨x, hx⟩ := Option.isSome_iff_exists.1 hl
    obtain ⟨s0, h1, hc⟩ := dtorS_cover hJ (Nat.lt_of_succ_lt hn) hx
    exact ⟨_, SharedPtr.dtor_eq h1, State.countsCover_mono hc (Nat.le_succ n)⟩
  | weakDefault =>
    exact pushW_bump_cover ⟨none, none⟩ hJ hn (fun _ hk => by cases hk)
  | weakCopy other =>
    have hl : (s.getW other).isSome = true := hlive
    obtain ⟨x, hx⟩ := Option.isSome_iff_exists.1 hl
    obtain ⟨s1, h1, hc⟩ := pushW_bump_cover ⟨x.ptr, x.block⟩ hJ hn
      (fun _ hk => Or.inr (cover_liveW hJ hx hk))
    exact ⟨s1, WeakPtr.weakCtorCopy_intro hx h1, hc⟩
  | weakAssign this other =>
    have hl : ((s.getW this).isSome && (s.getW other).isSome) = true := hlive
    rw [Bool.and_eq_true] at hl
    obtain ⟨x, hx⟩ := Option.isSome_iff_exists.1 hl.1
    obtain ⟨y, hy⟩ := Option.isSome_iff_exists.1 hl.2
    obtain ⟨s0, s1, hc, h1, hcov⟩ := assignW_cover y.ptr y.block hJ hn hx
      (fun _ hk => Or.inr (cover_liveW hJ hy hk))
    exact ⟨s1, WeakPtr.weakAssign_intro hx hy hc h1, hcov⟩
  | weakMove other =>
    have hl : (s.getW other).isSome = true := hlive
    obtain ⟨x, hx⟩ := Option.isSome_iff_exists.1 hl
    obtain ⟨s2, h1, hc2⟩ := pushW_bump_cover ⟨x.ptr, x.block⟩ hJ hn
      (fun _ hk => Or.inr (cover_liveW hJ hx hk))
    have hx2 : s2.getW other = some x :=
      (State.getW_objs (State.bumpWeak_objs h1).2 other).trans
        (State.getW_pushW_of_some _ hx)
    obtain ⟨s3, h2, hc3⟩ := resetW_cover hc2 hn hx2
    exact ⟨_, WeakPtr.weakCtorMove_intro hx h1 h2, hc3⟩
  | weakMoveAssign this other =>
    have hl : ((s.getW this).isSome && (s.getW other).isSome) = true := hlive
    rw [Bool.and_eq_true] at hl
    obtain ⟨x, hx⟩ := Option.isSome_iff_exists.1 hl.1
    obtain ⟨y, hy⟩ := Option.isSome_iff_exists.1 hl.2
    obtain ⟨s0, s3, hc, h1, hc3⟩ := assignW_cover y.ptr y.block hJ hn hx
      (fun _ hk => Or.inr (cover_liveW hJ hy hk))
    have hobj := caseW_objs hc
    obtain ⟨z, hz⟩ := getW_after_setW ⟨y.ptr, y.block⟩
      ((State.getW_objs hobj.2 this).trans hx) ((State.getW_objs hobj.2 other).trans hy)
    have hz3 : s3.getW other = some z :=
      (State.getW_objs (State.bumpWeak_objs h1).2 other).trans hz
    obtain ⟨s4, h2, hc4⟩ := resetW_cover hc3 hn hz3
    exact ⟨_, WeakPtr.weakMoveAssign_intro hx hy hc h1 h2, hc4⟩
  | weakFromShared other =>
    have hl : (s.getS other).isSome = true := hlive
    obtain ⟨x, hx⟩ := Option.isSome_iff_exists.1 hl
    obtain ⟨s1, h1, hc⟩ := pushW_bump_cover ⟨x.ptr, x.block⟩ hJ hn
      (fun _ hk => Or.inl (cover_liveS hJ hx hk))
    exact ⟨s1, WeakPtr.ctorShared_intro hx h1, hc⟩
  | weakAssignShared this other =>
    have hl : ((s.getW this).isSome && (s.getS other).isSome) = true := hlive
    rw [Bool.and_eq_true] at hl
    obtain ⟨x, hx⟩ := Option.isSome_iff_exists.1 hl.1
    obtain ⟨y, hy⟩ := Option.isSome_iff_exists.1 hl.2
    obtain ⟨s0, s1, hc, h1, hcov⟩ := assignW_cover y.ptr y.block hJ hn hx
      (fun _ hk => Or.inl (cover_liveS hJ hy hk))
    exact ⟨s1, WeakPtr.assignShared_intro hx hy hc h1, hcov⟩
  | weakReset this =>
    have hl : (s.getW this).isSome = true := hlive
    obtain ⟨x, hx⟩ := Option.isSome_iff_exists.1 hl
    obtain ⟨s0, h1, hc⟩ := resetW_cover hJ (Nat.lt_of_succ_lt hn) hx
    exact ⟨_, WeakPtr.weakReset_eq hx h1, State.countsCover_mono hc (Nat.le_succ n)⟩
  | weakExpired this =>
    have hl : (s.getW this).isSome = true := hlive
    obtain ⟨x, hx⟩ := Option.isSome_iff_exists.1 hl
    refine ⟨s, ?_, State.countsCover_mono hJ (Nat.le_succ n)⟩
    obtain ⟨p, blk⟩ := x
    cases blk with
    | none =>
      show (WeakPtr.Expired s this).map Prod.snd = some s
      unfold WeakPtr.Expired
      rw [hx]
      rfl
    | some k =>
      obtain ⟨c, hc⟩ := State.load_of_weakOf_pos (cover_liveW hJ hx rfl)
      show (WeakPtr.Expired s this).map Prod.snd = some s
      rw [WeakPtr.Expired_eq hx hc]
      rfl
  | weakLock this =>
    have hl : (s.getW this).isSome = true := hlive
    obtain ⟨x, hx⟩ := Option.isSome_iff_exists.1 hl
    obtain ⟨s1, h1, hc⟩ := pushS_bump_cover ⟨x.ptr, x.block⟩ hJ hn
      (fun _ hk => Or.inr (cover_liveW hJ hx hk))
    exact ⟨s1, SharedPtr.ctorWeak_intro hx h1, hc⟩
  | weakDtor this =>
    have hl : (s.getW this).isSome = true := hlive
    obtain ⟨x, hx⟩ := Option.isSome_iff_exists.1 hl
    obtain ⟨s0, h1, hc⟩ := dtorW_cover hJ (Nat.lt_of_succ_lt hn) hx
    exact ⟨_, WeakPtr.weakDtor_eq h1, State.countsCover_mono hc (Nat.le_succ n)⟩

theorem run_cover (ops : List Op) {s : State} {n : Nat} (hJ : s.countsCover n)
    (hn : n + ops.length < SIZE_MOD) (hlive : liveRun s ops = true) :
    ∃ s1, run s ops = some s1 ∧ s1.countsCover (n + ops.length) := by
  induction ops generalizing s n with
  | nil => exact ⟨s, rfl, hJ⟩
  | cons op ops ih =>
    have hlen : (op :: ops).length = ops.length + 1 := rfl
    rw [hlen] at hn ⊢
    have hl : (op.objectsLive s && (match step s op with
        | some s1 => liveRun s1 ops
        | none => true)) = true := hlive
    rw [Bool.and_eq_true] at hl
    obtain ⟨s1, h1, hc1⟩ := step_cover hJ (by omega) hl.1
    have hl2 := hl.2
    rw [h1] at hl2
    obtain ⟨s2, h2, hc2⟩ := ih hc1 (by omega) hl2
    refine ⟨s2, ?_, ?_⟩
    · rw [run_cons, h1]
      exact h2
    · have e : n + 1 + ops.length = n + (ops.length + 1) := by omega
      rw [← e]
      exact hc2

/-! ## Destruction of control blocks along a run over live objects -/

theorem liveRun_append (pre suf : List Op) {s : State}
    (h : liveRun s (pre ++ suf) = true) : liveRun s pre = true := by
  induction pre generalizing s with
  | nil => rfl
  | cons op pre ih =>
    have hl : (op.objectsLive s && (match step s op with
        | some s1 => liveRun s1 (pre ++ suf)
        | none => true)) = true := h
    rw [Bool.and_eq_true] at hl
    show (op.objectsLive s && (match step s op with
        | some s1 => liveRun s1 pre
        | none => true)) = true
    rw [Bool.and_eq_true]
    refine ⟨hl.1, ?_⟩
    cases hs : step s op with
    | none => rfl
    | some s1 =>
      have h2 := hl.2
      rw [hs] at h2
      exact ih h2

/-- C18 (a control block is destroyed at most once, and only with both
counters 0).  Take any sequence of fewer than 2^64 operations, run from the
empty state, in which every operation names objects that are live when it
starts.  The run returns a state: no operation reads or writes a block that
was deleted.  In that state every address occurs at most once among the
arguments of `delete block`; a block that was deleted holds the counters
(0, 0), can no longer be read, and no live owner and no live observer refers
to it.  `delete block` leaves the counters as they are and no later operation
writes to the block, so the counters were (0, 0) when it ran; a beginning of
such a run is such a run (`liveRun_append`), so the same holds after each
step. -/
theorem block_deleted_at_most_once (ops : List Op)
    (hlive : liveRun State.init ops = true) (hlen : ops.length < SIZE_MOD) :
    ∃ s, run State.init ops = some s ∧
      ∀ b, s.blockDeletes b ≤ 1 ∧
        (b ∈ s.deletedBlocks →
          s.contents b = some ⟨0, 0⟩ ∧ s.load b = none ∧
          s.sharedRefs b = 0 ∧ s.weakRefs b = 0) := by
  obtain ⟨s, h, hcov⟩ := run_cover ops countsCover_init (by omega) hlive
  have hok : s.deletedOk := run_stable deletedOk_stable ops h State.deletedOk_init
  refine ⟨s, h, ?_⟩
  intro b
  refine ⟨List.nodup_iff_count_le_one.1 hok.1 b, ?_⟩
  intro hb
  have hc := hok.2 b hb
  have hload : s.load b = none := by
    unfold State.load
    rw [hc]
    rfl
  obtain ⟨i1, i2, _, _⟩ := hcov b
  rw [State.strongOf_of_none hload] at i1
  rw [State.weakOf_of_none hload] at i2
  refine ⟨?_, hload, Nat.le_zero.1 i1, Nat.le_zero.1 i2⟩
  unfold State.contents
  rw [hc]
  rfl

/-- C18 at a concrete run: `SharedPtr<T> a(v); WeakPtr<T> w(a); ~a; ~w;`.
The destructor of `a` leaves the counters (0, 1) and the block in place; the
destructor of `w` deletes block 0, once, with the counters (0, 0). -/
theorem block_deleted_at_most_once_witness :
    liveRun State.init
      [.sharedRaw (some 7), .weakFromShared 0, .sharedDtor 0, .weakDtor 0] = true ∧
    [Op.sharedRaw (some 7), .weakFromShared 0, .sharedDtor 0, .weakDtor 0].length < SIZE_MOD ∧
    ∃ s, run State.init
        [.sharedRaw (some 7), .weakFromShared 0, .sharedDtor 0, .weakDtor 0] = some s ∧
      ∀ b, s.blockDeletes b ≤ 1 ∧
        (b ∈ s.deletedBlocks →
          s.contents b = some ⟨0, 0⟩ ∧ s.load b = none ∧
          s.sharedRefs b = 0 ∧ s.weakRefs b = 0) :=
  ⟨by decide, by decide,
    block_deleted_at_most_once
      [.sharedRaw (some 7), .weakFromShared 0, .sharedDtor 0, .weakDtor 0]
      (by decide) (by decide)⟩

end Sptr
